import Mathlib

/-!
# Physical plan generator of the execution graph

A shallow embedding of `tree_processor` (PhysicalPlanGenerator.h): the plan
rewriter `transform_json_tree`, the kernel factory `make_kernel`, the tree
builder `expr_tree_from_json` and `build_batch_graph`; and of the message
queue of the transport layer (MessageQueue.cpp).

Strings (`std::string`) are lists of characters.  A property tree is a node
with an `expr` string and an ordered list of children.
-/

namespace ral.batch

/-- A `std::string`, as the list of its characters. -/
abbrev Str := List Char

/-! ## Operator texts and operator tests (not among the sources) -/

/-- Modelled from the spec: the constant LOGICAL_SORT_TEXT is not among the
sources; the operator token the spec lists. -/
def LOGICAL_SORT_TEXT : Str := "LogicalSort".toList
/-- Modelled from the spec: the constant LOGICAL_LIMIT_TEXT. -/
def LOGICAL_LIMIT_TEXT : Str := "LogicalLimit".toList
/-- Modelled from the spec: the constant LOGICAL_MERGE_TEXT. -/
def LOGICAL_MERGE_TEXT : Str := "LogicalMerge".toList
/-- Modelled from the spec: the constant LOGICAL_PARTITION_TEXT. -/
def LOGICAL_PARTITION_TEXT : Str := "LogicalPartition".toList
/-- Modelled from the spec: the constant LOGICAL_SORT_AND_SAMPLE_TEXT. -/
def LOGICAL_SORT_AND_SAMPLE_TEXT : Str := "LogicalSortAndSample".toList
/-- Modelled from the spec: the constant LOGICAL_SINGLE_NODE_PARTITION_TEXT. -/
def LOGICAL_SINGLE_NODE_PARTITION_TEXT : Str := "LogicalSingleNodePartition".toList
/-- Modelled from the spec: the constant LOGICAL_SINGLE_NODE_SORT_AND_SAMPLE_TEXT. -/
def LOGICAL_SINGLE_NODE_SORT_AND_SAMPLE_TEXT : Str := "LogicalSingleNodeSortAndSample".toList
/-- Modelled from the spec: the constant LOGICAL_AGGREGATE_TEXT. -/
def LOGICAL_AGGREGATE_TEXT : Str := "LogicalAggregate".toList
/-- Modelled from the spec: the constant LOGICAL_COMPUTE_AGGREGATE_TEXT. -/
def LOGICAL_COMPUTE_AGGREGATE_TEXT : Str := "LogicalComputeAggregate".toList
/-- Modelled from the spec: the constant LOGICAL_DISTRIBUTE_AGGREGATE_TEXT. -/
def LOGICAL_DISTRIBUTE_AGGREGATE_TEXT : Str := "LogicalDistributeAggregate".toList
/-- Modelled from the spec: the constant LOGICAL_MERGE_AGGREGATE_TEXT. -/
def LOGICAL_MERGE_AGGREGATE_TEXT : Str := "LogicalMergeAggregate".toList
/-- Modelled from the spec: the constant LOGICAL_JOIN_TEXT. -/
def LOGICAL_JOIN_TEXT : Str := "LogicalJoin".toList
/-- Modelled from the spec: the constant LOGICAL_PARTWISE_JOIN_TEXT. -/
def LOGICAL_PARTWISE_JOIN_TEXT : Str := "LogicalPartwiseJoin".toList
/-- Modelled from the spec: the constant LOGICAL_JOIN_PARTITION_TEXT. -/
def LOGICAL_JOIN_PARTITION_TEXT : Str := "LogicalJoinPartition".toList
/-- Modelled from the spec: the constant LOGICAL_PROJECT_TEXT. -/
def LOGICAL_PROJECT_TEXT : Str := "LogicalProject".toList
/-- Modelled from the spec: the constant LOGICAL_FILTER_TEXT. -/
def LOGICAL_FILTER_TEXT : Str := "LogicalFilter".toList
/-- Modelled from the spec: the constant LOGICAL_SCAN_TEXT. -/
def LOGICAL_SCAN_TEXT : Str := "LogicalTableScan".toList
/-- Modelled from the spec: the constant BINDABLE_SCAN_TEXT. -/
def BINDABLE_SCAN_TEXT : Str := "BindableTableScan".toList
/-- Modelled from the spec: the constant LOGICAL_UNION_TEXT. -/
def LOGICAL_UNION_TEXT : Str := "LogicalUnion".toList

/-- Modelled from the spec: the leading operator token of an expression
`<OPERATOR>(args…)`, the text in front of the first opening parenthesis. -/
def operator_token (e : Str) : Str := e.takeWhile (fun c => c != '(')

/-- Modelled from the spec: the operator tests `is_sort`, `is_project`, … are
not among the sources; each holds when the expression's leading operator is
the given token. -/
def has_operator (tok e : Str) : Bool := operator_token e == tok

/-- Modelled from the spec: `is_sort`. -/
def is_sort (e : Str) : Bool := has_operator LOGICAL_SORT_TEXT e
/-- Modelled from the spec: `is_aggregate`. -/
def is_aggregate (e : Str) : Bool := has_operator LOGICAL_AGGREGATE_TEXT e
/-- Modelled from the spec: `is_join`. -/
def is_join (e : Str) : Bool := has_operator LOGICAL_JOIN_TEXT e
/-- Modelled from the spec: `is_project`. -/
def is_project (e : Str) : Bool := has_operator LOGICAL_PROJECT_TEXT e
/-- Modelled from the spec: `is_filter`. -/
def is_filter (e : Str) : Bool := has_operator LOGICAL_FILTER_TEXT e
/-- Modelled from the spec: `is_logical_scan`. -/
def is_logical_scan (e : Str) : Bool := has_operator LOGICAL_SCAN_TEXT e
/-- Modelled from the spec: `is_bindable_scan`. -/
def is_bindable_scan (e : Str) : Bool := has_operator BINDABLE_SCAN_TEXT e
/-- Modelled from the spec: `is_single_node_partition`. -/
def is_single_node_partition (e : Str) : Bool := has_operator LOGICAL_SINGLE_NODE_PARTITION_TEXT e
/-- Modelled from the spec: `is_single_node_sort_and_sample`. -/
def is_single_node_sort_and_sample (e : Str) : Bool :=
  has_operator LOGICAL_SINGLE_NODE_SORT_AND_SAMPLE_TEXT e
/-- Modelled from the spec: `is_partition`. -/
def is_partition (e : Str) : Bool := has_operator LOGICAL_PARTITION_TEXT e
/-- Modelled from the spec: `is_sort_and_sample`. -/
def is_sort_and_sample (e : Str) : Bool := has_operator LOGICAL_SORT_AND_SAMPLE_TEXT e
/-- Modelled from the spec: `is_merge`. -/
def is_merge (e : Str) : Bool := has_operator LOGICAL_MERGE_TEXT e
/-- Modelled from the spec: `is_limit`. -/
def is_limit (e : Str) : Bool := has_operator LOGICAL_LIMIT_TEXT e
/-- Modelled from the spec: `is_compute_aggregate`. -/
def is_compute_aggregate (e : Str) : Bool := has_operator LOGICAL_COMPUTE_AGGREGATE_TEXT e
/-- Modelled from the spec: `is_distribute_aggregate`. -/
def is_distribute_aggregate (e : Str) : Bool := has_operator LOGICAL_DISTRIBUTE_AGGREGATE_TEXT e
/-- Modelled from the spec: `is_merge_aggregate`. -/
def is_merge_aggregate (e : Str) : Bool := has_operator LOGICAL_MERGE_AGGREGATE_TEXT e
/-- Modelled from the spec: `is_pairwise_join`. -/
def is_pairwise_join (e : Str) : Bool := has_operator LOGICAL_PARTWISE_JOIN_TEXT e
/-- Modelled from the spec: `is_join_partition`. -/
def is_join_partition (e : Str) : Bool := has_operator LOGICAL_JOIN_PARTITION_TEXT e
/-- Modelled from the spec: `is_union`. -/
def is_union (e : Str) : Bool := has_operator LOGICAL_UNION_TEXT e

/-- The test of a scan node: LogicalTableScan or BindableTableScan. -/
def is_scan_expr (e : Str) : Bool := is_logical_scan e || is_bindable_scan e

/-- The scan of `StringUtil::findAndReplaceAll`: with `skip` characters of a
found occurrence still to pass over, copy `data`, putting `replaceStr` where
an occurrence of `toSearch` starts. -/
def findAndReplaceAll.scan (toSearch replaceStr : Str) : Nat → Str → Str
  | _, [] => []
  | skip + 1, _ :: cs => findAndReplaceAll.scan toSearch replaceStr skip cs
  | 0, c :: cs =>
    if toSearch.isPrefixOf (c :: cs) then
      replaceStr ++ findAndReplaceAll.scan toSearch replaceStr (toSearch.length - 1) cs
    else
      c :: findAndReplaceAll.scan toSearch replaceStr 0 cs

/-- Modelled from the spec: `StringUtil::findAndReplaceAll` is not among the
sources.  As its call sites name it, it finds every occurrence of `toSearch`
in `data`, from the left and without overlap, and puts `replaceStr` in its
place; the replaced text is not searched again.  `toSearch` is a non-empty
operator text at every call site. -/
def findAndReplaceAll (data toSearch replaceStr : Str) : Str :=
  findAndReplaceAll.scan toSearch replaceStr 0 data

/-! ## The plan tree and its rewrite -/

/-- A `boost::property_tree::ptree` plan node: the value at `expr` and the
array at `children`. -/
inductive ptree where
  | mk (expr : Str) (children : List ptree) : ptree
  deriving Repr

/-- The `expr` entry of a node. -/
def ptree.expr : ptree → Str
  | .mk e _ => e

/-- The `children` entry of a node. -/
def ptree.children : ptree → List ptree
  | .mk _ cs => cs

/-- The one-element array of `create_array_tree`. -/
def create_array_tree (child : ptree) : List ptree := [child]

/-- The part of `transform_json_tree` in front of its loop: the node after
the rewrite of its own operator.  `total_nodes` is
`context->getTotalNodes()`, `has_limit_only` is
`ral::operators::has_limit_only` (not among the sources). -/
def transform_node (total_nodes : Int) (has_limit_only : Str → Bool) (expr : Str)
    (children : List ptree) : ptree :=
  if is_sort expr then
    if has_limit_only expr then
      .mk (findAndReplaceAll expr LOGICAL_SORT_TEXT LOGICAL_LIMIT_TEXT) children
    else
      let limit_expr := findAndReplaceAll expr LOGICAL_SORT_TEXT LOGICAL_LIMIT_TEXT
      let merge_expr := findAndReplaceAll expr LOGICAL_SORT_TEXT LOGICAL_MERGE_TEXT
      let partition_expr :=
        if total_nodes = 1 then
          findAndReplaceAll expr LOGICAL_SORT_TEXT LOGICAL_SINGLE_NODE_PARTITION_TEXT
        else findAndReplaceAll expr LOGICAL_SORT_TEXT LOGICAL_PARTITION_TEXT
      let sort_and_sample_expr :=
        if total_nodes = 1 then
          findAndReplaceAll expr LOGICAL_SORT_TEXT LOGICAL_SINGLE_NODE_SORT_AND_SAMPLE_TEXT
        else findAndReplaceAll expr LOGICAL_SORT_TEXT LOGICAL_SORT_AND_SAMPLE_TEXT
      let sample_tree := ptree.mk sort_and_sample_expr children
      let partition_tree := ptree.mk partition_expr (create_array_tree sample_tree)
      let merge_tree := ptree.mk merge_expr (create_array_tree partition_tree)
      .mk limit_expr (create_array_tree merge_tree)
  else if is_aggregate expr then
    let merge_aggregate_expr :=
      findAndReplaceAll expr LOGICAL_AGGREGATE_TEXT LOGICAL_MERGE_AGGREGATE_TEXT
    let distribute_aggregate_expr :=
      findAndReplaceAll expr LOGICAL_AGGREGATE_TEXT LOGICAL_DISTRIBUTE_AGGREGATE_TEXT
    let compute_aggregate_expr :=
      findAndReplaceAll expr LOGICAL_AGGREGATE_TEXT LOGICAL_COMPUTE_AGGREGATE_TEXT
    if total_nodes = 1 then
      let agg_tree := ptree.mk compute_aggregate_expr children
      .mk merge_aggregate_expr (create_array_tree agg_tree)
    else
      let compute_aggregate_tree := ptree.mk compute_aggregate_expr children
      let distribute_aggregate_tree :=
        ptree.mk distribute_aggregate_expr (create_array_tree compute_aggregate_tree)
      .mk merge_aggregate_expr (create_array_tree distribute_aggregate_tree)
  else if is_join expr then
    if total_nodes = 1 then
      .mk (findAndReplaceAll expr LOGICAL_JOIN_TEXT LOGICAL_PARTWISE_JOIN_TEXT) children
    else
      let pairwise_expr := findAndReplaceAll expr LOGICAL_JOIN_TEXT LOGICAL_PARTWISE_JOIN_TEXT
      let join_partition_expr :=
        findAndReplaceAll expr LOGICAL_JOIN_TEXT LOGICAL_JOIN_PARTITION_TEXT
      let join_partition_tree := ptree.mk join_partition_expr children
      .mk pairwise_expr (create_array_tree join_partition_tree)
  else
    .mk expr children

/-- Run `f` on every element in order; no result as soon as one has none. -/
def allSome {α β : Type} (f : α → Option β) : List α → Option (List β)
  | [] => some []
  | a :: as =>
    match f a with
    | none => none
    | some b =>
      match allSome f as with
      | none => none
      | some bs => some (b :: bs)

/-- The recursive `transform_json_tree`: rewrite the node, then run on every
child of the rewritten node, the inserted ones included.  `fuel` bounds the
depth of the recursion; `none` when it runs out. -/
def transform_json_tree (total_nodes : Int) (has_limit_only : Str → Bool) :
    Nat → ptree → Option ptree
  | 0, _ => none
  | fuel + 1, .mk expr children =>
    match transform_node total_nodes has_limit_only expr children with
    | .mk expr1 children1 =>
      match allSome (transform_json_tree total_nodes has_limit_only fuel) children1 with
      | none => none
      | some cs => some (.mk expr1 cs)

mutual
/-- The tree `transform_json_tree` leaves behind, by recursion on the input:
the node rewrite of `transform_node` placed over the rewritten children. -/
def rewritten (total_nodes : Int) (has_limit_only : Str → Bool) : ptree → ptree
  | .mk expr children =>
    transform_node total_nodes has_limit_only expr
      (rewritten_list total_nodes has_limit_only children)
/-- The rewritten children, in order. -/
def rewritten_list (total_nodes : Int) (has_limit_only : Str → Bool) :
    List ptree → List ptree
  | [] => []
  | c :: cs =>
    rewritten total_nodes has_limit_only c :: rewritten_list total_nodes has_limit_only cs
end

mutual
/-- The number of levels of a tree. -/
def ptree.height : ptree → Nat
  | .mk _ cs => ptree.height_list cs + 1
/-- The largest height among the trees of a list. -/
def ptree.height_list : List ptree → Nat
  | [] => 0
  | c :: cs => max (ptree.height c) (ptree.height_list cs)
end

mutual
/-- The expressions of all nodes of a tree, parents before children. -/
def ptree.exprs : ptree → List Str
  | .mk e cs => e :: ptree.exprs_list cs
/-- The expressions of all nodes of the trees of a list. -/
def ptree.exprs_list : List ptree → List Str
  | [] => []
  | c :: cs => ptree.exprs c ++ ptree.exprs_list cs
end

/-- Fuel that suffices for `transform_json_tree`: a node grows into at most
four levels. -/
def fuel_for (t : ptree) : Nat := 4 * t.height

/-- The expressions of the scan nodes of a tree (LogicalTableScan and
BindableTableScan), parents before children. -/
def ptree.scans (t : ptree) : List Str :=
  t.exprs.filter is_scan_expr

mutual
/-- The expressions of the scan nodes without children. -/
def ptree.leaf_scans : ptree → List Str
  | .mk e cs =>
    (if is_scan_expr e && cs.isEmpty then [e] else [])
      ++ ptree.leaf_scans_list cs
/-- The expressions of the scan leaves of the trees of a list. -/
def ptree.leaf_scans_list : List ptree → List Str
  | [] => []
  | c :: cs => ptree.leaf_scans c ++ ptree.leaf_scans_list cs
end

/-! ## Kernels and the tree of kernels -/

/-- The exceptions that leave the code. -/
inductive error where
  /-- The `BlazingSqlInvalidAlgebraException`, with its message. -/
  | InvalidAlgebra (what : Str)
  /-- The `json_parser_error` of `boost::property_tree::read_json`. -/
  | json_parser_error
  /-- Raised in `get_table_index` for a table that is not registered. -/
  | table_not_found
  /-- The `std::invalid_argument` of `std::stoi` and `std::stoull`. -/
  | invalid_argument
  /-- The `std::out_of_range` of `std::stoi` and `std::stoull`. -/
  | out_of_range
  /-- A plain `std::exception`: the copy that `throw e` makes of an
  exception caught as `std::exception &`. -/
  | std_exception
  deriving DecidableEq, Repr

deriving instance DecidableEq for Except

/-- The `kernel_type` tags set by `make_kernel`. -/
inductive kernel_type where
  | ProjectKernel
  | FilterKernel
  | TableScanKernel
  | BindableTableScanKernel
  | PartitionSingleNodeKernel
  | SortAndSampleSingleNodeKernel
  | PartitionKernel
  | SortAndSampleKernel
  | MergeStreamKernel
  | LimitKernel
  | ComputeAggregateKernel
  | DistributeAggregateKernel
  | MergeAggregateKernel
  | PartwiseJoinKernel
  | JoinPartitionKernel
  | UnionKernel
  deriving DecidableEq, Repr

/-- A kernel: its id, the type tag `make_kernel` gives it, and its expression. -/
structure kernel where
  id : Nat
  type_id : kernel_type
  expr : Str
  deriving DecidableEq, Repr

/-- The kernel `make_kernel` builds for `expr`, with the tests in the order
of the source.  `table_index` stands for
`get_table_index(table_names, extract_table_name(expr))` (not among the
sources), `none` when the table is not registered and the lookup raises;
`id` is the id the new kernel gets.  The constructors of the kernels (not
among the sources) are taken to return. -/
def make_kernel (table_index : Str → Option Nat) (id : Nat) (expr : Str) :
    Except error kernel :=
  if is_project expr then .ok ⟨id, .ProjectKernel, expr⟩
  else if is_filter expr then .ok ⟨id, .FilterKernel, expr⟩
  else if is_logical_scan expr then
    match table_index expr with
    | none => .error .table_not_found
    | some _ => .ok ⟨id, .TableScanKernel, expr⟩
  else if is_bindable_scan expr then
    match table_index expr with
    | none => .error .table_not_found
    | some _ => .ok ⟨id, .BindableTableScanKernel, expr⟩
  else if is_single_node_partition expr then .ok ⟨id, .PartitionSingleNodeKernel, expr⟩
  else if is_single_node_sort_and_sample expr then
    .ok ⟨id, .SortAndSampleSingleNodeKernel, expr⟩
  else if is_partition expr then .ok ⟨id, .PartitionKernel, expr⟩
  else if is_sort_and_sample expr then .ok ⟨id, .SortAndSampleKernel, expr⟩
  else if is_merge expr then .ok ⟨id, .MergeStreamKernel, expr⟩
  else if is_limit expr then .ok ⟨id, .LimitKernel, expr⟩
  else if is_compute_aggregate expr then .ok ⟨id, .ComputeAggregateKernel, expr⟩
  else if is_distribute_aggregate expr then .ok ⟨id, .DistributeAggregateKernel, expr⟩
  else if is_merge_aggregate expr then .ok ⟨id, .MergeAggregateKernel, expr⟩
  else if is_pairwise_join expr then .ok ⟨id, .PartwiseJoinKernel, expr⟩
  else if is_join_partition expr then .ok ⟨id, .JoinPartitionKernel, expr⟩
  else if is_union expr then .ok ⟨id, .UnionKernel, expr⟩
  else
    .error (.InvalidAlgebra
      ("expression in the Algebra Relational is currently not supported: ".toList ++ expr))

/-- A `tree_processor::node`: expression, level, kernel and children. -/
inductive node where
  | mk (expr : Str) (level : Nat) (kernel_unit : kernel) (children : List node) : node
  deriving Repr

/-- The kernel of a node. -/
def node.kernel_unit : node → kernel
  | .mk _ _ k _ => k

/-- The children of a node. -/
def node.children : node → List node
  | .mk _ _ _ cs => cs

mutual
/-- The builder `expr_tree_from_json`: the kernel of the node first, then the
children from left to right.  `next_id` is the id of the next kernel; the
result carries the id after the last kernel made. -/
def expr_tree_from_json (table_index : Str → Option Nat) :
    ptree → Nat → Nat → Except error (node × Nat)
  | .mk expr children, level, next_id =>
    match make_kernel table_index next_id expr with
    | .error e => .error e
    | .ok k =>
      match expr_tree_from_json_children table_index children (level + 1) (next_id + 1) with
      | .error e => .error e
      | .ok (cs, next) => .ok (.mk expr level k cs, next)
/-- The loop of `expr_tree_from_json` over the children. -/
def expr_tree_from_json_children (table_index : Str → Option Nat) :
    List ptree → Nat → Nat → Except error (List node × Nat)
  | [], _, next_id => .ok ([], next_id)
  | c :: cs, level, next_id =>
    match expr_tree_from_json table_index c level next_id with
    | .error e => .error e
    | .ok (n, next1) =>
      match expr_tree_from_json_children table_index cs level next1 with
      | .error e => .error e
      | .ok (ns, next2) => .ok (n :: ns, next2)
end

/-! ## Edges and their cache settings -/

/-- The `CacheType` of a channel. -/
inductive CacheType where
  | SIMPLE
  | CONCATENATING
  | FOR_EACH
  deriving DecidableEq, Repr

/-- The largest `std::uint32_t`. -/
def UINT32_MAX : Nat := 2 ^ 32 - 1

/-- The largest `std::size_t` (64 bits). -/
def SIZE_MAX : Nat := 2 ^ 64 - 1

/-- The `cache_settings` of an edge. -/
structure cache_settings where
  type : CacheType
  num_partitions : Int
  flow_control_batches_threshold : Nat
  flow_control_bytes_threshold : Nat
  deriving DecidableEq, Repr

/-- Modelled from the spec: the declaration of `cache_settings` is not among
the sources; the settings of an edge made without a configuration, and the
thresholds of a configuration that names none, are the unlimited defaults:
SIMPLE, one partition, both thresholds MAX. -/
def default_cache_settings : cache_settings := ⟨.SIMPLE, 1, UINT32_MAX, SIZE_MAX⟩

/-- An edge of the query graph: from a port of the producer to a port of the
consumer, through a cache with the given settings. -/
structure edge where
  source : kernel
  source_port : Str
  target : kernel
  target_port : Str
  config : cache_settings
  deriving DecidableEq, Repr

/-- The query graph: the kernels registered by `add_node` and the edges
linked, in the order they were added. -/
structure graph where
  nodes : List kernel
  edges : List edge
  deriving DecidableEq, Repr

/-- Modelled from the spec: the default output port of a kernel, used when
`link` or `>>` is given the kernel itself. -/
def default_output_port : Str := "output".toList

/-- Modelled from the spec: the default input port of a kernel. -/
def default_input_port : Str := "input".toList

/-! ## Numbers in the options -/

/-- The white space `strtol` and `strtoull` skip. -/
def isspace (c : Char) : Bool :=
  c == ' ' || c == '\t' || c == '\n' || c == '\x0b' || c == '\x0c' || c == '\r'

/-- The value of a run of decimal digits, most significant first. -/
def digits_value (ds : Str) : Nat :=
  ds.foldl (fun acc c => 10 * acc + (c.toNat - '0'.toNat)) 0

/-- The sign and the digits `strtol` and `strtoull` read in base 10: white
space, an optional sign, then the longest run of digits; what follows is
ignored. -/
def scan_number (s : Str) : Bool × Str :=
  match s.dropWhile isspace with
  | '-' :: r => (true, r.takeWhile Char.isDigit)
  | '+' :: r => (false, r.takeWhile Char.isDigit)
  | r => (false, r.takeWhile Char.isDigit)

/-- The standard `std::stoi` in base 10: `invalid_argument` without a digit,
`out_of_range` when the value is not an `int` of 32 bits. -/
def stoi (s : Str) : Except error Int :=
  match scan_number s with
  | (_, []) => .error .invalid_argument
  | (negative, ds) =>
    let v : Int := if negative then - (digits_value ds : Int) else (digits_value ds : Int)
    if v < -(2 ^ 31) ∨ 2 ^ 31 - 1 < v then .error .out_of_range else .ok v

/-- The standard `std::stoull` in base 10: `invalid_argument` without a
digit, `out_of_range` when the digits exceed 64 bits; a minus sign negates
the value modulo 2^64. -/
def stoull (s : Str) : Except error Nat :=
  match scan_number s with
  | (_, []) => .error .invalid_argument
  | (negative, ds) =>
    let v := digits_value ds
    if SIZE_MAX < v then .error .out_of_range
    else .ok (if negative then (2 ^ 64 - v) % 2 ^ 64 else v)

/-- The conversion of an `int` to `std::uint32_t`. -/
def to_uint32 (v : Int) : Nat := (v % 2 ^ 32).toNat

/-! ## Linking the kernels: `visit` -/

/-- The options of the context, `context->getConfigOptions()`: the value of
a key, when the key is set. -/
abbrev config_options := Str → Option Str

/-- The two flow-control thresholds `visit` computes for an edge: the options
read with `std::stoi` and `std::stoull` (MAX when not set), then, when only
one differs from MAX, the other one set to 0. -/
def flow_control_thresholds (options : config_options) : Except error (Nat × Nat) :=
  match (match options "FLOW_CONTROL_BATCHES_THRESHOLD".toList with
         | none => Except.ok UINT32_MAX
         | some v =>
           match stoi v with
           | .error e => .error e
           | .ok i => .ok (to_uint32 i)) with
  | .error e => .error e
  | .ok batches =>
    match (match options "FLOW_CONTROL_BYTES_THRESHOLD".toList with
           | none => Except.ok SIZE_MAX
           | some v => stoull v) with
    | .error e => .error e
    | .ok bytes =>
      if batches ≠ UINT32_MAX ∨ bytes ≠ SIZE_MAX then
        .ok (if batches = UINT32_MAX then 0 else batches,
             if bytes = SIZE_MAX then 0 else bytes)
      else .ok (batches, bytes)

/-- The port `input_` followed by the character `'a' + index`, a `char`. -/
def input_port_name (index : Nat) : Str :=
  "input_".toList ++ [Char.ofNat ((97 + index) % 256)]

/-- The edges one round of the loop of `visit` links for the child at `index`
of a parent with `size` children.  `can_throttle` is
`can_you_throttle_my_input()` of a kernel. -/
def child_edges (options : config_options) (can_throttle : kernel → Bool)
    (parent : kernel) (size index : Nat) (child : kernel) : Except error (List edge) :=
  match flow_control_thresholds options with
  | .error e => .error e
  | .ok (flow_control_batches_threshold, flow_control_bytes_threshold) =>
    let default_throttled_cache_machine_config : cache_settings :=
      ⟨.SIMPLE, 1, flow_control_batches_threshold, flow_control_bytes_threshold⟩
    if 1 < size then
      let port_name := input_port_name index
      if can_throttle parent then
        .ok [⟨child, default_output_port, parent, port_name,
              default_throttled_cache_machine_config⟩]
      else
        .ok [⟨child, default_output_port, parent, port_name, default_cache_settings⟩]
    else
      let child_kernel_type := child.type_id
      let parent_kernel_type := parent.type_id
      if (child_kernel_type = .JoinPartitionKernel ∧ parent_kernel_type = .PartwiseJoinKernel)
          ∨ (child_kernel_type = .SortAndSampleKernel ∧ parent_kernel_type = .PartitionKernel)
          ∨ (child_kernel_type = .SortAndSampleSingleNodeKernel
              ∧ parent_kernel_type = .PartitionSingleNodeKernel) then
        if can_throttle parent then
          .ok [⟨child, "output_a".toList, parent, "input_a".toList,
                default_throttled_cache_machine_config⟩,
               ⟨child, "output_b".toList, parent, "input_b".toList,
                default_throttled_cache_machine_config⟩]
        else
          .ok [⟨child, "output_a".toList, parent, "input_a".toList, default_cache_settings⟩,
               ⟨child, "output_b".toList, parent, "input_b".toList, default_cache_settings⟩]
      else if (child_kernel_type = .PartitionKernel ∧ parent_kernel_type = .MergeStreamKernel)
          ∨ (child_kernel_type = .PartitionSingleNodeKernel
              ∧ parent_kernel_type = .MergeStreamKernel) then
        match (match options "MAX_NUM_ORDER_BY_PARTITIONS_PER_NODE".toList with
               | none => Except.ok (8 : Int)
               | some v => stoi v) with
        | .error e => .error e
        | .ok max_num_order_by_partitions_per_node =>
          if can_throttle parent then
            .ok [⟨child, default_output_port, parent, default_input_port,
                  ⟨.FOR_EACH, max_num_order_by_partitions_per_node,
                   flow_control_batches_threshold, flow_control_bytes_threshold⟩⟩]
          else
            .ok [⟨child, default_output_port, parent, default_input_port,
                  ⟨.FOR_EACH, max_num_order_by_partitions_per_node,
                   default_cache_settings.flow_control_batches_threshold,
                   default_cache_settings.flow_control_bytes_threshold⟩⟩]
      else if child_kernel_type = .TableScanKernel
          ∨ child_kernel_type = .BindableTableScanKernel then
        match (match options "MAX_DATA_LOAD_CONCAT_CACHE_BYTES_SIZE".toList with
               | none => Except.ok (400000000 : Nat)
               | some v => stoull v) with
        | .error e => .error e
        | .ok max_data_load_concat_cache_bytes_size =>
          let loading_flow_control_batches_threshold :=
            if flow_control_batches_threshold ≠ UINT32_MAX then flow_control_batches_threshold
            else 0
          .ok [⟨child, default_output_port, parent, default_input_port,
                ⟨.CONCATENATING, 1, loading_flow_control_batches_threshold,
                 max_data_load_concat_cache_bytes_size⟩⟩]
      else
        if can_throttle parent then
          .ok [⟨child, default_output_port, parent, default_input_port,
                default_throttled_cache_machine_config⟩]
        else
          .ok [⟨child, default_output_port, parent, default_input_port,
                default_cache_settings⟩]

mutual
/-- The call `visit(query_graph, child, child->children)` on a node. -/
def visit_node (options : config_options) (can_throttle : kernel → Bool) :
    node → graph → graph × Option error
  | .mk _ _ k cs, g => visit options can_throttle k cs.length 0 cs g
/-- The loop of `visit` from `index` on, over the children still to come:
first the subtree of the child, then the edges from the child to `parent`.
The result is the graph when the loop ends and the exception that ended it,
if one did. -/
def visit (options : config_options) (can_throttle : kernel → Bool) (parent : kernel)
    (size : Nat) : Nat → List node → graph → graph × Option error
  | _, [], g => (g, none)
  | index, child :: rest, g =>
    match visit_node options can_throttle child g with
    | (g1, some e) => (g1, some e)
    | (g1, none) =>
      match child_edges options can_throttle parent size index child.kernel_unit with
      | .error e => (g1, some e)
      | .ok es =>
        visit options can_throttle parent size (index + 1) rest ⟨g1.nodes, g1.edges ++ es⟩
end

/-! ## The whole build -/

/-- The exception that leaves the handler of `build_batch_graph`: the handler
catches `std::exception & e` and ends with `throw e`, which throws a copy
made from the static type of `e`, a plain `std::exception`. -/
def rethrown (_e : error) : error := .std_exception

/-- How a call of `build_batch_graph` ends: the state of `query_graph` at
that moment, and the exception that left the call, if one did. -/
structure outcome where
  query_graph : graph
  raised : Option error
  deriving DecidableEq, Repr

/-- The guarded block of `build_batch_graph`: the plan read by `read_json`
(`none` when the text is malformed and `read_json` raises), rewritten by
`transform_json_tree`, then built by `expr_tree_from_json` from level 0.
The outer `none` is the rewrite out of fuel. -/
def build_tree (total_nodes : Int) (has_limit_only : Str → Bool)
    (table_index : Str → Option Nat) (fuel : Nat) (json : Option ptree) :
    Option (Except error node) :=
  match json with
  | none => some (.error .json_parser_error)
  | some p_tree =>
    match transform_json_tree total_nodes has_limit_only fuel p_tree with
    | none => none
    | some t =>
      match expr_tree_from_json table_index t 0 0 with
      | .error e => some (.error e)
      | .ok (root, _) => some (.ok root)

/-- The method `build_batch_graph`: the guarded block, whose exceptions are
logged and thrown again; then the root registered with `add_node` and the
edges linked by `visit`. -/
def build_batch_graph (total_nodes : Int) (has_limit_only : Str → Bool)
    (table_index : Str → Option Nat) (options : config_options)
    (can_throttle : kernel → Bool) (fuel : Nat) (json : Option ptree) : Option outcome :=
  match build_tree total_nodes has_limit_only table_index fuel json with
  | none => none
  | some (.error e) => some ⟨⟨[], []⟩, some (rethrown e)⟩
  | some (.ok root) =>
    match visit options can_throttle root.kernel_unit root.children.length 0 root.children
        ⟨[root.kernel_unit], []⟩ with
    | (g, r) => some ⟨g, r⟩

/-! ## Definitions used in the statements and proofs -/

/-- An operator text: not empty and without an opening parenthesis. -/
def is_token (X : Str) : Prop := X ≠ [] ∧ ∀ c ∈ X, c ≠ '('

instance (X : Str) : Decidable (is_token X) := by
  unfold is_token; exact inferInstance

/-- The expressions `transform_node` puts in place of a node with expression
`e`: those of the rewritten node and of the nodes inserted below it. -/
def produced (total_nodes : Int) (has_limit_only : Str → Bool) (e : Str) : List Str :=
  (transform_node total_nodes has_limit_only e []).exprs

/-- The chain of nodes with the given expressions, each the single child of
the one before, the last over `cs`. -/
def chain_of : List Str → List ptree → ptree
  | [], cs => .mk [] cs
  | [e], cs => .mk e cs
  | e :: e2 :: es, cs => .mk e [chain_of (e2 :: es) cs]

/-- Neither sort nor aggregate nor join: an expression the rewrite leaves. -/
def plain (e : Str) : Prop := is_sort e = false ∧ is_aggregate e = false ∧ is_join e = false

/-- The operator texts the rewrite writes. -/
def new_tokens : List Str :=
  [LOGICAL_LIMIT_TEXT, LOGICAL_MERGE_TEXT, LOGICAL_PARTITION_TEXT, LOGICAL_SORT_AND_SAMPLE_TEXT,
   LOGICAL_SINGLE_NODE_PARTITION_TEXT, LOGICAL_SINGLE_NODE_SORT_AND_SAMPLE_TEXT,
   LOGICAL_MERGE_AGGREGATE_TEXT, LOGICAL_DISTRIBUTE_AGGREGATE_TEXT,
   LOGICAL_COMPUTE_AGGREGATE_TEXT, LOGICAL_PARTWISE_JOIN_TEXT, LOGICAL_JOIN_PARTITION_TEXT]

/-- The operator texts the rewrite replaces. -/
def old_tokens : List Str := [LOGICAL_SORT_TEXT, LOGICAL_AGGREGATE_TEXT, LOGICAL_JOIN_TEXT]

/-- The tokens written for a node, by the case of the rewrite. -/
def written (N : Int) (hlo : Str → Bool) (e : Str) : Str × List Str :=
  if is_sort e then
    (LOGICAL_SORT_TEXT,
      if hlo e then [LOGICAL_LIMIT_TEXT]
      else if N = 1 then
        [LOGICAL_LIMIT_TEXT, LOGICAL_MERGE_TEXT, LOGICAL_SINGLE_NODE_PARTITION_TEXT,
         LOGICAL_SINGLE_NODE_SORT_AND_SAMPLE_TEXT]
      else
        [LOGICAL_LIMIT_TEXT, LOGICAL_MERGE_TEXT, LOGICAL_PARTITION_TEXT,
         LOGICAL_SORT_AND_SAMPLE_TEXT])
  else if is_aggregate e then
    (LOGICAL_AGGREGATE_TEXT,
      if N = 1 then [LOGICAL_MERGE_AGGREGATE_TEXT, LOGICAL_COMPUTE_AGGREGATE_TEXT]
      else [LOGICAL_MERGE_AGGREGATE_TEXT, LOGICAL_DISTRIBUTE_AGGREGATE_TEXT,
            LOGICAL_COMPUTE_AGGREGATE_TEXT])
  else
    (LOGICAL_JOIN_TEXT,
      if N = 1 then [LOGICAL_PARTWISE_JOIN_TEXT]
      else [LOGICAL_PARTWISE_JOIN_TEXT, LOGICAL_JOIN_PARTITION_TEXT])

/-- The operators of the plans of the logical planner. -/
def planner_tokens : List Str :=
  [LOGICAL_PROJECT_TEXT, LOGICAL_FILTER_TEXT, LOGICAL_SCAN_TEXT, BINDABLE_SCAN_TEXT,
   LOGICAL_SORT_TEXT, LOGICAL_AGGREGATE_TEXT, LOGICAL_JOIN_TEXT, LOGICAL_UNION_TEXT,
   LOGICAL_LIMIT_TEXT]

/-- The operators left by the rewrite of a planner plan on a single node. -/
def single_node_tokens : List Str :=
  [LOGICAL_PROJECT_TEXT, LOGICAL_FILTER_TEXT, LOGICAL_SCAN_TEXT, BINDABLE_SCAN_TEXT,
   LOGICAL_UNION_TEXT, LOGICAL_LIMIT_TEXT, LOGICAL_MERGE_TEXT,
   LOGICAL_SINGLE_NODE_PARTITION_TEXT, LOGICAL_SINGLE_NODE_SORT_AND_SAMPLE_TEXT,
   LOGICAL_MERGE_AGGREGATE_TEXT, LOGICAL_COMPUTE_AGGREGATE_TEXT, LOGICAL_PARTWISE_JOIN_TEXT]

/-- A kernel of one of the four distributed kinds comes from an expression
with the operator of that kind. -/
def kind_sound (x : Str) (k : kernel) : Prop :=
  (k.type_id = .DistributeAggregateKernel → is_distribute_aggregate x = true) ∧
  (k.type_id = .JoinPartitionKernel → is_join_partition x = true) ∧
  (k.type_id = .PartitionKernel → is_partition x = true) ∧
  (k.type_id = .SortAndSampleKernel → is_sort_and_sample x = true)

/-- The operator tokens `make_kernel` builds a kernel for. -/
def buildable_tokens : List Str :=
  [LOGICAL_PROJECT_TEXT, LOGICAL_FILTER_TEXT, LOGICAL_SCAN_TEXT, BINDABLE_SCAN_TEXT,
   LOGICAL_SINGLE_NODE_PARTITION_TEXT, LOGICAL_SINGLE_NODE_SORT_AND_SAMPLE_TEXT,
   LOGICAL_PARTITION_TEXT, LOGICAL_SORT_AND_SAMPLE_TEXT, LOGICAL_MERGE_TEXT,
   LOGICAL_LIMIT_TEXT, LOGICAL_COMPUTE_AGGREGATE_TEXT, LOGICAL_DISTRIBUTE_AGGREGATE_TEXT,
   LOGICAL_MERGE_AGGREGATE_TEXT, LOGICAL_PARTWISE_JOIN_TEXT, LOGICAL_JOIN_PARTITION_TEXT,
   LOGICAL_UNION_TEXT]

/-- The operator tokens the plan input recognizes: those of the planner and
those the rewrite introduces. -/
def recognized_tokens : List Str :=
  [LOGICAL_PROJECT_TEXT, LOGICAL_FILTER_TEXT, LOGICAL_SCAN_TEXT, BINDABLE_SCAN_TEXT,
   LOGICAL_SORT_TEXT, LOGICAL_AGGREGATE_TEXT, LOGICAL_JOIN_TEXT, LOGICAL_UNION_TEXT,
   LOGICAL_LIMIT_TEXT, LOGICAL_MERGE_TEXT, LOGICAL_PARTITION_TEXT,
   LOGICAL_SINGLE_NODE_PARTITION_TEXT, LOGICAL_SORT_AND_SAMPLE_TEXT,
   LOGICAL_SINGLE_NODE_SORT_AND_SAMPLE_TEXT, LOGICAL_COMPUTE_AGGREGATE_TEXT,
   LOGICAL_DISTRIBUTE_AGGREGATE_TEXT, LOGICAL_MERGE_AGGREGATE_TEXT,
   LOGICAL_PARTWISE_JOIN_TEXT, LOGICAL_JOIN_PARTITION_TEXT]

/-- The kernel of `x` can be made: its operator is buildable and, for a scan,
its table is registered. -/
def kernel_ok (ti : Str → Option Nat) (x : Str) : Prop :=
  operator_token x ∈ buildable_tokens ∧ (is_scan_expr x = true → ti x ≠ none)

/-- What `make_kernel` does on `x`: a kernel when it can be made, the lookup
failure for a scan of a table that is not registered, and InvalidAlgebra
when the operator is not buildable. -/
def make_kernel_result (ti : Str → Option Nat) (x : Str) (r : Except error kernel) : Prop :=
  (∃ k, r = .ok k ∧ kernel_ok ti x) ∨
  (r = .error .table_not_found ∧ is_scan_expr x = true ∧ ti x = none) ∨
  (∃ w, r = .error (.InvalidAlgebra w) ∧ operator_token x ∉ buildable_tokens)

/-- What the tree builder does on a plan whose scans are registered: a result
when every operator is buildable, InvalidAlgebra otherwise. -/
def build_result {α : Type} (exprs : List Str) (r : Except error α) : Prop :=
  ((∀ x ∈ exprs, operator_token x ∈ buildable_tokens) ∧ ∃ v, r = .ok v) ∨
  ((∃ x ∈ exprs, operator_token x ∉ buildable_tokens) ∧ ∃ w, r = .error (.InvalidAlgebra w))

/-- The value an option is given parses, or the option is not set. -/
def option_parses {α : Type} (parse : Str → Except error α) (value : Option Str) : Bool :=
  match value with
  | none => true
  | some v =>
    match parse v with
    | .ok _ => true
    | .error _ => false

/-- Every numeric option that is set is a number `std::stoi`, respectively
`std::stoull`, reads without raising. -/
def options_parse (options : config_options) : Bool :=
  option_parses stoi (options "FLOW_CONTROL_BATCHES_THRESHOLD".toList) &&
  option_parses stoull (options "FLOW_CONTROL_BYTES_THRESHOLD".toList) &&
  option_parses stoi (options "MAX_NUM_ORDER_BY_PARTITIONS_PER_NODE".toList) &&
  option_parses stoull (options "MAX_DATA_LOAD_CONCAT_CACHE_BYTES_SIZE".toList)

/-- A filter over the scan of a registered table. -/
def filter_over_scan : ptree :=
  .mk "LogicalFilter(condition=[>($0, 5)])".toList
    [.mk "LogicalTableScan(table=[[main, t]])".toList []]

/-- A plan with an operator that is not recognized, over a scan. -/
def window_over_scan : ptree :=
  .mk "LogicalWindow(window0=[$0])".toList
    [.mk "LogicalTableScan(table=[[main, t]])".toList []]

/-- No option is set. -/
def no_options : config_options := fun _ => none

/-- The batches threshold given as the text MAX, everything else not set. -/
def batches_threshold_MAX : config_options :=
  fun key => if key = "FLOW_CONTROL_BATCHES_THRESHOLD".toList then some "MAX".toList else none

/-- The scan of table `t`. -/
def table_scan : ptree := .mk "LogicalTableScan(table=[[main, t]])".toList []

/-- A sort with an ordering component. -/
def sort_by_first : Str := "LogicalSort(sort0=[$0], dir0=[ASC])".toList

/-- An aggregate. -/
def count_by_first : Str := "LogicalAggregate(group=[0], EXPR1=[COUNT()])".toList

/-- An inner join. -/
def inner_join : Str := "LogicalJoin(condition=[=($0, $1)], joinType=[inner])".toList

/-- A sort with only a limit component. -/
def limit_only_sort : Str := "LogicalSort(fetch=[10])".toList

/-- The kind each buildable operator token names. -/
def kernel_kinds : List (Str × kernel_type) :=
  [(LOGICAL_PROJECT_TEXT, .ProjectKernel),
   (LOGICAL_FILTER_TEXT, .FilterKernel),
   (LOGICAL_SCAN_TEXT, .TableScanKernel),
   (BINDABLE_SCAN_TEXT, .BindableTableScanKernel),
   (LOGICAL_SINGLE_NODE_PARTITION_TEXT, .PartitionSingleNodeKernel),
   (LOGICAL_SINGLE_NODE_SORT_AND_SAMPLE_TEXT, .SortAndSampleSingleNodeKernel),
   (LOGICAL_PARTITION_TEXT, .PartitionKernel),
   (LOGICAL_SORT_AND_SAMPLE_TEXT, .SortAndSampleKernel),
   (LOGICAL_MERGE_TEXT, .MergeStreamKernel),
   (LOGICAL_LIMIT_TEXT, .LimitKernel),
   (LOGICAL_COMPUTE_AGGREGATE_TEXT, .ComputeAggregateKernel),
   (LOGICAL_DISTRIBUTE_AGGREGATE_TEXT, .DistributeAggregateKernel),
   (LOGICAL_MERGE_AGGREGATE_TEXT, .MergeAggregateKernel),
   (LOGICAL_PARTWISE_JOIN_TEXT, .PartwiseJoinKernel),
   (LOGICAL_JOIN_PARTITION_TEXT, .JoinPartitionKernel),
   (LOGICAL_UNION_TEXT, .UnionKernel)]

/-- The number an option holds, read with `parse`: `none` when the option is
not set. -/
def option_value {α : Type} (parse : Str → Except error α) (value : Option Str) :
    Except error (Option α) :=
  match value with
  | none => .ok none
  | some v =>
    match parse v with
    | .ok a => .ok (some a)
    | .error e => .error e

/-- The two thresholds after the adjustment of `visit`: when one of them
differs from MAX, one that is MAX becomes 0. -/
def adjusted (batches bytes : Nat) : Nat × Nat :=
  if batches ≠ UINT32_MAX ∨ bytes ≠ SIZE_MAX then
    (if batches = UINT32_MAX then 0 else batches, if bytes = SIZE_MAX then 0 else bytes)
  else (batches, bytes)

/-- The pairs of the second rule of `visit`: the child feeds the parent
through `output_a` and `output_b`. -/
def parallel_pair (child parent : kernel) : Prop :=
  (child.type_id = .JoinPartitionKernel ∧ parent.type_id = .PartwiseJoinKernel)
    ∨ (child.type_id = .SortAndSampleKernel ∧ parent.type_id = .PartitionKernel)
    ∨ (child.type_id = .SortAndSampleSingleNodeKernel
        ∧ parent.type_id = .PartitionSingleNodeKernel)

instance (child parent : kernel) : Decidable (parallel_pair child parent) := by
  unfold parallel_pair; exact inferInstance

/-- The pairs of the third rule of `visit`: a partition below a merge. -/
def partition_to_merge (child parent : kernel) : Prop :=
  (child.type_id = .PartitionKernel ∧ parent.type_id = .MergeStreamKernel)
    ∨ (child.type_id = .PartitionSingleNodeKernel ∧ parent.type_id = .MergeStreamKernel)

instance (child parent : kernel) : Decidable (partition_to_merge child parent) := by
  unfold partition_to_merge; exact inferInstance

/-- The children of the fourth rule of `visit`: the two scans. -/
def scan_kernel (child : kernel) : Prop :=
  child.type_id = .TableScanKernel ∨ child.type_id = .BindableTableScanKernel

instance (child : kernel) : Decidable (scan_kernel child) := by
  unfold scan_kernel; exact inferInstance

/-- The settings of an edge of a parent: the throttled ones when the parent
can throttle its input, the settings of an edge made without a configuration
otherwise. -/
def throttled_or_default (can_throttle : kernel → Bool) (parent : kernel)
    (throttled : cache_settings) : cache_settings :=
  if can_throttle parent then throttled else default_cache_settings

/-- The edges of one round of the loop of `visit`, none when the round
raises. -/
def round_edges (options : config_options) (can_throttle : kernel → Bool)
    (parent : kernel) (size index : Nat) (child : kernel) : List edge :=
  match child_edges options can_throttle parent size index child with
  | .ok es => es
  | .error _ => []

mutual
/-- The edges `visit` links below a node when no round raises: those of the
rounds of its children. -/
def node_links (options : config_options) (can_throttle : kernel → Bool) : node → List edge
  | .mk _ _ k cs => children_links options can_throttle k cs.length 0 cs
/-- The edges of the rounds from `index` on: for each child the edges below
it, then the edges of its own round. -/
def children_links (options : config_options) (can_throttle : kernel → Bool)
    (parent : kernel) (size : Nat) : Nat → List node → List edge
  | _, [] => []
  | index, c :: rest =>
    node_links options can_throttle c
      ++ round_edges options can_throttle parent size index c.kernel_unit
      ++ children_links options can_throttle parent size (index + 1) rest
end

/-- The number of edges of the round of a child: two for a pair of the
second rule below a parent with one child, one otherwise. -/
def link_count (parent : kernel) (size : Nat) (child : kernel) : Nat :=
  if ¬ 1 < size ∧ parallel_pair child parent then 2 else 1

mutual
/-- The sum of `link_count` over the nodes below a node. -/
def node_link_total : node → Nat
  | .mk _ _ k cs => children_link_total k cs.length cs
/-- The sum of `link_count` over the trees of a list of children. -/
def children_link_total (parent : kernel) (size : Nat) : List node → Nat
  | [] => 0
  | c :: rest =>
    node_link_total c + link_count parent size c.kernel_unit
      + children_link_total parent size rest
end

/-- The lowercase letters. -/
def lowercase_letters : Str := "abcdefghijklmnopqrstuvwxyz".toList

/-- A union kernel, as the parent of many children. -/
def union_kernel : kernel := ⟨0, .UnionKernel, "LogicalUnion(all=[true])".toList⟩

/-- A table scan kernel with the given id. -/
def scan_kernel_of (id : Nat) : kernel :=
  ⟨id, .TableScanKernel, "LogicalTableScan(table=[[main, t]])".toList⟩

/-- A plan that pairs the single-node partition with the distributed
sort-and-sample, over a scan. -/
def mixed_sort_plan : ptree :=
  .mk "LogicalSingleNodePartition(sort0=[$0])".toList
    [.mk "LogicalSortAndSample(sort0=[$0])".toList
      [.mk "LogicalTableScan(table=[[main, t]])".toList []]]

/-- The default throttled configuration of `visit`: SIMPLE, one partition,
with the two thresholds computed from the options. -/
def default_throttled_cache_machine_config (options : config_options) :
    Except error cache_settings :=
  match flow_control_thresholds options with
  | .error e => .error e
  | .ok (flow_control_batches_threshold, flow_control_bytes_threshold) =>
    .ok ⟨.SIMPLE, 1, flow_control_batches_threshold, flow_control_bytes_threshold⟩

/-- The two flow-control options set to the given texts, when given. -/
def flow_control_options (batches bytes : Option String) : config_options :=
  fun key =>
    if key = "FLOW_CONTROL_BATCHES_THRESHOLD".toList then batches.map String.toList
    else if key = "FLOW_CONTROL_BYTES_THRESHOLD".toList then bytes.map String.toList
    else none

/-! ## The batches threshold in the options -/

/-- A number written as a decimal text, the way `std::to_string` writes it:
no sign, no leading zero. -/
def decimal (v : Nat) : Str := Nat.toDigits 10 v

/-- The options with FLOW_CONTROL_BATCHES_THRESHOLD set to the given text and
nothing else set. -/
def batches_threshold_set (text : Str) : config_options :=
  fun key => if key = "FLOW_CONTROL_BATCHES_THRESHOLD".toList then some text else none

/-- The batches threshold `visit` holds in front of the adjustment of the two
thresholds: MAX, or the option read with `std::stoi` and converted to
`std::uint32_t`. -/
def flow_control_batches_threshold (options : config_options) : Except error Nat :=
  match options "FLOW_CONTROL_BATCHES_THRESHOLD".toList with
  | none => Except.ok UINT32_MAX
  | some v =>
    match stoi v with
    | .error e => .error e
    | .ok i => .ok (to_uint32 i)

/-! ## The number of rewrites -/

/-- The rewrites `transform_json_tree` does at a node with this expression:
one when `is_sort`, `is_aggregate` or `is_join` holds, none otherwise. -/
def rewrites_at (expr : Str) : Nat :=
  if is_sort expr || is_aggregate expr || is_join expr then 1 else 0

/-- The recursion of `transform_json_tree` with a count of the rewrites it
does: the same calls on the same nodes, returning besides the tree the number
of calls in which one of the three rewrites applied. -/
def transform_json_tree_counting (total_nodes : Int) (has_limit_only : Str → Bool) :
    Nat → ptree → Option (ptree × Nat)
  | 0, _ => none
  | fuel + 1, .mk expr children =>
    match transform_node total_nodes has_limit_only expr children with
    | .mk expr1 children1 =>
      match allSome (transform_json_tree_counting total_nodes has_limit_only fuel) children1 with
      | none => none
      | some rs =>
        some (.mk expr1 (rs.map Prod.fst), rewrites_at expr + (rs.map Prod.snd).sum)

/-- The number of sort, aggregate and join nodes of a tree. -/
def ptree.logical_nodes (t : ptree) : Nat :=
  (t.exprs.filter (fun e => is_sort e || is_aggregate e || is_join e)).length

end ral.batch

namespace blazingdb.transport

/-! ## The message queue -/

/-- A `ReceivedMessage` as the queue sees it: its token
(`getMessageTokenValue()`), whether it is a sentinel (`is_sentinel()`), and
a number that tells the message objects apart. -/
structure ReceivedMessage where
  messageToken : List Char
  sentinel : Bool
  payload : Nat
  deriving DecidableEq, Repr

/-- The state of a `MessageQueue`: the entries of `message_queue_`, the
earliest first.  The mutex and the condition variable are not part of the
state: every operation runs under the lock. -/
structure MessageQueue where
  message_queue_ : List ReceivedMessage
  deriving DecidableEq, Repr

/-- The standard `std::find_if`: the position of the first entry that
satisfies `pred`, the length of the list (the end) when there is none. -/
def find_if (pred : ReceivedMessage → Bool) : List ReceivedMessage → Nat
  | [] => 0
  | e :: es => if pred e then 0 else find_if pred es + 1

/-- How a call of `getMessage` or `getMessageQueue` goes on. -/
inductive get_outcome where
  /-- The wait predicate is false: the caller stays in `wait`. -/
  | waits
  /-- The assertion `it != message_queue_.end()` fails. -/
  | assertion_fails
  /-- The call returns the handle (`none` is `nullptr`) and leaves the queue
  in the given state. -/
  | returns (message : Option ReceivedMessage) (queue : MessageQueue)
  deriving DecidableEq, Repr

/-- The method `getMessageQueue`: find the first entry with the token,
assert that there is one, erase it, and return it, or `nullptr` when it is a
sentinel. -/
def MessageQueue.getMessageQueue (q : MessageQueue) (messageToken : List Char) :
    get_outcome :=
  let it := find_if (fun e => e.messageToken == messageToken) q.message_queue_
  if it = q.message_queue_.length then .assertion_fails
  else
    match q.message_queue_[it]? with
    | none => .assertion_fails
    | some message =>
      let erased : MessageQueue :=
        ⟨q.message_queue_.take it ++ q.message_queue_.drop (it + 1)⟩
      if message.sentinel then .returns none erased
      else .returns (some message) erased

/-- The method `putMessageQueue`: `push_back`. -/
def MessageQueue.putMessageQueue (q : MessageQueue) (message : ReceivedMessage) :
    MessageQueue :=
  ⟨q.message_queue_ ++ [message]⟩

/-- The method `putMessage`: `putMessageQueue` under the lock, then
`notify_all`. -/
def MessageQueue.putMessage (q : MessageQueue) (message : ReceivedMessage) : MessageQueue :=
  q.putMessageQueue message

/-- The method `getMessage`: wait until some entry has the token, then
`getMessageQueue`, all under the lock. -/
def MessageQueue.getMessage (q : MessageQueue) (messageToken : List Char) : get_outcome :=
  if q.message_queue_.any (fun e => e.messageToken == messageToken) then
    q.getMessageQueue messageToken
  else .waits

/-- A call on the queue. -/
inductive operation where
  | put (message : ReceivedMessage)
  | get (messageToken : List Char)
  deriving DecidableEq, Repr

/-- A sequence of calls that have returned, run one after the other: the
final queue and, for each `get`, its token and the handle it returned.
`none` when a `get` of the sequence does not return. -/
def run : MessageQueue → List operation →
    Option (MessageQueue × List (List Char × Option ReceivedMessage))
  | q, [] => some (q, [])
  | q, .put message :: ops => run (q.putMessage message) ops
  | q, .get messageToken :: ops =>
    match q.getMessage messageToken with
    | .returns handle q1 =>
      match run q1 ops with
      | none => none
      | some (q2, handles) => some (q2, (messageToken, handle) :: handles)
    | _ => none

/-- The messages put by a sequence of calls, in order. -/
def puts : List operation → List ReceivedMessage
  | [] => []
  | .put message :: ops => message :: puts ops
  | .get _ :: ops => puts ops

/-- The entries with the given token, in order. -/
def with_token (messageToken : List Char) (l : List ReceivedMessage) : List ReceivedMessage :=
  l.filter (fun e => e.messageToken == messageToken)

/-- The handle `getMessageQueue` returns for an entry: `nullptr` for a
sentinel, the entry otherwise. -/
def handle_of (message : ReceivedMessage) : Option ReceivedMessage :=
  if message.sentinel then none else some message

/-- The handles returned by the `get` calls on the given token, in order. -/
def handles_for (messageToken : List Char)
    (handles : List (List Char × Option ReceivedMessage)) : List (Option ReceivedMessage) :=
  (handles.filter (fun p => p.1 == messageToken)).map (fun p => p.2)

/-! ## Threads on the message queue -/

/-- Where a thread stands in its call of `putMessage` or `getMessage`. -/
inductive program_point where
  /-- The call is entered; the `unique_lock` is not constructed yet. -/
  | entry
  /-- In `putMessage`, the lock taken, in front of `putMessageQueue`. -/
  | put_locked
  /-- In `putMessage`, after `putMessageQueue`, in front of `lock.unlock()`. -/
  | put_pushed
  /-- In `putMessage`, the lock given back, in front of `notify_all`. -/
  | put_unlocked
  /-- The call of `putMessage` has returned. -/
  | put_returned
  /-- In `getMessage`, the lock taken, in front of the wait predicate. -/
  | get_locked
  /-- In `wait`, the predicate was false: the lock is given back and the
  thread is blocked on the condition variable. -/
  | get_waiting
  /-- In `getMessage`, the predicate was true and `wait` has returned with the
  lock held, in front of `getMessageQueue`. -/
  | get_proceeds
  /-- In `getMessage`, `getMessageQueue` has returned the handle; the lock is
  still held. -/
  | get_taken (handle : Option ReceivedMessage)
  /-- The call of `getMessage` has returned the handle and given the lock
  back. -/
  | get_returned (handle : Option ReceivedMessage)
  /-- The assertion of `getMessageQueue` has failed. -/
  | assertion_failed
  deriving DecidableEq, Repr

/-- A thread: the call it makes and where it stands in it. -/
structure thread where
  call : operation
  point : program_point
  deriving DecidableEq, Repr

/-- The queue shared by the threads: `message_queue_`, the owner of `mutex_`
(`none` when it is free) and the threads, by number.  The condition variable
has no state of its own: a blocked thread may wake at any time, by
`notify_all` or spuriously. -/
structure shared_queue where
  queue : MessageQueue
  mutex_ : Option Nat
  threads : Nat → thread

/-- The points at which a thread owns the lock. -/
def program_point.holds_lock : program_point → Bool
  | .put_locked => true
  | .put_pushed => true
  | .get_locked => true
  | .get_proceeds => true
  | .get_taken _ => true
  | _ => false

/-- The state with the point of thread `i` moved on. -/
def shared_queue.move (s : shared_queue) (i : Nat) (queue : MessageQueue)
    (mutex_ : Option Nat) (point : program_point) : shared_queue :=
  ⟨queue, mutex_, Function.update s.threads i ⟨(s.threads i).call, point⟩⟩

/-- One step of thread `i`: the next statement of its call.  A thread that
cannot go on (the lock is owned by another thread, or the call is over)
leaves the state as it is. -/
def shared_queue.step (s : shared_queue) (i : Nat) : shared_queue :=
  match (s.threads i).point with
  | .entry =>
    -- std::unique_lock<std::mutex> lock(mutex_);
    if s.mutex_ = none then
      match (s.threads i).call with
      | .put _ => s.move i s.queue (some i) .put_locked
      | .get _ => s.move i s.queue (some i) .get_locked
    else s
  | .put_locked =>
    -- putMessageQueue(message);
    match (s.threads i).call with
    | .put message => s.move i (s.queue.putMessageQueue message) s.mutex_ .put_pushed
    | .get _ => s
  | .put_pushed =>
    -- lock.unlock();
    s.move i s.queue none .put_unlocked
  | .put_unlocked =>
    -- condition_variable_.notify_all();
    s.move i s.queue s.mutex_ .put_returned
  | .get_locked =>
    -- condition_variable_.wait(lock, pred): the predicate, under the lock
    match (s.threads i).call with
    | .get messageToken =>
      if s.queue.message_queue_.any (fun e => e.messageToken == messageToken) then
        s.move i s.queue s.mutex_ .get_proceeds
      else s.move i s.queue none .get_waiting
    | .put _ => s
  | .get_waiting =>
    -- woken: take the lock again, then the predicate again
    if s.mutex_ = none then s.move i s.queue (some i) .get_locked else s
  | .get_proceeds =>
    -- return getMessageQueue(messageToken);
    match (s.threads i).call with
    | .get messageToken =>
      match s.queue.getMessageQueue messageToken with
      | .returns handle queue => s.move i queue s.mutex_ (.get_taken handle)
      | _ => s.move i s.queue s.mutex_ .assertion_failed
    | .put _ => s
  | .get_taken handle =>
    -- the destructor of the lock
    s.move i s.queue none (.get_returned handle)
  | .put_returned => s
  | .get_returned _ => s
  | .assertion_failed => s

/-- The threads run interleaved: the schedule names the thread that takes
the next step. -/
def shared_queue.interleave (s : shared_queue) : List Nat → shared_queue
  | [] => s
  | i :: schedule => (s.step i).interleave schedule

/-- The start: the queue in some state, the lock free, every thread at the
entry of its call. -/
def shared_queue.initial (queue : MessageQueue) (calls : Nat → operation) : shared_queue :=
  ⟨queue, none, fun i => ⟨calls i, .entry⟩⟩

/-- What holds in every state the threads reach: the lock is owned by the
thread that stands at a point where it holds the lock, and by no other; a
thread in front of `getMessageQueue` finds an entry with its token in the
queue; no assertion has failed. -/
def shared_queue.safe (s : shared_queue) : Prop :=
  (∀ j, (s.threads j).point.holds_lock = true ↔ s.mutex_ = some j) ∧
  (∀ j t, (s.threads j).point = .get_proceeds → (s.threads j).call = .get t →
    s.queue.message_queue_.any (fun e => e.messageToken == t) = true) ∧
  (∀ j, (s.threads j).point ≠ .assertion_failed)

/-- Two threads: thread 0 calls `getMessage`, every other thread puts one
entry with the same token. -/
def two_calls : Nat → operation
  | 0 => .get "t".toList
  | _ => .put ⟨"t".toList, false, 7⟩

end blazingdb.transport

namespace ral.batch

/-! # Theorems -/

/-! ## Lemmas on strings and operator tokens -/

theorem scan_skip (X Y : Str) : ∀ (k : Nat) (l : Str),
    findAndReplaceAll.scan X Y k l = findAndReplaceAll.scan X Y 0 (l.drop k) := by
  intro k
  induction k with
  | zero => intro l; simp
  | succ k ih =>
    intro l
    cases l with
    | nil => simp [findAndReplaceAll.scan]
    | cons c cs => simp [findAndReplaceAll.scan, ih cs]

theorem isPrefixOf_append_self (X rest : Str) : X.isPrefixOf (X ++ rest) = true := by
  induction X with
  | nil => simp [List.isPrefixOf]
  | cons x xs ih => simp [List.isPrefixOf, ih]

theorem findAndReplaceAll_prefix (X Y rest : Str) (hX : X ≠ []) :
    findAndReplaceAll (X ++ rest) X Y = Y ++ findAndReplaceAll rest X Y := by
  cases X with
  | nil => exact absurd rfl hX
  | cons x xs =>
    have hp : (x :: xs).isPrefixOf (x :: (xs ++ rest)) = true :=
      isPrefixOf_append_self (x :: xs) rest
    simp only [findAndReplaceAll, List.cons_append, findAndReplaceAll.scan, hp, if_true]
    rw [scan_skip]
    simp

theorem findAndReplaceAll_nil (X Y : Str) : findAndReplaceAll [] X Y = [] := by
  simp [findAndReplaceAll, findAndReplaceAll.scan]

theorem findAndReplaceAll_paren (X Y r : Str) (hX : X ≠ []) (hX2 : ∀ c ∈ X, c ≠ '(') :
    findAndReplaceAll ('(' :: r) X Y = '(' :: findAndReplaceAll r X Y := by
  cases X with
  | nil => exact absurd rfl hX
  | cons x xs =>
    have hx : x ≠ '(' := hX2 x (by simp)
    have hp : (x :: xs).isPrefixOf ('(' :: r) = false := by
      simp [List.isPrefixOf, hx]
    simp [findAndReplaceAll, findAndReplaceAll.scan, hp]

theorem token_split (e : Str) :
    ∃ rest, e = operator_token e ++ rest ∧ (rest = [] ∨ ∃ r, rest = '(' :: r) := by
  induction e with
  | nil => exact ⟨[], by simp [operator_token], Or.inl rfl⟩
  | cons c cs ih =>
    by_cases hc : c = '('
    · subst hc
      exact ⟨'(' :: cs, by simp [operator_token, List.takeWhile], Or.inr ⟨cs, rfl⟩⟩
    · obtain ⟨rest, h1, h2⟩ := ih
      refine ⟨rest, ?_, h2⟩
      have hb : (c != '(') = true := by simp [hc]
      have : operator_token (c :: cs) = c :: operator_token cs := by
        simp only [operator_token, List.takeWhile_cons, hb, if_true]
      rw [this, List.cons_append, ← h1]

theorem operator_token_append (Y rest : Str) (hY : ∀ c ∈ Y, c ≠ '(')
    (hr : rest = [] ∨ ∃ r, rest = '(' :: r) : operator_token (Y ++ rest) = Y := by
  induction Y with
  | nil =>
    rcases hr with h | ⟨r, h⟩ <;> subst h <;> simp [operator_token, List.takeWhile]
  | cons y ys ih =>
    have hy : y ≠ '(' := hY y (by simp)
    have ih2 := ih (fun c hc => hY c (by simp [hc]))
    have hb : (y != '(') = true := by simp [hy]
    simp only [operator_token] at ih2 ⊢
    simp only [List.cons_append, List.takeWhile_cons, hb, if_true, ih2]

theorem replace_leading (X Y e : Str) (hX : is_token X) (h : operator_token e = X) :
    findAndReplaceAll e X Y
      = Y ++ findAndReplaceAll (e.drop X.length) X Y
      ∧ (e.drop X.length = [] ∨ ∃ r, e.drop X.length = '(' :: r) := by
  obtain ⟨rest, h1, h2⟩ := token_split e
  rw [h] at h1
  have hd : e.drop X.length = rest := by rw [h1]; simp
  rw [hd]
  refine ⟨?_, h2⟩
  conv_lhs => rw [h1]
  exact findAndReplaceAll_prefix X Y rest hX.1

theorem operator_token_replace (X Y e : Str) (hX : is_token X)
    (hY : ∀ c ∈ Y, c ≠ '(') (h : operator_token e = X) :
    operator_token (findAndReplaceAll e X Y) = Y := by
  obtain ⟨h1, h2⟩ := replace_leading X Y e hX h
  rw [h1]
  apply operator_token_append Y _ hY
  rcases h2 with h2 | ⟨r, h2⟩
  · rw [h2]; left; exact findAndReplaceAll_nil X Y
  · rw [h2]; right; exact ⟨_, findAndReplaceAll_paren X Y r hX.1 hX.2⟩

theorem has_operator_iff (tok e : Str) : has_operator tok e = true ↔ operator_token e = tok := by
  simp [has_operator]

theorem has_operator_replace (X Y Z e : Str) (hX : is_token X)
    (hY : ∀ c ∈ Y, c ≠ '(') (h : has_operator X e = true) :
    has_operator Z (findAndReplaceAll e X Y) = decide (Y = Z) := by
  have := operator_token_replace X Y e hX hY ((has_operator_iff X e).mp h)
  unfold has_operator
  rw [this]
  by_cases hYZ : Y = Z <;> simp [hYZ]

/-! ## The node rewrite as a chain -/

theorem transform_node_plain (N : Int) (hlo : Str → Bool) (e : Str) (cs : List ptree)
    (h : plain e) : transform_node N hlo e cs = .mk e cs := by
  obtain ⟨h1, h2, h3⟩ := h
  simp [transform_node, h1, h2, h3]

theorem transform_node_eq_chain (N : Int) (hlo : Str → Bool) (e : Str) (cs : List ptree) :
    transform_node N hlo e cs = chain_of (produced N hlo e) cs := by
  unfold produced transform_node
  split_ifs <;> rfl

theorem produced_plain (N : Int) (hlo : Str → Bool) (e : Str) (h : plain e) :
    produced N hlo e = [e] := by
  unfold produced
  rw [transform_node_plain N hlo e [] h]
  rfl

theorem produced_written (N : Int) (hlo : Str → Bool) (e : Str) (h : ¬ plain e) :
    has_operator (written N hlo e).1 e = true ∧
    produced N hlo e = (written N hlo e).2.map (findAndReplaceAll e (written N hlo e).1) := by
  unfold produced transform_node written plain at *
  by_cases h1 : is_sort e = true
  · simp only [h1, if_true]
    refine ⟨h1, ?_⟩
    split_ifs <;> rfl
  · by_cases h2 : is_aggregate e = true
    · simp only [h1, h2, if_true, if_false]
      refine ⟨h2, ?_⟩
      split_ifs <;> rfl
    · by_cases h3 : is_join e = true
      · simp only [h1, h2, h3, if_true, if_false]
        refine ⟨h3, ?_⟩
        split_ifs <;> rfl
      · exfalso; apply h
        simp at h1 h2 h3
        exact ⟨h1, h2, h3⟩

theorem written_old (N : Int) (hlo : Str → Bool) (e : Str) :
    (written N hlo e).1 ∈ old_tokens := by
  unfold written old_tokens
  split_ifs <;> simp

theorem written_new (N : Int) (hlo : Str → Bool) (e : Str) :
    ∀ Y ∈ (written N hlo e).2, Y ∈ new_tokens := by
  unfold written new_tokens
  split_ifs <;> simp

theorem written_ne_nil (N : Int) (hlo : Str → Bool) (e : Str) :
    (written N hlo e).2 ≠ [] := by
  unfold written
  split_ifs <;> simp

theorem old_tokens_are_tokens : ∀ X ∈ old_tokens, is_token X := by decide

theorem new_tokens_no_paren : ∀ Y ∈ new_tokens, ∀ c ∈ Y, c ≠ '(' := by decide

theorem new_tokens_not_old : ∀ Y ∈ new_tokens, Y ∉ old_tokens := by decide

theorem produced_all_plain (N : Int) (hlo : Str → Bool) (e : Str) :
    ∀ x ∈ produced N hlo e, plain x := by
  intro x hx
  by_cases h : plain e
  · rw [produced_plain N hlo e h] at hx
    simp at hx
    rw [hx]; exact h
  · obtain ⟨h1, h2⟩ := produced_written N hlo e h
    rw [h2] at hx
    obtain ⟨Y, hY, rfl⟩ := List.mem_map.mp hx
    have hYn := written_new N hlo e Y hY
    have hX := old_tokens_are_tokens _ (written_old N hlo e)
    have hnp := new_tokens_no_paren Y hYn
    have hno := new_tokens_not_old Y hYn
    simp only [old_tokens, List.mem_cons, List.mem_singleton, not_or, List.not_mem_nil,
      or_false] at hno
    refine ⟨?_, ?_, ?_⟩
    · unfold is_sort
      rw [has_operator_replace _ Y _ e hX hnp h1]
      simp [hno.1]
    · unfold is_aggregate
      rw [has_operator_replace _ Y _ e hX hnp h1]
      simp [hno.2.1]
    · unfold is_join
      rw [has_operator_replace _ Y _ e hX hnp h1]
      simp [hno.2.2]

theorem produced_ne_nil (N : Int) (hlo : Str → Bool) (e : Str) : produced N hlo e ≠ [] := by
  by_cases h : plain e
  · rw [produced_plain N hlo e h]; simp
  · rw [(produced_written N hlo e h).2]
    simpa using written_ne_nil N hlo e

theorem produced_length_le (N : Int) (hlo : Str → Bool) (e : Str) :
    (produced N hlo e).length ≤ 4 := by
  by_cases h : plain e
  · rw [produced_plain N hlo e h]; simp
  · rw [(produced_written N hlo e h).2, List.length_map]
    unfold written
    split_ifs <;> simp

theorem exprs_chain_of (es : List Str) (cs : List ptree) (h : es ≠ []) :
    (chain_of es cs).exprs = es ++ ptree.exprs_list cs := by
  induction es with
  | nil => exact absurd rfl h
  | cons e es ih =>
    cases es with
    | nil => simp [chain_of, ptree.exprs]
    | cons e2 es =>
      have := ih (by simp)
      simp [chain_of, ptree.exprs, ptree.exprs_list, this]

theorem transform_step (N : Int) (hlo : Str → Bool) (g : Nat) (e : Str) (cs : List ptree) :
    transform_json_tree N hlo (g + 1) (.mk e cs)
      = (allSome (transform_json_tree N hlo g) (transform_node N hlo e cs).children).map
          (ptree.mk (transform_node N hlo e cs).expr) := by
  simp only [transform_json_tree]
  cases transform_node N hlo e cs with
  | mk e1 c1 =>
    simp only [ptree.children, ptree.expr]
    cases allSome (transform_json_tree N hlo g) c1 <;> rfl

theorem allSome_single {α β : Type} (f : α → Option β) (a : α) :
    allSome f [a] = (f a).map (fun b => [b]) := by
  simp only [allSome]
  cases f a <;> rfl

theorem allSome_eq_map {α β : Type} (f : α → Option β) (g : α → β) (l : List α)
    (h : ∀ a ∈ l, f a = some (g a)) : allSome f l = some (l.map g) := by
  induction l with
  | nil => rfl
  | cons a as ih =>
    have h1 := h a (by simp)
    have h2 := ih (fun b hb => h b (by simp [hb]))
    simp [allSome, h1, h2]

theorem transform_chain (N : Int) (hlo : Str → Bool) :
    ∀ es : List Str, es ≠ [] → (∀ x ∈ es, plain x) → ∀ (f : Nat) (cs : List ptree),
      transform_json_tree N hlo (f + es.length) (chain_of es cs)
        = (allSome (transform_json_tree N hlo f) cs).map (chain_of es) := by
  intro es
  induction es with
  | nil => intro h; exact absurd rfl h
  | cons e es ih =>
    intro _ hp f cs
    have he : plain e := hp e (by simp)
    cases es with
    | nil =>
      simp only [chain_of, List.length_singleton]
      rw [transform_step, transform_node_plain N hlo e cs he]
      simp only [ptree.children, ptree.expr]
    | cons e2 es =>
      have ih2 := ih (by simp) (fun x hx => hp x (by simp [hx])) f cs
      simp only [chain_of, List.length_cons] at ih2 ⊢
      rw [← Nat.add_assoc, transform_step, transform_node_plain N hlo e _ he]
      simp only [ptree.children, ptree.expr]
      rw [allSome_single, ih2]
      cases allSome (transform_json_tree N hlo f) cs <;> rfl

theorem transform_top (N : Int) (hlo : Str → Bool) (e : Str) (f : Nat) (cs : List ptree) :
    transform_json_tree N hlo (f + (produced N hlo e).length) (.mk e cs)
      = (allSome (transform_json_tree N hlo f) cs).map (chain_of (produced N hlo e)) := by
  have hne := produced_ne_nil N hlo e
  have hpl := produced_all_plain N hlo e
  rw [← transform_chain N hlo _ hne hpl f cs]
  obtain ⟨k, hk⟩ : ∃ k, (produced N hlo e).length = k + 1 := by
    cases hp : produced N hlo e with
    | nil => exact absurd hp hne
    | cons a l => exact ⟨l.length, rfl⟩
  rw [hk, ← Nat.add_assoc, transform_step, ← transform_node_eq_chain]
  cases hT : transform_node N hlo e cs with
  | mk e1 c1 =>
    have hplain : plain e1 := by
      apply hpl
      have h2 := transform_node_eq_chain N hlo e cs
      rw [hT] at h2
      have h3 := congrArg ptree.exprs h2
      rw [exprs_chain_of _ _ hne] at h3
      cases hp : produced N hlo e with
      | nil => exact absurd hp hne
      | cons a l =>
        rw [hp] at h3
        simp [ptree.exprs] at h3
        simp [h3.1]
    rw [transform_step, transform_node_plain N hlo e1 c1 hplain]

/-! ## The fuelled run returns the rewritten tree -/

theorem rewritten_list_eq_map (N : Int) (hlo : Str → Bool) (cs : List ptree) :
    rewritten_list N hlo cs = cs.map (rewritten N hlo) := by
  induction cs with
  | nil => rfl
  | cons c cs ih => simp [rewritten_list, ih]

theorem rewritten_mk (N : Int) (hlo : Str → Bool) (e : Str) (cs : List ptree) :
    rewritten N hlo (.mk e cs) = chain_of (produced N hlo e) (cs.map (rewritten N hlo)) := by
  rw [rewritten, rewritten_list_eq_map, transform_node_eq_chain]

theorem height_le_of_mem (c : ptree) (cs : List ptree) (h : c ∈ cs) :
    c.height ≤ ptree.height_list cs := by
  induction cs with
  | nil => cases h
  | cons d ds ih =>
    simp only [ptree.height_list]
    rcases List.mem_cons.mp h with h1 | h1
    · subst h1; exact le_max_left _ _
    · exact le_trans (ih h1) (le_max_right _ _)

theorem transform_json_tree_eq_aux (N : Int) (hlo : Str → Bool) :
    ∀ (n : Nat) (t : ptree), t.height ≤ n → ∀ fuel, 4 * n ≤ fuel →
      transform_json_tree N hlo fuel t = some (rewritten N hlo t) := by
  intro n
  induction n with
  | zero =>
    intro t ht
    cases t with
    | mk e cs => simp [ptree.height] at ht
  | succ n ih =>
    intro t ht fuel hfuel
    cases t with
    | mk e cs =>
      simp only [ptree.height] at ht
      have hlen := produced_length_le N hlo e
      obtain ⟨f, hf⟩ : ∃ f, fuel = f + (produced N hlo e).length :=
        ⟨fuel - (produced N hlo e).length, by omega⟩
      have hf4 : 4 * n ≤ f := by omega
      have hcs : allSome (transform_json_tree N hlo f) cs = some (cs.map (rewritten N hlo)) := by
        apply allSome_eq_map
        intro c hc
        exact ih c (by have := height_le_of_mem c cs hc; omega) f hf4
      rw [hf, transform_top, hcs, rewritten_mk]
      rfl

theorem transform_json_tree_eq (N : Int) (hlo : Str → Bool) (t : ptree) (fuel : Nat)
    (h : fuel_for t ≤ fuel) :
    transform_json_tree N hlo fuel t = some (rewritten N hlo t) :=
  transform_json_tree_eq_aux N hlo t.height t (le_refl _) fuel h

theorem children_eq (N : Int) (hlo : Str → Bool) (cs : List ptree) :
    List.Forall₂ (fun c c1 => ∀ fuel, fuel_for c ≤ fuel →
      transform_json_tree N hlo fuel c = some c1) cs (cs.map (rewritten N hlo)) := by
  induction cs with
  | nil => exact List.Forall₂.nil
  | cons c cs ih =>
    exact List.Forall₂.cons (fun fuel h => transform_json_tree_eq N hlo c fuel h) ih

theorem has_operator_excl (X Z e : Str) (h : has_operator X e = true) (hne : X ≠ Z) :
    has_operator Z e = false := by
  have := (has_operator_iff X e).mp h
  simp [has_operator, this, hne]

theorem token_of_replaced (X Y e : Str) (hX : X ∈ old_tokens) (hY : Y ∈ new_tokens)
    (h : has_operator X e = true) : operator_token (findAndReplaceAll e X Y) = Y :=
  operator_token_replace X Y e (old_tokens_are_tokens X hX) (new_tokens_no_paren Y hY)
    ((has_operator_iff X e).mp h)

/-! ## The claims on the rewrite -/

/-- C1: a LogicalSort node with an ordering component (`has_limit_only` false)
is replaced, for every cluster size, by the chain
LogicalLimit → LogicalMerge → P → S with one child each, the children of S
being the rewritten original children in their order, where (P, S) are the
single-node partition and sort-and-sample for cluster size 1 and the
distributed ones otherwise. -/
theorem sort_rewritten_to_chain (N : Int) (hlo : Str → Bool) (e : Str) (cs : List ptree)
    (hs : is_sort e = true) (hl : hlo e = false) :
    ∃ cs1 : List ptree,
      List.Forall₂ (fun c c1 => ∀ fuel, fuel_for c ≤ fuel →
        transform_json_tree N hlo fuel c = some c1) cs cs1 ∧
      (∀ fuel, fuel_for (.mk e cs) ≤ fuel →
        transform_json_tree N hlo fuel (.mk e cs) =
          some (.mk (findAndReplaceAll e LOGICAL_SORT_TEXT LOGICAL_LIMIT_TEXT)
            [.mk (findAndReplaceAll e LOGICAL_SORT_TEXT LOGICAL_MERGE_TEXT)
              [.mk (findAndReplaceAll e LOGICAL_SORT_TEXT
                    (if N = 1 then LOGICAL_SINGLE_NODE_PARTITION_TEXT
                     else LOGICAL_PARTITION_TEXT))
                [.mk (findAndReplaceAll e LOGICAL_SORT_TEXT
                      (if N = 1 then LOGICAL_SINGLE_NODE_SORT_AND_SAMPLE_TEXT
                       else LOGICAL_SORT_AND_SAMPLE_TEXT)) cs1]]])) ∧
      operator_token (findAndReplaceAll e LOGICAL_SORT_TEXT LOGICAL_LIMIT_TEXT)
        = LOGICAL_LIMIT_TEXT ∧
      operator_token (findAndReplaceAll e LOGICAL_SORT_TEXT LOGICAL_MERGE_TEXT)
        = LOGICAL_MERGE_TEXT ∧
      operator_token (findAndReplaceAll e LOGICAL_SORT_TEXT
          (if N = 1 then LOGICAL_SINGLE_NODE_PARTITION_TEXT else LOGICAL_PARTITION_TEXT))
        = (if N = 1 then LOGICAL_SINGLE_NODE_PARTITION_TEXT else LOGICAL_PARTITION_TEXT) ∧
      operator_token (findAndReplaceAll e LOGICAL_SORT_TEXT
          (if N = 1 then LOGICAL_SINGLE_NODE_SORT_AND_SAMPLE_TEXT
           else LOGICAL_SORT_AND_SAMPLE_TEXT))
        = (if N = 1 then LOGICAL_SINGLE_NODE_SORT_AND_SAMPLE_TEXT
           else LOGICAL_SORT_AND_SAMPLE_TEXT) := by
  have hso : has_operator LOGICAL_SORT_TEXT e = true := hs
  refine ⟨cs.map (rewritten N hlo), children_eq N hlo cs, ?_, ?_, ?_, ?_, ?_⟩
  · intro fuel hfuel
    rw [transform_json_tree_eq N hlo _ fuel hfuel, rewritten, rewritten_list_eq_map]
    unfold transform_node
    by_cases hN : N = 1 <;> simp [hs, hl, hN, create_array_tree]
  · exact token_of_replaced _ _ e (by decide) (by decide) hso
  · exact token_of_replaced _ _ e (by decide) (by decide) hso
  · by_cases hN : N = 1
    · simp only [hN, if_true]; exact token_of_replaced _ _ e (by decide) (by decide) hso
    · simp only [hN, if_false]; exact token_of_replaced _ _ e (by decide) (by decide) hso
  · by_cases hN : N = 1
    · simp only [hN, if_true]; exact token_of_replaced _ _ e (by decide) (by decide) hso
    · simp only [hN, if_false]; exact token_of_replaced _ _ e (by decide) (by decide) hso

/-- C2: a LogicalAggregate node is replaced by the chain
MergeAggregate → ComputeAggregate → rewritten original children when the
cluster size is 1, and by MergeAggregate → DistributeAggregate →
ComputeAggregate → rewritten original children otherwise; every inserted
node has exactly one child and the children keep their order. -/
theorem aggregate_rewritten_to_chain (N : Int) (hlo : Str → Bool) (e : Str)
    (cs : List ptree) (ha : is_aggregate e = true) :
    ∃ cs1 : List ptree,
      List.Forall₂ (fun c c1 => ∀ fuel, fuel_for c ≤ fuel →
        transform_json_tree N hlo fuel c = some c1) cs cs1 ∧
      (N = 1 → ∀ fuel, fuel_for (.mk e cs) ≤ fuel →
        transform_json_tree N hlo fuel (.mk e cs) =
          some (.mk (findAndReplaceAll e LOGICAL_AGGREGATE_TEXT LOGICAL_MERGE_AGGREGATE_TEXT)
            [.mk (findAndReplaceAll e LOGICAL_AGGREGATE_TEXT LOGICAL_COMPUTE_AGGREGATE_TEXT)
              cs1])) ∧
      (N ≠ 1 → ∀ fuel, fuel_for (.mk e cs) ≤ fuel →
        transform_json_tree N hlo fuel (.mk e cs) =
          some (.mk (findAndReplaceAll e LOGICAL_AGGREGATE_TEXT LOGICAL_MERGE_AGGREGATE_TEXT)
            [.mk (findAndReplaceAll e LOGICAL_AGGREGATE_TEXT
                  LOGICAL_DISTRIBUTE_AGGREGATE_TEXT)
              [.mk (findAndReplaceAll e LOGICAL_AGGREGATE_TEXT
                    LOGICAL_COMPUTE_AGGREGATE_TEXT) cs1]])) ∧
      operator_token (findAndReplaceAll e LOGICAL_AGGREGATE_TEXT LOGICAL_MERGE_AGGREGATE_TEXT)
        = LOGICAL_MERGE_AGGREGATE_TEXT ∧
      operator_token
          (findAndReplaceAll e LOGICAL_AGGREGATE_TEXT LOGICAL_DISTRIBUTE_AGGREGATE_TEXT)
        = LOGICAL_DISTRIBUTE_AGGREGATE_TEXT ∧
      operator_token
          (findAndReplaceAll e LOGICAL_AGGREGATE_TEXT LOGICAL_COMPUTE_AGGREGATE_TEXT)
        = LOGICAL_COMPUTE_AGGREGATE_TEXT := by
  have hao : has_operator LOGICAL_AGGREGATE_TEXT e = true := ha
  have hs : is_sort e = false := has_operator_excl _ _ e hao (by decide)
  refine ⟨cs.map (rewritten N hlo), children_eq N hlo cs, ?_, ?_, ?_, ?_, ?_⟩
  · intro hN fuel hfuel
    rw [transform_json_tree_eq N hlo _ fuel hfuel, rewritten, rewritten_list_eq_map]
    unfold transform_node
    simp [hs, ha, hN, create_array_tree]
  · intro hN fuel hfuel
    rw [transform_json_tree_eq N hlo _ fuel hfuel, rewritten, rewritten_list_eq_map]
    unfold transform_node
    simp [hs, ha, hN, create_array_tree]
  · exact token_of_replaced _ _ e (by decide) (by decide) hao
  · exact token_of_replaced _ _ e (by decide) (by decide) hao
  · exact token_of_replaced _ _ e (by decide) (by decide) hao

/-- C3: for a LogicalJoin node, with cluster size 1 only the expression is
rewritten to PartwiseJoin and the children are kept (same count, same order,
each rewritten), no node added; with another cluster size the node becomes
PartwiseJoin with the single child JoinPartition, whose children are the
rewritten original children in their order. -/
theorem join_rewritten (N : Int) (hlo : Str → Bool) (e : Str) (cs : List ptree)
    (hj : is_join e = true) :
    ∃ cs1 : List ptree,
      List.Forall₂ (fun c c1 => ∀ fuel, fuel_for c ≤ fuel →
        transform_json_tree N hlo fuel c = some c1) cs cs1 ∧
      cs1.length = cs.length ∧
      (N = 1 → ∀ fuel, fuel_for (.mk e cs) ≤ fuel →
        transform_json_tree N hlo fuel (.mk e cs) =
          some (.mk (findAndReplaceAll e LOGICAL_JOIN_TEXT LOGICAL_PARTWISE_JOIN_TEXT) cs1)) ∧
      (N ≠ 1 → ∀ fuel, fuel_for (.mk e cs) ≤ fuel →
        transform_json_tree N hlo fuel (.mk e cs) =
          some (.mk (findAndReplaceAll e LOGICAL_JOIN_TEXT LOGICAL_PARTWISE_JOIN_TEXT)
            [.mk (findAndReplaceAll e LOGICAL_JOIN_TEXT LOGICAL_JOIN_PARTITION_TEXT) cs1])) ∧
      operator_token (findAndReplaceAll e LOGICAL_JOIN_TEXT LOGICAL_PARTWISE_JOIN_TEXT)
        = LOGICAL_PARTWISE_JOIN_TEXT ∧
      operator_token (findAndReplaceAll e LOGICAL_JOIN_TEXT LOGICAL_JOIN_PARTITION_TEXT)
        = LOGICAL_JOIN_PARTITION_TEXT := by
  have hjo : has_operator LOGICAL_JOIN_TEXT e = true := hj
  have hs : is_sort e = false := has_operator_excl _ _ e hjo (by decide)
  have ha : is_aggregate e = false := has_operator_excl _ _ e hjo (by decide)
  refine ⟨cs.map (rewritten N hlo), children_eq N hlo cs, by simp, ?_, ?_, ?_, ?_⟩
  · intro hN fuel hfuel
    rw [transform_json_tree_eq N hlo _ fuel hfuel, rewritten, rewritten_list_eq_map]
    unfold transform_node
    simp [hs, ha, hj, hN]
  · intro hN fuel hfuel
    rw [transform_json_tree_eq N hlo _ fuel hfuel, rewritten, rewritten_list_eq_map]
    unfold transform_node
    simp [hs, ha, hj, hN, create_array_tree]
  · exact token_of_replaced _ _ e (by decide) (by decide) hjo
  · exact token_of_replaced _ _ e (by decide) (by decide) hjo

theorem ptree_induction (P : ptree → Prop)
    (h : ∀ e cs, (∀ c ∈ cs, P c) → P (.mk e cs)) : ∀ t, P t := by
  intro t
  induction t using ptree.rec (motive_2 := fun cs => ∀ c ∈ cs, P c) with
  | mk e cs ih => exact h e cs ih
  | nil =>
    rename_i d hd
    cases hd
  | cons c cs ihc ihcs =>
    rename_i d hd
    rcases List.mem_cons.mp hd with h1 | h1
    · rw [h1]; exact ihc
    · exact ihcs d h1

theorem mem_exprs_list (x : Str) (cs : List ptree) :
    x ∈ ptree.exprs_list cs ↔ ∃ c ∈ cs, x ∈ c.exprs := by
  induction cs with
  | nil => simp [ptree.exprs_list]
  | cons c cs ih => simp [ptree.exprs_list, ih]

theorem exprs_rewritten (N : Int) (hlo : Str → Bool) (e : Str) (cs : List ptree) :
    (rewritten N hlo (.mk e cs)).exprs
      = produced N hlo e ++ ptree.exprs_list (cs.map (rewritten N hlo)) := by
  rw [rewritten_mk, exprs_chain_of _ _ (produced_ne_nil N hlo e)]

theorem rewritten_all_plain (N : Int) (hlo : Str → Bool) :
    ∀ t : ptree, ∀ x ∈ (rewritten N hlo t).exprs, plain x := by
  apply ptree_induction
  intro e cs ih x hx
  rw [exprs_rewritten] at hx
  rcases List.mem_append.mp hx with h | h
  · exact produced_all_plain N hlo e x h
  · obtain ⟨c1, hc1, hx1⟩ := (mem_exprs_list x _).mp h
    obtain ⟨c, hc, rfl⟩ := List.mem_map.mp hc1
    exact ih c hc x hx1

theorem rewritten_of_plain (N : Int) (hlo : Str → Bool) :
    ∀ t : ptree, (∀ x ∈ t.exprs, plain x) → rewritten N hlo t = t := by
  apply ptree_induction
  intro e cs ih hp
  have he : plain e := hp e (by simp [ptree.exprs])
  have hcs : cs.map (rewritten N hlo) = cs := by
    conv_rhs => rw [← List.map_id cs]
    apply List.map_congr_left
    intro c hc
    apply ih c hc
    intro x hx
    apply hp
    simp only [ptree.exprs, List.mem_cons]
    right
    exact (mem_exprs_list x cs).mpr ⟨c, hc, hx⟩
  rw [rewritten_mk, hcs, produced_plain N hlo e he]
  rfl

/-- C4: after one pass of `transform_json_tree`, for every plan tree and
every cluster size, no node of the result has LogicalSort, LogicalAggregate
or LogicalJoin as its operator: `is_sort`, `is_aggregate` and `is_join` are
false on every node, the inserted ones included. -/
theorem no_logical_operator_remains (N : Int) (hlo : Str → Bool) (t : ptree) :
    ∃ t1 : ptree,
      (∀ fuel, fuel_for t ≤ fuel → transform_json_tree N hlo fuel t = some t1) ∧
      ∀ x ∈ t1.exprs, is_sort x = false ∧ is_aggregate x = false ∧ is_join x = false :=
  ⟨rewritten N hlo t, fun fuel h => transform_json_tree_eq N hlo t fuel h,
    rewritten_all_plain N hlo t⟩

/-- C9: `transform_json_tree` is idempotent: for every plan tree and every
cluster size, a second pass over the result of the first returns that
result unchanged (same expressions, same shape, same child order). -/
theorem transform_json_tree_idempotent (N : Int) (hlo : Str → Bool) (t : ptree) :
    ∃ t1 : ptree,
      (∀ fuel, fuel_for t ≤ fuel → transform_json_tree N hlo fuel t = some t1) ∧
      (∀ fuel, fuel_for t1 ≤ fuel → transform_json_tree N hlo fuel t1 = some t1) := by
  refine ⟨rewritten N hlo t, fun fuel h => transform_json_tree_eq N hlo t fuel h, ?_⟩
  intro fuel h
  rw [transform_json_tree_eq N hlo _ fuel h,
    rewritten_of_plain N hlo _ (rewritten_all_plain N hlo t)]

/-! ## Scans and single-node plans -/

theorem not_scan_of_token (Y e : Str) (h : operator_token e = Y)
    (h1 : Y ≠ LOGICAL_SCAN_TEXT) (h2 : Y ≠ BINDABLE_SCAN_TEXT) : is_scan_expr e = false := by
  simp [is_scan_expr, is_logical_scan, is_bindable_scan, has_operator, h, h1, h2]

theorem new_tokens_not_scan :
    ∀ Y ∈ new_tokens, Y ≠ LOGICAL_SCAN_TEXT ∧ Y ≠ BINDABLE_SCAN_TEXT := by decide

theorem old_tokens_not_scan :
    ∀ Y ∈ old_tokens, Y ≠ LOGICAL_SCAN_TEXT ∧ Y ≠ BINDABLE_SCAN_TEXT := by decide

theorem produced_scan_cases (N : Int) (hlo : Str → Bool) (e : Str) :
    produced N hlo e = [e] ∨
      (is_scan_expr e = false ∧ ∀ x ∈ produced N hlo e, is_scan_expr x = false) := by
  by_cases h : plain e
  · left; exact produced_plain N hlo e h
  · right
    obtain ⟨h1, h2⟩ := produced_written N hlo e h
    have hold := written_old N hlo e
    constructor
    · have := old_tokens_not_scan _ hold
      exact not_scan_of_token _ e ((has_operator_iff _ e).mp h1) this.1 this.2
    · intro x hx
      rw [h2] at hx
      obtain ⟨Y, hY, rfl⟩ := List.mem_map.mp hx
      have hYn := written_new N hlo e Y hY
      have := new_tokens_not_scan Y hYn
      exact not_scan_of_token Y _ (token_of_replaced _ Y e hold hYn h1) this.1 this.2

theorem filter_exprs_list_map (p : Str → Bool) (f : ptree → ptree) (cs : List ptree)
    (h : ∀ c ∈ cs, (f c).exprs.filter p = c.exprs.filter p) :
    (ptree.exprs_list (cs.map f)).filter p = (ptree.exprs_list cs).filter p := by
  induction cs with
  | nil => rfl
  | cons c cs ih =>
    simp only [List.map_cons, ptree.exprs_list, List.filter_append]
    rw [h c (by simp), ih (fun d hd => h d (by simp [hd]))]

theorem scans_rewritten (N : Int) (hlo : Str → Bool) :
    ∀ t : ptree, (rewritten N hlo t).scans = t.scans := by
  apply ptree_induction
  intro e cs ih
  have ih2 : ∀ c ∈ cs, (rewritten N hlo c).exprs.filter is_scan_expr
      = c.exprs.filter is_scan_expr := ih
  show ((rewritten N hlo (.mk e cs)).exprs.filter is_scan_expr)
    = (ptree.mk e cs).exprs.filter is_scan_expr
  rw [exprs_rewritten, List.filter_append, filter_exprs_list_map _ _ cs ih2]
  simp only [ptree.exprs]
  rw [show e :: ptree.exprs_list cs = [e] ++ ptree.exprs_list cs from rfl, List.filter_append]
  congr 1
  rcases produced_scan_cases N hlo e with h | ⟨h1, h2⟩
  · rw [h]
  · rw [List.filter_eq_nil_iff.mpr (fun x hx => by simp [h2 x hx])]
    simp [h1]

theorem leaf_scans_chain_of (es : List Str) (cs : List ptree) (hne : es ≠ [])
    (h : ∀ x ∈ es, is_scan_expr x = false) :
    (chain_of es cs).leaf_scans = ptree.leaf_scans_list cs := by
  induction es with
  | nil => exact absurd rfl hne
  | cons e es ih =>
    have he : is_scan_expr e = false := h e (by simp)
    cases es with
    | nil => simp [chain_of, ptree.leaf_scans, he]
    | cons e2 es =>
      have := ih (by simp) (fun x hx => h x (by simp [hx]))
      simp [chain_of, ptree.leaf_scans, ptree.leaf_scans_list, he, this]

theorem leaf_scans_list_map (f : ptree → ptree) (cs : List ptree)
    (h : ∀ c ∈ cs, (f c).leaf_scans = c.leaf_scans) :
    ptree.leaf_scans_list (cs.map f) = ptree.leaf_scans_list cs := by
  induction cs with
  | nil => rfl
  | cons c cs ih =>
    simp only [List.map_cons, ptree.leaf_scans_list]
    rw [h c (by simp), ih (fun d hd => h d (by simp [hd]))]

theorem leaf_scans_rewritten (N : Int) (hlo : Str → Bool) :
    ∀ t : ptree, (rewritten N hlo t).leaf_scans = t.leaf_scans := by
  apply ptree_induction
  intro e cs ih
  rw [rewritten_mk]
  rcases produced_scan_cases N hlo e with h | ⟨h1, h2⟩
  · rw [h]
    simp only [chain_of, ptree.leaf_scans, leaf_scans_list_map _ cs ih]
    cases cs <;> simp
  · rw [leaf_scans_chain_of _ _ (produced_ne_nil N hlo e) h2, leaf_scans_list_map _ cs ih]
    have he : is_scan_expr e = false := h1
    simp [ptree.leaf_scans, he]

/-- C7: for every plan tree and every cluster size, the scans of the
rewritten tree are those of the original one, as multisets of expressions:
the rewrite neither drops, duplicates nor alters a scan.  This holds for the
scan nodes (LogicalTableScan and BindableTableScan) and for those among them
that are leaves. -/
theorem scans_preserved (N : Int) (hlo : Str → Bool) (t : ptree) :
    ∃ t1 : ptree,
      (∀ fuel, fuel_for t ≤ fuel → transform_json_tree N hlo fuel t = some t1) ∧
      (t1.scans : Multiset Str) = (t.scans : Multiset Str) ∧
      (t1.leaf_scans : Multiset Str) = (t.leaf_scans : Multiset Str) := by
  refine ⟨rewritten N hlo t, fun fuel h => transform_json_tree_eq N hlo t fuel h, ?_, ?_⟩
  · rw [scans_rewritten]
  · rw [leaf_scans_rewritten]

theorem planner_tokens_split :
    ∀ Y ∈ planner_tokens, Y ∈ old_tokens ∨ Y ∈ single_node_tokens := by decide

theorem single_node_tokens_not_distributed : ∀ Y ∈ single_node_tokens,
    Y ≠ LOGICAL_DISTRIBUTE_AGGREGATE_TEXT ∧ Y ≠ LOGICAL_JOIN_PARTITION_TEXT ∧
    Y ≠ LOGICAL_PARTITION_TEXT ∧ Y ≠ LOGICAL_SORT_AND_SAMPLE_TEXT := by decide

theorem written_single_node (hlo : Str → Bool) (e : Str) :
    ∀ Y ∈ (written 1 hlo e).2, Y ∈ single_node_tokens := by
  unfold written
  simp only [if_true]
  split_ifs <;> simp [single_node_tokens]

theorem plain_token_not_old (e : Str) (h : plain e) : operator_token e ∉ old_tokens := by
  obtain ⟨h1, h2, h3⟩ := h
  simp only [is_sort, is_aggregate, is_join, has_operator, beq_eq_false_iff_ne, ne_eq] at h1 h2 h3
  simp [old_tokens, h1, h2, h3]

theorem produced_single_node (hlo : Str → Bool) (e : Str)
    (h : operator_token e ∈ planner_tokens) :
    ∀ x ∈ produced 1 hlo e, operator_token x ∈ single_node_tokens := by
  intro x hx
  by_cases hp : plain e
  · rw [produced_plain 1 hlo e hp] at hx
    simp at hx
    rw [hx]
    rcases planner_tokens_split _ h with h1 | h1
    · exact absurd h1 (plain_token_not_old e hp)
    · exact h1
  · obtain ⟨h1, h2⟩ := produced_written 1 hlo e hp
    rw [h2] at hx
    obtain ⟨Y, hY, rfl⟩ := List.mem_map.mp hx
    rw [token_of_replaced _ Y e (written_old 1 hlo e) (written_new 1 hlo e Y hY) h1]
    exact written_single_node hlo e Y hY

theorem rewritten_single_node (hlo : Str → Bool) :
    ∀ t : ptree, (∀ x ∈ t.exprs, operator_token x ∈ planner_tokens) →
      ∀ x ∈ (rewritten 1 hlo t).exprs, operator_token x ∈ single_node_tokens := by
  apply ptree_induction
  intro e cs ih hp x hx
  rw [exprs_rewritten] at hx
  rcases List.mem_append.mp hx with h | h
  · exact produced_single_node hlo e (hp e (by simp [ptree.exprs])) x h
  · obtain ⟨c1, hc1, hx1⟩ := (mem_exprs_list x _).mp h
    obtain ⟨c, hc, rfl⟩ := List.mem_map.mp hc1
    refine ih c hc (fun y hy => hp y ?_) x hx1
    simp only [ptree.exprs, List.mem_cons]
    right
    exact (mem_exprs_list y cs).mpr ⟨c, hc, hy⟩

theorem ite_ok_step (c : Bool) (a b : Except error kernel) (P : kernel → Prop)
    (ha : c = true → ∀ k, a = .ok k → P k) (hb : c = false → ∀ k, b = .ok k → P k) :
    ∀ k, (if c = true then a else b) = .ok k → P k := by
  intro k h
  cases c
  · exact hb rfl k (by simpa using h)
  · exact ha rfl k (by simpa using h)

theorem ok_branch (x : Str) (id : Nat) (T : kernel_type) (hT : kind_sound x ⟨id, T, x⟩) :
    ∀ k, (Except.ok ⟨id, T, x⟩ : Except error kernel) = .ok k → kind_sound x k := by
  intro k h
  cases h
  exact hT

theorem scan_branch (x : Str) (id : Nat) (T : kernel_type) (o : Option Nat)
    (hT : kind_sound x ⟨id, T, x⟩) :
    ∀ k, (match o with
          | none => (Except.error error.table_not_found : Except error kernel)
          | some _ => .ok ⟨id, T, x⟩) = .ok k → kind_sound x k := by
  intro k h
  cases o with
  | none => cases h
  | some v => cases h; exact hT

theorem make_kernel_type (ti : Str → Option Nat) (id : Nat) (x : Str) :
    ∀ k, make_kernel ti id x = .ok k → kind_sound x k := by
  unfold make_kernel
  iterate 16
    refine ite_ok_step _ _ _ (kind_sound x) (fun hc => ?_) (fun _ => ?_)
    · first
      | (apply ok_branch
         refine ⟨?_, ?_, ?_, ?_⟩ <;> intro h <;>
           first
           | exact hc
           | (simp at h))
      | (apply scan_branch
         refine ⟨?_, ?_, ?_, ?_⟩ <;> intro h <;>
           first
           | exact hc
           | (simp at h))
  intro k h
  cases h

/-- C8: for a plan of the logical planner (every operator among
LogicalProject, LogicalFilter, LogicalTableScan, BindableTableScan,
LogicalSort, LogicalAggregate, LogicalJoin, LogicalUnion, LogicalLimit)
rewritten with cluster size 1, no node of the rewritten tree is a
DistributeAggregate, JoinPartition, distributed Partition or distributed
SortAndSample node, and no kernel `make_kernel` makes from such a node is of
one of these four kinds. -/
theorem single_node_has_no_distributed_kernel (hlo : Str → Bool) (t : ptree)
    (h : ∀ x ∈ t.exprs, operator_token x ∈ planner_tokens) :
    ∃ t1 : ptree,
      (∀ fuel, fuel_for t ≤ fuel → transform_json_tree 1 hlo fuel t = some t1) ∧
      ∀ x ∈ t1.exprs,
        (is_distribute_aggregate x = false ∧ is_join_partition x = false ∧
          is_partition x = false ∧ is_sort_and_sample x = false) ∧
        ∀ (table_index : Str → Option Nat) (id : Nat) (k : kernel),
          make_kernel table_index id x = .ok k →
            k.type_id ≠ .DistributeAggregateKernel ∧ k.type_id ≠ .JoinPartitionKernel ∧
            k.type_id ≠ .PartitionKernel ∧ k.type_id ≠ .SortAndSampleKernel := by
  refine ⟨rewritten 1 hlo t, fun fuel hf => transform_json_tree_eq 1 hlo t fuel hf, ?_⟩
  intro x hx
  have htok := rewritten_single_node hlo t h x hx
  obtain ⟨h1, h2, h3, h4⟩ := single_node_tokens_not_distributed _ htok
  have hfalse : is_distribute_aggregate x = false ∧ is_join_partition x = false ∧
      is_partition x = false ∧ is_sort_and_sample x = false := by
    simp [is_distribute_aggregate, is_join_partition, is_partition, is_sort_and_sample,
      has_operator, h1, h2, h3, h4]
  refine ⟨hfalse, ?_⟩
  intro ti id k hk
  obtain ⟨k1, k2, k3, k4⟩ := make_kernel_type ti id x k hk
  obtain ⟨f1, f2, f3, f4⟩ := hfalse
  refine ⟨fun hc => ?_, fun hc => ?_, fun hc => ?_, fun hc => ?_⟩
  · rw [k1 hc] at f1; cases f1
  · rw [k2 hc] at f2; cases f2
  · rw [k3 hc] at f3; cases f3
  · rw [k4 hc] at f4; cases f4

theorem ite_step (c : Bool) (a b : Except error kernel) (P : Except error kernel → Prop)
    (ha : c = true → P a) (hb : c = false → P b) : P (if c = true then a else b) := by
  cases c
  · simpa using hb rfl
  · simpa using ha rfl

theorem kernel_ok_of_token (ti : Str → Option Nat) (x tok : Str)
    (h : has_operator tok x = true) (hb : tok ∈ buildable_tokens)
    (hs : tok ≠ LOGICAL_SCAN_TEXT ∧ tok ≠ BINDABLE_SCAN_TEXT) : kernel_ok ti x := by
  have ht := (has_operator_iff tok x).mp h
  refine ⟨by rw [ht]; exact hb, fun hscan => ?_⟩
  rw [not_scan_of_token tok x ht hs.1 hs.2] at hscan
  cases hscan

theorem scan_result (ti : Str → Option Nat) (id : Nat) (x tok : Str) (T : kernel_type)
    (h : has_operator tok x = true) (hb : tok ∈ buildable_tokens)
    (hs : tok = LOGICAL_SCAN_TEXT ∨ tok = BINDABLE_SCAN_TEXT) :
    make_kernel_result ti x
      (match ti x with
       | none => .error .table_not_found
       | some _ => .ok ⟨id, T, x⟩) := by
  have ht := (has_operator_iff tok x).mp h
  have hscan : is_scan_expr x = true := by
    rcases hs with hs | hs <;>
      simp [is_scan_expr, is_logical_scan, is_bindable_scan, has_operator, ht, hs]
  cases hti : ti x with
  | none => exact Or.inr (Or.inl ⟨rfl, hscan, hti⟩)
  | some v =>
    refine Or.inl ⟨_, rfl, ?_, fun _ => ?_⟩
    · rw [ht]; exact hb
    · rw [hti]; simp

theorem make_kernel_cases (ti : Str → Option Nat) (id : Nat) (x : Str) :
    make_kernel_result ti x (make_kernel ti id x) := by
  unfold make_kernel
  refine ite_step _ _ _ _ (fun hc => ?_) (fun h1 => ?_)
  · exact Or.inl ⟨_, rfl, kernel_ok_of_token ti x _ hc (by decide) (by decide)⟩
  refine ite_step _ _ _ _ (fun hc => ?_) (fun h2 => ?_)
  · exact Or.inl ⟨_, rfl, kernel_ok_of_token ti x _ hc (by decide) (by decide)⟩
  refine ite_step _ _ _ _ (fun hc => ?_) (fun h3 => ?_)
  · exact scan_result ti id x _ _ hc (by decide) (by decide)
  refine ite_step _ _ _ _ (fun hc => ?_) (fun h4 => ?_)
  · exact scan_result ti id x _ _ hc (by decide) (by decide)
  refine ite_step _ _ _ _ (fun hc => ?_) (fun h5 => ?_)
  · exact Or.inl ⟨_, rfl, kernel_ok_of_token ti x _ hc (by decide) (by decide)⟩
  refine ite_step _ _ _ _ (fun hc => ?_) (fun h6 => ?_)
  · exact Or.inl ⟨_, rfl, kernel_ok_of_token ti x _ hc (by decide) (by decide)⟩
  refine ite_step _ _ _ _ (fun hc => ?_) (fun h7 => ?_)
  · exact Or.inl ⟨_, rfl, kernel_ok_of_token ti x _ hc (by decide) (by decide)⟩
  refine ite_step _ _ _ _ (fun hc => ?_) (fun h8 => ?_)
  · exact Or.inl ⟨_, rfl, kernel_ok_of_token ti x _ hc (by decide) (by decide)⟩
  refine ite_step _ _ _ _ (fun hc => ?_) (fun h9 => ?_)
  · exact Or.inl ⟨_, rfl, kernel_ok_of_token ti x _ hc (by decide) (by decide)⟩
  refine ite_step _ _ _ _ (fun hc => ?_) (fun h10 => ?_)
  · exact Or.inl ⟨_, rfl, kernel_ok_of_token ti x _ hc (by decide) (by decide)⟩
  refine ite_step _ _ _ _ (fun hc => ?_) (fun h11 => ?_)
  · exact Or.inl ⟨_, rfl, kernel_ok_of_token ti x _ hc (by decide) (by decide)⟩
  refine ite_step _ _ _ _ (fun hc => ?_) (fun h12 => ?_)
  · exact Or.inl ⟨_, rfl, kernel_ok_of_token ti x _ hc (by decide) (by decide)⟩
  refine ite_step _ _ _ _ (fun hc => ?_) (fun h13 => ?_)
  · exact Or.inl ⟨_, rfl, kernel_ok_of_token ti x _ hc (by decide) (by decide)⟩
  refine ite_step _ _ _ _ (fun hc => ?_) (fun h14 => ?_)
  · exact Or.inl ⟨_, rfl, kernel_ok_of_token ti x _ hc (by decide) (by decide)⟩
  refine ite_step _ _ _ _ (fun hc => ?_) (fun h15 => ?_)
  · exact Or.inl ⟨_, rfl, kernel_ok_of_token ti x _ hc (by decide) (by decide)⟩
  refine ite_step _ _ _ _ (fun hc => ?_) (fun h16 => ?_)
  · exact Or.inl ⟨_, rfl, kernel_ok_of_token ti x _ hc (by decide) (by decide)⟩
  refine Or.inr (Or.inr ⟨_, rfl, ?_⟩)
  simp only [is_project, is_filter, is_logical_scan, is_bindable_scan,
    is_single_node_partition, is_single_node_sort_and_sample, is_partition,
    is_sort_and_sample, is_merge, is_limit, is_compute_aggregate, is_distribute_aggregate,
    is_merge_aggregate, is_pairwise_join, is_join_partition, is_union, has_operator,
    beq_eq_false_iff_ne, ne_eq] at h1 h2 h3 h4 h5 h6 h7 h8 h9 h10 h11 h12 h13 h14 h15 h16
  simp only [buildable_tokens, List.mem_cons, List.mem_singleton, List.not_mem_nil, or_false,
    h1, h2, h3, h4, h5, h6, h7, h8, h9, h10, h11, h12, h13, h14, h15, h16, or_self,
    not_false_eq_true]

theorem ptree_list_induction (P : ptree → Prop) (Q : List ptree → Prop)
    (hmk : ∀ e cs, Q cs → P (.mk e cs)) (hnil : Q [])
    (hcons : ∀ c cs, P c → Q cs → Q (c :: cs)) : ∀ t, P t :=
  fun t => ptree.rec (motive_1 := P) (motive_2 := Q) hmk hnil hcons t

theorem expr_tree_from_json_cases (ti : Str → Option Nat) (t : ptree) :
    (∀ x ∈ t.exprs, is_scan_expr x = true → ti x ≠ none) →
      ∀ level next, build_result t.exprs (expr_tree_from_json ti t level next) := by
  refine ptree_list_induction
    (fun t => (∀ x ∈ t.exprs, is_scan_expr x = true → ti x ≠ none) →
      ∀ level next, build_result t.exprs (expr_tree_from_json ti t level next))
    (fun cs => (∀ x ∈ ptree.exprs_list cs, is_scan_expr x = true → ti x ≠ none) →
      ∀ level next, build_result (ptree.exprs_list cs)
        (expr_tree_from_json_children ti cs level next)) ?_ ?_ ?_ t
  · intro e cs ih hreg level next
    have hregcs : ∀ x ∈ ptree.exprs_list cs, is_scan_expr x = true → ti x ≠ none :=
      fun x hx => hreg x (by simp [ptree.exprs, hx])
    have hcs := ih hregcs (level + 1) (next + 1)
    simp only [expr_tree_from_json, ptree.exprs]
    rcases make_kernel_cases ti next e with ⟨k, hk, hok⟩ | ⟨_, hscan, hnone⟩ | ⟨w, hw, hbad⟩
    · rw [hk]
      rcases hcs with ⟨hall, v, hv⟩ | ⟨hex, w, hw⟩
      · left
        refine ⟨?_, ?_⟩
        · intro x hx
          rcases List.mem_cons.mp hx with h | h
          · rw [h]; exact hok.1
          · exact hall x h
        · rw [hv]; exact ⟨_, rfl⟩
      · right
        obtain ⟨x, hx, hxb⟩ := hex
        refine ⟨⟨x, List.mem_cons_of_mem _ hx, hxb⟩, w, ?_⟩
        rw [hw]
    · exact absurd hnone (hreg e (by simp [ptree.exprs]) hscan)
    · right
      refine ⟨⟨e, by simp, hbad⟩, w, ?_⟩
      rw [hw]
  · intro _ level next
    left
    exact ⟨by simp [ptree.exprs_list], _, rfl⟩
  · intro c cs ihc ihcs hreg level next
    have h1 := ihc (fun x hx => hreg x (by simp [ptree.exprs_list, hx])) level next
    simp only [expr_tree_from_json_children, ptree.exprs_list]
    rcases h1 with ⟨hall, ⟨n, next1⟩, hv⟩ | ⟨hex, w, hw⟩
    · rw [hv]
      have h2 := ihcs (fun x hx => hreg x (by simp [ptree.exprs_list, hx])) level next1
      simp only []
      rcases h2 with ⟨hall2, v2, hv2⟩ | ⟨hex2, w2, hw2⟩
      · left
        refine ⟨?_, ?_⟩
        · intro x hx
          rcases List.mem_append.mp hx with h | h
          · exact hall x h
          · exact hall2 x h
        · rw [hv2]; exact ⟨_, rfl⟩
      · right
        obtain ⟨x, hx, hxb⟩ := hex2
        refine ⟨⟨x, List.mem_append_right _ hx, hxb⟩, w2, ?_⟩
        rw [hw2]
    · right
      obtain ⟨x, hx, hxb⟩ := hex
      refine ⟨⟨x, List.mem_append_left _ hx, hxb⟩, w, ?_⟩
      rw [hw]

theorem expr_tree_from_json_raises (ti : Str → Option Nat) (t : ptree) :
    (∃ x ∈ t.exprs, operator_token x ∉ buildable_tokens) →
      ∀ level next, ∃ e, expr_tree_from_json ti t level next = .error e := by
  refine ptree_list_induction
    (fun t => (∃ x ∈ t.exprs, operator_token x ∉ buildable_tokens) →
      ∀ level next, ∃ e, expr_tree_from_json ti t level next = .error e)
    (fun cs => (∃ x ∈ ptree.exprs_list cs, operator_token x ∉ buildable_tokens) →
      ∀ level next, ∃ e, expr_tree_from_json_children ti cs level next = .error e) ?_ ?_ ?_ t
  · intro e cs ih hbad level next
    simp only [expr_tree_from_json]
    rcases make_kernel_cases ti next e with ⟨k, hk, hok⟩ | ⟨h, _, _⟩ | ⟨w, hw, _⟩
    · rw [hk]
      obtain ⟨x, hx, hxb⟩ := hbad
      simp only [ptree.exprs, List.mem_cons] at hx
      rcases hx with hx | hx
      · rw [hx] at hxb; exact absurd hok.1 hxb
      · obtain ⟨e1, he1⟩ := ih ⟨x, hx, hxb⟩ (level + 1) (next + 1)
        rw [he1]; exact ⟨_, rfl⟩
    · rw [h]; exact ⟨_, rfl⟩
    · rw [hw]; exact ⟨_, rfl⟩
  · rintro ⟨x, hx, _⟩
    simp [ptree.exprs_list] at hx
  · intro c cs ihc ihcs hbad level next
    simp only [expr_tree_from_json_children]
    cases hc : expr_tree_from_json ti c level next with
    | error e1 => exact ⟨_, rfl⟩
    | ok v =>
      obtain ⟨n, next1⟩ := v
      simp only []
      obtain ⟨x, hx, hxb⟩ := hbad
      simp only [ptree.exprs_list, List.mem_append] at hx
      rcases hx with hx | hx
      · obtain ⟨e1, he1⟩ := ihc ⟨x, hx, hxb⟩ level next
        rw [hc] at he1; cases he1
      · obtain ⟨e1, he1⟩ := ihcs ⟨x, hx, hxb⟩ level next1
        rw [he1]; exact ⟨_, rfl⟩

theorem buildable_iff_recognized_of_not_old (tok : Str) (h : tok ∉ old_tokens) :
    tok ∈ buildable_tokens ↔ tok ∈ recognized_tokens := by
  simp only [old_tokens, List.mem_cons, List.mem_singleton, List.not_mem_nil, or_false,
    not_or] at h
  simp only [buildable_tokens, recognized_tokens, List.mem_cons, List.mem_singleton,
    List.not_mem_nil, or_false, h.1, h.2.1, h.2.2, false_or]
  tauto

theorem old_tokens_recognized : ∀ X ∈ old_tokens, X ∈ recognized_tokens := by decide

theorem new_tokens_buildable : ∀ Y ∈ new_tokens, Y ∈ buildable_tokens := by decide

theorem produced_buildable_iff (N : Int) (hlo : Str → Bool) (e : Str) :
    (∀ y ∈ produced N hlo e, operator_token y ∈ buildable_tokens)
      ↔ operator_token e ∈ recognized_tokens := by
  by_cases hp : plain e
  · rw [produced_plain N hlo e hp]
    simp only [List.mem_singleton, forall_eq]
    exact buildable_iff_recognized_of_not_old _ (plain_token_not_old e hp)
  · obtain ⟨h1, h2⟩ := produced_written N hlo e hp
    have hold := written_old N hlo e
    constructor
    · intro _
      rw [(has_operator_iff _ e).mp h1]
      exact old_tokens_recognized _ hold
    · intro _ y hy
      rw [h2] at hy
      obtain ⟨Y, hY, rfl⟩ := List.mem_map.mp hy
      have hYn := written_new N hlo e Y hY
      rw [token_of_replaced _ Y e hold hYn h1]
      exact new_tokens_buildable Y hYn

theorem rewritten_buildable_iff (N : Int) (hlo : Str → Bool) :
    ∀ t : ptree, (∀ x ∈ (rewritten N hlo t).exprs, operator_token x ∈ buildable_tokens)
      ↔ (∀ x ∈ t.exprs, operator_token x ∈ recognized_tokens) := by
  apply ptree_induction
  intro e cs ih
  rw [exprs_rewritten]
  simp only [List.mem_append, ptree.exprs, List.mem_cons, mem_exprs_list, List.mem_map]
  constructor
  · intro h x hx
    rcases hx with hx | ⟨c, hc, hx⟩
    · rw [hx]
      exact (produced_buildable_iff N hlo e).mp (fun y hy => h y (Or.inl hy))
    · exact (ih c hc).mp (fun y hy => h y (Or.inr ⟨_, ⟨c, hc, rfl⟩, hy⟩)) x hx
  · intro h x hx
    rcases hx with hx | ⟨c1, ⟨c, hc, rfl⟩, hx⟩
    · exact (produced_buildable_iff N hlo e).mpr (h e (Or.inl rfl)) x hx
    · exact (ih c hc).mpr (fun y hy => h y (Or.inr ⟨c, hc, hy⟩)) x hx

theorem rewritten_scans_registered (N : Int) (hlo : Str → Bool) (ti : Str → Option Nat)
    (t : ptree) (h : ∀ x ∈ t.scans, ti x ≠ none) :
    ∀ x ∈ (rewritten N hlo t).exprs, is_scan_expr x = true → ti x ≠ none := by
  intro x hx hs
  apply h
  rw [← scans_rewritten N hlo t]
  exact List.mem_filter.mpr ⟨hx, hs⟩

theorem option_parses_ok {α : Type} (parse : Str → Except error α) (value : Option Str)
    (d : α) (h : option_parses parse value = true) :
    ∃ n, (match value with
          | none => Except.ok d
          | some v => parse v) = .ok n := by
  cases value with
  | none => exact ⟨d, rfl⟩
  | some v =>
    simp only [option_parses] at h
    cases hp : parse v with
    | ok n => exact ⟨n, hp⟩
    | error e => rw [hp] at h; cases h

theorem flow_control_thresholds_ok (options : config_options)
    (h : options_parse options = true) : ∃ p, flow_control_thresholds options = .ok p := by
  simp only [options_parse, Bool.and_eq_true] at h
  obtain ⟨⟨⟨h1, h2⟩, _⟩, _⟩ := h
  unfold flow_control_thresholds
  have hb : ∃ n, (match options "FLOW_CONTROL_BATCHES_THRESHOLD".toList with
      | none => Except.ok UINT32_MAX
      | some v =>
        match stoi v with
        | .error e => .error e
        | .ok i => .ok (to_uint32 i)) = .ok n := by
    cases hv : options "FLOW_CONTROL_BATCHES_THRESHOLD".toList with
    | none => exact ⟨_, rfl⟩
    | some v =>
      rw [hv] at h1
      simp only [option_parses] at h1
      cases hp : stoi v with
      | ok n =>
        refine ⟨to_uint32 n, ?_⟩
        show (match stoi v with
          | .error e => Except.error e
          | .ok i => Except.ok (to_uint32 i)) = _
        rw [hp]
      | error e => rw [hp] at h1; cases h1
  obtain ⟨n, hn⟩ := hb
  obtain ⟨m, hm⟩ := option_parses_ok stoull _ SIZE_MAX h2
  rw [hn, hm]
  simp only []
  split_ifs <;> exact ⟨_, rfl⟩

theorem child_edges_ok (options : config_options) (thr : kernel → Bool) (parent : kernel)
    (size index : Nat) (child : kernel) (h : options_parse options = true) :
    ∃ es, child_edges options thr parent size index child = .ok es := by
  obtain ⟨p, hp⟩ := flow_control_thresholds_ok options h
  simp only [options_parse, Bool.and_eq_true] at h
  obtain ⟨⟨_, h3⟩, h4⟩ := h
  obtain ⟨n3, hn3⟩ := option_parses_ok stoi _ (8 : Int) h3
  obtain ⟨n4, hn4⟩ := option_parses_ok stoull _ (400000000 : Nat) h4
  unfold child_edges
  rw [hp, hn3, hn4]
  obtain ⟨p1, p2⟩ := p
  simp only []
  split_ifs <;> exact ⟨_, rfl⟩

theorem node_list_induction (P : node → Prop) (Q : List node → Prop)
    (hmk : ∀ e l k cs, Q cs → P (.mk e l k cs)) (hnil : Q [])
    (hcons : ∀ c cs, P c → Q cs → Q (c :: cs)) : ∀ t, P t :=
  fun t => node.rec (motive_1 := P) (motive_2 := Q) hmk hnil hcons t

theorem visit_completes (options : config_options) (thr : kernel → Bool)
    (h : options_parse options = true) (n : node) :
    ∀ g, (visit_node options thr n g).2 = none := by
  refine node_list_induction
    (fun n => ∀ g, (visit_node options thr n g).2 = none)
    (fun cs => ∀ parent size index g, (visit options thr parent size index cs g).2 = none)
    ?_ ?_ ?_ n
  · intro e l k cs ih g
    simp only [visit_node]
    exact ih k cs.length 0 g
  · intro parent size index g
    simp only [visit]
  · intro c cs ihc ihcs parent size index g
    simp only [visit]
    have h1 := ihc g
    cases hv : visit_node options thr c g with
    | mk g1 r =>
      rw [hv] at h1
      simp only at h1
      subst h1
      obtain ⟨es, hes⟩ := child_edges_ok options thr parent size index c.kernel_unit h
      simp only [hes]
      exact ihcs parent size (index + 1) _

theorem build_tree_cases (N : Int) (hlo : Str → Bool) (ti : Str → Option Nat) (t : ptree)
    (hreg : ∀ x ∈ t.scans, ti x ≠ none) (fuel : Nat) (hfuel : fuel_for t ≤ fuel) :
    ((∀ x ∈ t.exprs, operator_token x ∈ recognized_tokens) ∧
        ∃ root, build_tree N hlo ti fuel (some t) = some (.ok root)) ∨
    ((∃ x ∈ t.exprs, operator_token x ∉ recognized_tokens) ∧
        ∃ w, build_tree N hlo ti fuel (some t) = some (.error (.InvalidAlgebra w))) := by
  have hrun := transform_json_tree_eq N hlo t fuel hfuel
  have hcases := expr_tree_from_json_cases ti (rewritten N hlo t)
    (rewritten_scans_registered N hlo ti t hreg) 0 0
  simp only [build_tree, hrun]
  rcases hcases with ⟨hall, ⟨root, next⟩, hv⟩ | ⟨⟨x, hx, hxb⟩, w, hw⟩
  · left
    refine ⟨(rewritten_buildable_iff N hlo t).mp hall, root, ?_⟩
    rw [hv]
  · right
    refine ⟨?_, w, ?_⟩
    · by_contra hcon
      apply hxb
      refine (rewritten_buildable_iff N hlo t).mpr (fun y hy => ?_) x hx
      by_contra hy2
      exact hcon ⟨y, hy, hy2⟩
    · rw [hw]

/-- C5, as stated, fails: every operator of the plan is recognized and its
table is registered, yet `build_batch_graph` raises, in `visit`, when the
option FLOW_CONTROL_BATCHES_THRESHOLD is set to a text that is no number. -/
theorem build_raises_with_recognized_tokens_counterexample :
    (∀ x ∈ filter_over_scan.exprs, operator_token x ∈ recognized_tokens) ∧
    build_batch_graph 1 (fun _ => false) (fun _ => some 0) batches_threshold_MAX
        (fun _ => true) (fuel_for filter_over_scan) (some filter_over_scan)
      = some ⟨⟨[⟨0, .FilterKernel, "LogicalFilter(condition=[>($0, 5)])".toList⟩], []⟩,
          some .invalid_argument⟩ := by
  refine ⟨by decide, by rfl⟩

/-- C5, amended: for every plan tree whose scanned tables are registered and
every cluster size, the guarded block of `build_batch_graph` (rewrite, then
tree of kernels) completes without raising if and only if the leading
operator of every node is a recognized token; when moreover every numeric
option that is set parses, the whole `build_batch_graph` completes without
raising if and only if the same holds; and the call always ends. -/
theorem build_succeeds_iff_recognized (N : Int) (hlo : Str → Bool)
    (ti : Str → Option Nat) (options : config_options) (thr : kernel → Bool) (t : ptree)
    (hreg : ∀ x ∈ t.scans, ti x ≠ none) (hopt : options_parse options = true) :
    ∀ fuel, fuel_for t ≤ fuel →
      ((∃ root, build_tree N hlo ti fuel (some t) = some (.ok root))
        ↔ ∀ x ∈ t.exprs, operator_token x ∈ recognized_tokens) ∧
      ((∃ g, build_batch_graph N hlo ti options thr fuel (some t) = some ⟨g, none⟩)
        ↔ ∀ x ∈ t.exprs, operator_token x ∈ recognized_tokens) ∧
      ∃ o, build_batch_graph N hlo ti options thr fuel (some t) = some o := by
  intro fuel hfuel
  rcases build_tree_cases N hlo ti t hreg fuel hfuel with
    ⟨hall, root, hroot⟩ | ⟨⟨x, hx, hxb⟩, w, hw⟩
  · have hvisit : ∀ g, (visit options thr root.kernel_unit root.children.length 0
        root.children g).2 = none := by
      intro g
      cases root with
      | mk e l k cs => exact visit_completes options thr hopt (.mk e l k cs) g
    have hb : ∃ g, build_batch_graph N hlo ti options thr fuel (some t) = some ⟨g, none⟩ := by
      simp only [build_batch_graph, hroot]
      have h2 := hvisit ⟨[root.kernel_unit], []⟩
      cases hv : visit options thr root.kernel_unit root.children.length 0 root.children
          ⟨[root.kernel_unit], []⟩ with
      | mk g r =>
        rw [hv] at h2
        simp only at h2
        subst h2
        exact ⟨g, rfl⟩
    refine ⟨⟨fun _ => hall, fun _ => ⟨root, hroot⟩⟩, ⟨fun _ => hall, fun _ => hb⟩, ?_⟩
    obtain ⟨g, hg⟩ := hb
    exact ⟨_, hg⟩
  · have hnot : ¬ ∀ y ∈ t.exprs, operator_token y ∈ recognized_tokens :=
      fun hall => hxb (hall x hx)
    have hb : build_batch_graph N hlo ti options thr fuel (some t)
        = some ⟨⟨[], []⟩, some (rethrown (.InvalidAlgebra w))⟩ := by
      simp only [build_batch_graph, hw]
    refine ⟨⟨?_, fun h => absurd h hnot⟩, ⟨?_, fun h => absurd h hnot⟩, ⟨_, hb⟩⟩
    · rintro ⟨root, hroot⟩
      rw [hw] at hroot
      cases hroot
    · rintro ⟨g, hg⟩
      rw [hb] at hg
      cases hg

/-- Witness of the amended C5: a filter over a registered scan, no option set. -/
theorem build_succeeds_iff_recognized_witness :
    (∀ x ∈ filter_over_scan.scans, (fun _ => some 0 : Str → Option Nat) x ≠ none) ∧
    options_parse no_options = true ∧
    ((∃ g, build_batch_graph 1 (fun _ => false) (fun _ => some 0) no_options
        (fun _ => true) 8 (some filter_over_scan) = some ⟨g, none⟩)
      ↔ ∀ x ∈ filter_over_scan.exprs, operator_token x ∈ recognized_tokens) :=
  ⟨by decide, by decide,
    (build_succeeds_iff_recognized 1 (fun _ => false) (fun _ => some 0) no_options
      (fun _ => true) filter_over_scan (by decide) (by decide) 8 (by decide)).2.1⟩

/-- C6, as stated, fails: what leaves `build_batch_graph` is not of kind
InvalidAlgebra.  On a malformed JSON text `read_json` raises its own parse
error, which the handler throws again; and on a plan with the unrecognized
operator LogicalWindow, `make_kernel` raises InvalidAlgebra in the guarded
block, but the handler throws a copy of static type `std::exception`. -/
theorem raised_error_not_invalid_algebra_counterexample :
    build_tree 1 (fun _ => false) (fun _ => some 0) 0 none
      = some (.error .json_parser_error) ∧
    build_batch_graph 1 (fun _ => false) (fun _ => some 0) no_options (fun _ => true) 0 none
      = some ⟨⟨[], []⟩, some .std_exception⟩ ∧
    build_tree 1 (fun _ => false) (fun _ => some 0) 8 (some window_over_scan)
      = some (.error (.InvalidAlgebra
          ("expression in the Algebra Relational is currently not supported: " ++
            "LogicalWindow(window0=[$0])").toList)) ∧
    build_batch_graph 1 (fun _ => false) (fun _ => some 0) no_options (fun _ => true) 8
        (some window_over_scan)
      = some ⟨⟨[], []⟩, some .std_exception⟩ ∧
    (∀ w, error.std_exception ≠ .InvalidAlgebra w) ∧
    (∀ w, error.json_parser_error ≠ .InvalidAlgebra w) := by
  refine ⟨by rfl, by rfl, by rfl, by rfl, ?_, ?_⟩ <;> intro w h <;> cases h

/-- C6, amended: for every plan that contains a node with an unrecognized
operator token, `build_batch_graph` raises to its caller out of its guarded
block, with a query graph in which no kernel is registered and no edge is
linked: `visit` is never run on the failed plan; when the scanned tables are
registered, the exception raised in the guarded block is the InvalidAlgebra
of `make_kernel`.  A malformed JSON text makes `read_json` raise its parse
error in the guarded block, not InvalidAlgebra, and the call raises in the
same way, before any edge is linked. -/
theorem unrecognized_token_raises_before_linking (N : Int) (hlo : Str → Bool)
    (ti : Str → Option Nat) (options : config_options) (thr : kernel → Bool) (t : ptree)
    (hbad : ∃ x ∈ t.exprs, operator_token x ∉ recognized_tokens) :
    (∀ fuel, fuel_for t ≤ fuel →
      (∃ e, build_batch_graph N hlo ti options thr fuel (some t)
        = some ⟨⟨[], []⟩, some e⟩) ∧
      ((∀ x ∈ t.scans, ti x ≠ none) →
        ∃ w, build_tree N hlo ti fuel (some t) = some (.error (.InvalidAlgebra w)))) ∧
    (∀ fuel,
      build_tree N hlo ti fuel none = some (.error .json_parser_error) ∧
      (∃ e, build_batch_graph N hlo ti options thr fuel none
        = some ⟨⟨[], []⟩, some e⟩)) := by
  refine ⟨fun fuel hfuel => ⟨?_, fun hreg => ?_⟩, fun fuel => ⟨rfl, _, rfl⟩⟩
  · have hrun := transform_json_tree_eq N hlo t fuel hfuel
    have hbad2 : ∃ x ∈ (rewritten N hlo t).exprs, operator_token x ∉ buildable_tokens := by
      by_contra hcon
      obtain ⟨x, hx, hxb⟩ := hbad
      apply hxb
      refine (rewritten_buildable_iff N hlo t).mp (fun y hy => ?_) x hx
      by_contra hy2
      exact hcon ⟨y, hy, hy2⟩
    obtain ⟨e, he⟩ := expr_tree_from_json_raises ti (rewritten N hlo t) hbad2 0 0
    exact ⟨rethrown e, by simp only [build_batch_graph, build_tree, hrun, he]⟩
  · rcases build_tree_cases N hlo ti t hreg fuel hfuel with
      ⟨hall, _, _⟩ | ⟨_, w, hw⟩
    · obtain ⟨x, hx, hxb⟩ := hbad
      exact absurd (hall x hx) hxb
    · exact ⟨w, hw⟩

/-- Witness of the amended C6: the operator LogicalWindow over a registered scan. -/
theorem unrecognized_token_raises_before_linking_witness :
    (∃ x ∈ window_over_scan.exprs, operator_token x ∉ recognized_tokens) ∧
    (∃ e, build_batch_graph 2 (fun _ => false) (fun _ => some 0) no_options (fun _ => true)
        8 (some window_over_scan) = some ⟨⟨[], []⟩, some e⟩) ∧
    ((∀ x ∈ window_over_scan.scans, (fun _ => some 0 : Str → Option Nat) x ≠ none) →
      ∃ w, build_tree 2 (fun _ => false) (fun _ => some 0) 8 (some window_over_scan)
        = some (.error (.InvalidAlgebra w))) :=
  ⟨by decide,
    ((unrecognized_token_raises_before_linking 2 (fun _ => false) (fun _ => some 0)
      no_options (fun _ => true) window_over_scan (by decide)).1 8 (by decide))⟩

/-! ## Witnesses of the claims on the rewrite -/

/-- Witness of C1: a sort by the first column over a scan, on one node. -/
theorem sort_rewritten_to_chain_witness :
    is_sort sort_by_first = true ∧
    ∃ cs1 : List ptree,
      List.Forall₂ (fun c c1 => ∀ fuel, fuel_for c ≤ fuel →
        transform_json_tree 1 (fun _ => false) fuel c = some c1) [table_scan] cs1 ∧
      transform_json_tree 1 (fun _ => false) 8 (.mk sort_by_first [table_scan]) =
        some (.mk "LogicalLimit(sort0=[$0], dir0=[ASC])".toList
          [.mk "LogicalMerge(sort0=[$0], dir0=[ASC])".toList
            [.mk "LogicalSingleNodePartition(sort0=[$0], dir0=[ASC])".toList
              [.mk "LogicalSingleNodeSortAndSample(sort0=[$0], dir0=[ASC])".toList cs1]]]) :=
  ⟨by decide,
    (sort_rewritten_to_chain 1 (fun _ => false) sort_by_first [table_scan] (by decide)
      rfl).elim fun cs1 h => ⟨cs1, h.1, h.2.1 8 (by decide)⟩⟩

/-- Witness of C2: an aggregate over a scan, on three nodes. -/
theorem aggregate_rewritten_to_chain_witness :
    is_aggregate count_by_first = true ∧
    ∃ cs1 : List ptree,
      List.Forall₂ (fun c c1 => ∀ fuel, fuel_for c ≤ fuel →
        transform_json_tree 3 (fun _ => false) fuel c = some c1) [table_scan] cs1 ∧
      transform_json_tree 3 (fun _ => false) 8 (.mk count_by_first [table_scan]) =
        some (.mk "LogicalMergeAggregate(group=[0], EXPR1=[COUNT()])".toList
          [.mk "LogicalDistributeAggregate(group=[0], EXPR1=[COUNT()])".toList
            [.mk "LogicalComputeAggregate(group=[0], EXPR1=[COUNT()])".toList cs1]]) :=
  ⟨by decide,
    (aggregate_rewritten_to_chain 3 (fun _ => false) count_by_first [table_scan]
      (by decide)).elim fun cs1 h => ⟨cs1, h.1, h.2.2.1 (by decide) 8 (by decide)⟩⟩

/-- Witness of C3: an inner join of two scans, on two nodes. -/
theorem join_rewritten_witness :
    is_join inner_join = true ∧
    ∃ cs1 : List ptree,
      cs1.length = 2 ∧
      transform_json_tree 2 (fun _ => false) 8 (.mk inner_join [table_scan, table_scan]) =
        some (.mk "LogicalPartwiseJoin(condition=[=($0, $1)], joinType=[inner])".toList
          [.mk "LogicalJoinPartition(condition=[=($0, $1)], joinType=[inner])".toList cs1]) :=
  ⟨by decide,
    (join_rewritten 2 (fun _ => false) inner_join [table_scan, table_scan]
      (by decide)).elim fun cs1 h => ⟨cs1, h.2.1, h.2.2.2.1 (by decide) 8 (by decide)⟩⟩

/-- Witness of C8: a sort over a join of two scans, on one node. -/
theorem single_node_has_no_distributed_kernel_witness :
    (∀ x ∈ (ptree.mk sort_by_first [.mk inner_join [table_scan, table_scan]]).exprs,
      operator_token x ∈ planner_tokens) ∧
    ∃ t1 : ptree,
      transform_json_tree 1 (fun _ => false) 12
        (.mk sort_by_first [.mk inner_join [table_scan, table_scan]]) = some t1 ∧
      ∀ x ∈ t1.exprs, is_distribute_aggregate x = false ∧ is_join_partition x = false ∧
        is_partition x = false ∧ is_sort_and_sample x = false :=
  ⟨by decide,
    (single_node_has_no_distributed_kernel (fun _ => false)
      (.mk sort_by_first [.mk inner_join [table_scan, table_scan]]) (by decide)).elim
      fun t1 h => ⟨t1, h.1 12 (by decide), fun x hx => (h.2 x hx).1⟩⟩

/-- C11: a LogicalSort node whose expression has only a limit component
(`has_limit_only` true) gets, for every cluster size, only its expression
rewritten to LogicalLimit and no node added: the result node has as many
children as the original, in the same order, each the rewrite of the
corresponding original child. -/
theorem limit_only_sort_rewritten (N : Int) (hlo : Str → Bool) (e : Str) (cs : List ptree)
    (hs : is_sort e = true) (hl : hlo e = true) :
    ∃ cs1 : List ptree,
      List.Forall₂ (fun c c1 => ∀ fuel, fuel_for c ≤ fuel →
        transform_json_tree N hlo fuel c = some c1) cs cs1 ∧
      cs1.length = cs.length ∧
      (∀ fuel, fuel_for (.mk e cs) ≤ fuel →
        transform_json_tree N hlo fuel (.mk e cs) =
          some (.mk (findAndReplaceAll e LOGICAL_SORT_TEXT LOGICAL_LIMIT_TEXT) cs1)) ∧
      operator_token (findAndReplaceAll e LOGICAL_SORT_TEXT LOGICAL_LIMIT_TEXT)
        = LOGICAL_LIMIT_TEXT := by
  have hso : has_operator LOGICAL_SORT_TEXT e = true := hs
  refine ⟨cs.map (rewritten N hlo), children_eq N hlo cs, by simp, ?_, ?_⟩
  · intro fuel hfuel
    rw [transform_json_tree_eq N hlo _ fuel hfuel, rewritten, rewritten_list_eq_map]
    unfold transform_node
    simp [hs, hl]
  · exact token_of_replaced _ _ e (by decide) (by decide) hso

/-- Witness of C11: a sort with only a fetch over a scan, on two nodes. -/
theorem limit_only_sort_rewritten_witness :
    is_sort limit_only_sort = true ∧
    ∃ cs1 : List ptree,
      cs1.length = 1 ∧
      transform_json_tree 2 (fun _ => true) 8 (.mk limit_only_sort [table_scan]) =
        some (.mk "LogicalLimit(fetch=[10])".toList cs1) :=
  ⟨by decide,
    (limit_only_sort_rewritten 2 (fun _ => true) limit_only_sort [table_scan] (by decide)
      rfl).elim fun cs1 h => ⟨cs1, h.2.1, h.2.2.1 8 (by decide)⟩⟩

theorem make_kernel_of_kind (ti : Str → Option Nat) (id : Nat) (x : Str) (T : kernel_type)
    (h : (operator_token x, T) ∈ kernel_kinds) :
    make_kernel ti id x =
      (if is_scan_expr x = true then
        (match ti x with
         | none => .error .table_not_found
         | some _ => .ok ⟨id, T, x⟩)
       else .ok ⟨id, T, x⟩) := by
  simp only [kernel_kinds, List.mem_cons, List.mem_singleton, List.not_mem_nil, or_false,
    Prod.mk.injEq] at h
  unfold make_kernel is_scan_expr is_project is_filter is_logical_scan is_bindable_scan
    is_single_node_partition is_single_node_sort_and_sample is_partition is_sort_and_sample
    is_merge is_limit is_compute_aggregate is_distribute_aggregate is_merge_aggregate
    is_pairwise_join is_join_partition is_union has_operator
  rcases h with h | h | h | h | h | h | h | h | h | h | h | h | h | h | h | h <;>
    (obtain ⟨h1, h2⟩ := h; rw [h1, h2]; rfl)

/-- C12: for every expression whose leading operator is one of the 16
buildable tokens, the kernel `make_kernel` returns has the kind that token
names, whatever the order of the tests: it is returned at once for the 14
operators that are no scan, and for the two scans as soon as the lookup of
the table returns; no kernel of another kind is ever returned. -/
theorem make_kernel_kind (ti : Str → Option Nat) (id : Nat) (x : Str) (T : kernel_type)
    (h : (operator_token x, T) ∈ kernel_kinds) :
    (is_scan_expr x = false → make_kernel ti id x = .ok ⟨id, T, x⟩) ∧
    (∀ idx, ti x = some idx → make_kernel ti id x = .ok ⟨id, T, x⟩) ∧
    (∀ k, make_kernel ti id x = .ok k → k = ⟨id, T, x⟩) := by
  have hk := make_kernel_of_kind ti id x T h
  refine ⟨fun hs => ?_, fun idx hidx => ?_, fun k hk2 => ?_⟩
  · rw [hk]; simp [hs]
  · rw [hk, hidx]; simp
  · rw [hk] at hk2
    split_ifs at hk2
    · cases hti : ti x with
      | none => rw [hti] at hk2; cases hk2
      | some v => rw [hti] at hk2; cases hk2; rfl
    · cases hk2; rfl

/-- Witness of C12: a merge of aggregates is built as MergeAggregate, not as
MergeStream. -/
theorem make_kernel_kind_witness :
    (operator_token "LogicalMergeAggregate(group=[0])".toList, kernel_type.MergeAggregateKernel)
      ∈ kernel_kinds ∧
    make_kernel (fun _ => none) 7 "LogicalMergeAggregate(group=[0])".toList
      = .ok ⟨7, .MergeAggregateKernel, "LogicalMergeAggregate(group=[0])".toList⟩ :=
  ⟨by decide,
    (make_kernel_kind (fun _ => none) 7 "LogicalMergeAggregate(group=[0])".toList
      .MergeAggregateKernel (by decide)).1 (by decide)⟩

/-! ## The edges of `visit` -/

theorem option_value_some {α : Type} (parse : Str → Except error α) (s : Str) (a : Option α)
    (h : option_value parse (some s) = .ok a) : ∃ v, a = some v ∧ parse s = .ok v := by
  simp only [option_value] at h
  cases hp : parse s with
  | ok v => rw [hp] at h; cases h; exact ⟨v, rfl, rfl⟩
  | error e => rw [hp] at h; cases h

theorem option_value_none {α : Type} (parse : Str → Except error α) (a : Option α)
    (h : option_value parse none = .ok a) : a = none := by
  simp only [option_value] at h
  cases h; rfl

theorem option_value_read {α : Type} (parse : Str → Except error α) (d : α)
    (value : Option Str) (a : Option α) (h : option_value parse value = .ok a) :
    (match value with
     | none => Except.ok d
     | some v => parse v) = .ok (a.getD d) := by
  cases value with
  | none => rw [option_value_none parse a h]; rfl
  | some s =>
    obtain ⟨v, hv, hp⟩ := option_value_some parse s a h
    rw [hv]; exact hp

theorem flow_control_thresholds_of_values (options : config_options) (batches : Option Int)
    (bytes : Option Nat)
    (hB : option_value stoi (options "FLOW_CONTROL_BATCHES_THRESHOLD".toList) = .ok batches)
    (hY : option_value stoull (options "FLOW_CONTROL_BYTES_THRESHOLD".toList) = .ok bytes) :
    flow_control_thresholds options
      = .ok (adjusted ((batches.map to_uint32).getD UINT32_MAX) (bytes.getD SIZE_MAX)) := by
  unfold flow_control_thresholds
  cases hv : options "FLOW_CONTROL_BATCHES_THRESHOLD".toList with
  | none =>
    rw [hv] at hB
    rw [option_value_none stoi batches hB]
    cases hw : options "FLOW_CONTROL_BYTES_THRESHOLD".toList with
    | none =>
      rw [hw] at hY
      rw [option_value_none stoull bytes hY]
      rfl
    | some t =>
      rw [hw] at hY
      obtain ⟨w, hw2, hq⟩ := option_value_some stoull t bytes hY
      rw [hw2]
      simp only [hq, adjusted, Option.map_none', Option.getD_none, Option.getD_some]
      split_ifs <;> rfl
  | some s =>
    rw [hv] at hB
    obtain ⟨v, hv2, hp⟩ := option_value_some stoi s batches hB
    rw [hv2]
    cases hw : options "FLOW_CONTROL_BYTES_THRESHOLD".toList with
    | none =>
      rw [hw] at hY
      rw [option_value_none stoull bytes hY]
      simp only [hp, adjusted, Option.map_some', Option.getD_none, Option.getD_some]
      split_ifs <;> rfl
    | some t =>
      rw [hw] at hY
      obtain ⟨w, hw2, hq⟩ := option_value_some stoull t bytes hY
      rw [hw2]
      simp only [hp, hq, adjusted, Option.map_some', Option.getD_some]
      split_ifs <;> rfl

theorem child_edges_many (options : config_options) (thr : kernel → Bool)
    (parent child : kernel) (size index b y : Nat)
    (hth : flow_control_thresholds options = .ok (b, y)) (hsize : 1 < size) :
    child_edges options thr parent size index child
      = .ok [⟨child, default_output_port, parent, input_port_name index,
          throttled_or_default thr parent ⟨.SIMPLE, 1, b, y⟩⟩] := by
  unfold child_edges throttled_or_default
  rw [hth]
  simp only [hsize, if_true]
  split_ifs <;> rfl

theorem child_edges_parallel (options : config_options) (thr : kernel → Bool)
    (parent child : kernel) (size index b y : Nat)
    (hth : flow_control_thresholds options = .ok (b, y)) (hsize : ¬ 1 < size)
    (hpair : parallel_pair child parent) :
    child_edges options thr parent size index child
      = .ok [⟨child, "output_a".toList, parent, "input_a".toList,
              throttled_or_default thr parent ⟨.SIMPLE, 1, b, y⟩⟩,
             ⟨child, "output_b".toList, parent, "input_b".toList,
              throttled_or_default thr parent ⟨.SIMPLE, 1, b, y⟩⟩] := by
  unfold child_edges throttled_or_default
  unfold parallel_pair at hpair
  rw [hth]
  simp only [hsize, if_false, hpair, if_true]
  split_ifs <;> rfl

theorem child_edges_partition (options : config_options) (thr : kernel → Bool)
    (parent child : kernel) (size index b y : Nat) (parts : Option Int)
    (hth : flow_control_thresholds options = .ok (b, y))
    (hparts : option_value stoi (options "MAX_NUM_ORDER_BY_PARTITIONS_PER_NODE".toList)
      = .ok parts)
    (hsize : ¬ 1 < size) (hnot : ¬ parallel_pair child parent)
    (hpair : partition_to_merge child parent) :
    child_edges options thr parent size index child
      = .ok [⟨child, default_output_port, parent, default_input_port,
          if thr parent then ⟨.FOR_EACH, parts.getD 8, b, y⟩
          else ⟨.FOR_EACH, parts.getD 8, UINT32_MAX, SIZE_MAX⟩⟩] := by
  have hread := option_value_read stoi (8 : Int) _ parts hparts
  unfold child_edges
  unfold parallel_pair at hnot
  unfold partition_to_merge at hpair
  rw [hth]
  simp only [hsize, if_false, hnot, hpair, if_true]
  cases hv : options "MAX_NUM_ORDER_BY_PARTITIONS_PER_NODE".toList with
  | none =>
    rw [hv] at hparts
    rw [option_value_none stoi parts hparts]
    simp only [Option.getD_none]
    split_ifs <;> rfl
  | some s =>
    rw [hv] at hparts
    obtain ⟨v, hv2, hp⟩ := option_value_some stoi s parts hparts
    rw [hv2]
    simp only [hp, Option.getD_some]
    split_ifs <;> rfl

theorem child_edges_scan (options : config_options) (thr : kernel → Bool)
    (parent child : kernel) (size index b y : Nat) (load : Option Nat)
    (hth : flow_control_thresholds options = .ok (b, y))
    (hload : option_value stoull (options "MAX_DATA_LOAD_CONCAT_CACHE_BYTES_SIZE".toList)
      = .ok load)
    (hsize : ¬ 1 < size) (hnot : ¬ parallel_pair child parent)
    (hnot2 : ¬ partition_to_merge child parent) (hscan : scan_kernel child) :
    child_edges options thr parent size index child
      = .ok [⟨child, default_output_port, parent, default_input_port,
          ⟨.CONCATENATING, 1, if b ≠ UINT32_MAX then b else 0, load.getD 400000000⟩⟩] := by
  unfold child_edges
  unfold parallel_pair at hnot
  unfold partition_to_merge at hnot2
  unfold scan_kernel at hscan
  rw [hth]
  simp only [hsize, if_false, hnot, hnot2, hscan, if_true]
  cases hv : options "MAX_DATA_LOAD_CONCAT_CACHE_BYTES_SIZE".toList with
  | none =>
    rw [hv] at hload
    rw [option_value_none stoull load hload]
    rfl
  | some s =>
    rw [hv] at hload
    obtain ⟨v, hv2, hp⟩ := option_value_some stoull s load hload
    rw [hv2]
    simp only [hp, Option.getD_some]

theorem child_edges_fallback (options : config_options) (thr : kernel → Bool)
    (parent child : kernel) (size index b y : Nat)
    (hth : flow_control_thresholds options = .ok (b, y))
    (hsize : ¬ 1 < size) (hnot : ¬ parallel_pair child parent)
    (hnot2 : ¬ partition_to_merge child parent) (hnot3 : ¬ scan_kernel child) :
    child_edges options thr parent size index child
      = .ok [⟨child, default_output_port, parent, default_input_port,
          throttled_or_default thr parent ⟨.SIMPLE, 1, b, y⟩⟩] := by
  unfold child_edges throttled_or_default
  unfold parallel_pair at hnot
  unfold partition_to_merge at hnot2
  unfold scan_kernel at hnot3
  rw [hth]
  simp only [hsize, if_false, hnot, hnot2, hnot3]
  split_ifs <;> rfl

theorem visit_one (options : config_options) (thr : kernel → Bool) (parent : kernel)
    (size index : Nat) (c : node) (g g1 : graph) (es : List edge)
    (hc : visit_node options thr c g = (g1, none))
    (hes : child_edges options thr parent size index c.kernel_unit = .ok es) :
    visit options thr parent size index [c] g = (⟨g1.nodes, g1.edges ++ es⟩, none) := by
  simp only [visit, hc, hes]

theorem option_parses_value {α : Type} (parse : Str → Except error α) (value : Option Str)
    (h : option_parses parse value = true) : ∃ a, option_value parse value = .ok a := by
  cases value with
  | none => exact ⟨none, rfl⟩
  | some v =>
    simp only [option_parses] at h
    simp only [option_value]
    cases hp : parse v with
    | ok n => exact ⟨some n, rfl⟩
    | error e => rw [hp] at h; cases h

theorem round_links (options : config_options) (thr : kernel → Bool)
    (hopt : options_parse options = true) (parent child : kernel) (size index : Nat) :
    ∃ es, child_edges options thr parent size index child = .ok es ∧
      es.length = link_count parent size child ∧
      ∀ e ∈ es, e.source = child ∧ e.target = parent := by
  obtain ⟨⟨b, y⟩, hth⟩ := flow_control_thresholds_ok options hopt
  simp only [options_parse, Bool.and_eq_true] at hopt
  obtain ⟨⟨_, h3⟩, h4⟩ := hopt
  obtain ⟨parts, hparts⟩ := option_parses_value stoi _ h3
  obtain ⟨load, hload⟩ := option_parses_value stoull _ h4
  unfold link_count
  by_cases hsize : 1 < size
  · rw [child_edges_many options thr parent child size index b y hth hsize]
    exact ⟨_, rfl, by simp [hsize], by simp⟩
  · by_cases hpair : parallel_pair child parent
    · rw [child_edges_parallel options thr parent child size index b y hth hsize hpair]
      exact ⟨_, rfl, by simp [hsize, hpair], by simp⟩
    · by_cases hp2 : partition_to_merge child parent
      · rw [child_edges_partition options thr parent child size index b y parts hth hparts
          hsize hpair hp2]
        exact ⟨_, rfl, by simp [hpair], by simp⟩
      · by_cases hscan : scan_kernel child
        · rw [child_edges_scan options thr parent child size index b y load hth hload
            hsize hpair hp2 hscan]
          exact ⟨_, rfl, by simp [hpair], by simp⟩
        · rw [child_edges_fallback options thr parent child size index b y hth hsize hpair
            hp2 hscan]
          exact ⟨_, rfl, by simp [hpair], by simp⟩

theorem visit_links (options : config_options) (thr : kernel → Bool)
    (hopt : options_parse options = true) (n : node) :
    ∀ g, visit_node options thr n g = (⟨g.nodes, g.edges ++ node_links options thr n⟩, none) := by
  refine node_list_induction
    (fun n => ∀ g, visit_node options thr n g
      = (⟨g.nodes, g.edges ++ node_links options thr n⟩, none))
    (fun cs => ∀ parent size index g, visit options thr parent size index cs g
      = (⟨g.nodes, g.edges ++ children_links options thr parent size index cs⟩, none))
    ?_ ?_ ?_ n
  · intro e l k cs ih g
    simp only [visit_node, node_links]
    exact ih k cs.length 0 g
  · intro parent size index g
    simp only [visit, children_links, List.append_nil]
  · intro c cs ihc ihcs parent size index g
    obtain ⟨es, hes, _, _⟩ := round_links options thr hopt parent c.kernel_unit size index
    simp only [visit, ihc g, hes, children_links, round_edges]
    rw [ihcs]
    simp only [List.append_assoc]

theorem round_in_children_links (options : config_options) (thr : kernel → Bool)
    (parent : kernel) (size : Nat) :
    ∀ (cs : List node) (index i : Nat) (c : node), cs[i]? = some c →
      ∀ e ∈ round_edges options thr parent size (index + i) c.kernel_unit,
        e ∈ children_links options thr parent size index cs := by
  intro cs
  induction cs with
  | nil => intro index i c h; simp at h
  | cons d ds ih =>
    intro index i c h e he
    simp only [children_links, List.mem_append]
    cases i with
    | zero =>
      simp only [List.getElem?_cons_zero, Option.some.injEq] at h
      subst h
      left; right
      simpa using he
    | succ j =>
      simp only [List.getElem?_cons_succ] at h
      right
      apply ih (index + 1) j c h
      have : index + 1 + j = index + (j + 1) := by omega
      rw [this]; exact he

theorem char_toNat_ofNat (n : Nat) (h : n < 256) : (Char.ofNat n).toNat = n := by
  have hv : n.isValidChar := Or.inl (by omega)
  simp only [Char.ofNat, hv, Char.ofNatAux, Char.toNat, dite_true]
  rfl

theorem input_port_name_injective (i j : Nat) (hi : i < 256) (hj : j < 256)
    (h : input_port_name i = input_port_name j) : i = j := by
  unfold input_port_name at h
  have h2 := List.append_cancel_left h
  simp only [List.cons.injEq, and_true] at h2
  have h3 := congrArg Char.toNat h2
  rw [char_toNat_ofNat _ (Nat.mod_lt _ (by decide)),
    char_toNat_ofNat _ (Nat.mod_lt _ (by decide))] at h3
  omega

/-- C14, as stated, fails: below a parent with 27 children the child at
index 26 is linked to the port `input_` followed by an opening brace, which
is no lowercase letter; and below a parent with 257 children the child at
index 256 is linked to `input_a`, the port of the first child. -/
theorem port_letter_counterexample :
    child_edges no_options (fun _ => true) union_kernel 27 26 (scan_kernel_of 27)
      = .ok [⟨scan_kernel_of 27, default_output_port, union_kernel, "input_\x7b".toList,
          ⟨.SIMPLE, 1, UINT32_MAX, SIZE_MAX⟩⟩] ∧
    '\x7b'.isLower = false ∧
    child_edges no_options (fun _ => true) union_kernel 257 256 (scan_kernel_of 257)
      = .ok [⟨scan_kernel_of 257, default_output_port, union_kernel, "input_a".toList,
          ⟨.SIMPLE, 1, UINT32_MAX, SIZE_MAX⟩⟩] ∧
    child_edges no_options (fun _ => true) union_kernel 257 0 (scan_kernel_of 1)
      = .ok [⟨scan_kernel_of 1, default_output_port, union_kernel, "input_a".toList,
          ⟨.SIMPLE, 1, UINT32_MAX, SIZE_MAX⟩⟩] := by
  refine ⟨by rfl, by decide, by rfl, by rfl⟩

/-- C14, amended: provided every numeric option that is set is read by
`std::stoi` or `std::stoull` without raising (the flow-control thresholds
being `b` and `y`): below a parent with more than one child, the child at
index i gets exactly one edge, to the parent's port named `input_` followed
by the character with code ('a' + i) mod 256; this is the i-th lowercase
letter for i below 26, and distinct children get distinct ports as long as
the parent has at most 256 children.  The rule takes precedence over all
others whatever the kinds of child and parent; the channel is SIMPLE with
one partition and carries the default throttled thresholds when the parent
can throttle its input, the unlimited defaults otherwise.  In `visit` the
edge of the child at index i is among the edges linked. -/
theorem many_children_input_ports (options : config_options) (thr : kernel → Bool)
    (b y : Nat) (hopt : options_parse options = true)
    (hth : flow_control_thresholds options = .ok (b, y)) :
    (∀ (parent child : kernel) (size index : Nat), 1 < size →
      child_edges options thr parent size index child
        = .ok [⟨child, default_output_port, parent,
            "input_".toList ++ [Char.ofNat ((97 + index) % 256)],
            if thr parent then ⟨.SIMPLE, 1, b, y⟩ else ⟨.SIMPLE, 1, UINT32_MAX, SIZE_MAX⟩⟩]) ∧
    (∀ i, i < 26 → "input_".toList ++ [Char.ofNat ((97 + i) % 256)]
      = "input_".toList ++ [lowercase_letters.getD i ' ']) ∧
    (∀ i j, i < 256 → j < 256 →
      "input_".toList ++ [Char.ofNat ((97 + i) % 256)]
        = "input_".toList ++ [Char.ofNat ((97 + j) % 256)] → i = j) ∧
    (∀ (e : Str) (l : Nat) (k : kernel) (cs : List node) (g : graph) (i : Nat) (c : node),
      1 < cs.length → cs[i]? = some c →
        (⟨c.kernel_unit, default_output_port, k,
            "input_".toList ++ [Char.ofNat ((97 + i) % 256)],
            if thr k then ⟨.SIMPLE, 1, b, y⟩ else ⟨.SIMPLE, 1, UINT32_MAX, SIZE_MAX⟩⟩ : edge)
          ∈ (visit_node options thr (.mk e l k cs) g).1.edges) := by
  have key : ∀ (parent child : kernel) (size index : Nat), 1 < size →
      child_edges options thr parent size index child
        = .ok [⟨child, default_output_port, parent,
            "input_".toList ++ [Char.ofNat ((97 + index) % 256)],
            if thr parent then ⟨.SIMPLE, 1, b, y⟩ else ⟨.SIMPLE, 1, UINT32_MAX, SIZE_MAX⟩⟩] := by
    intro parent child size index hsize
    rw [child_edges_many options thr parent child size index b y hth hsize]
    rfl
  refine ⟨key, by decide, fun i j hi hj h => input_port_name_injective i j hi hj h, ?_⟩
  intro e l k cs g i c hlen hc
  rw [visit_links options thr hopt]
  simp only [List.mem_append, node_links]
  right
  apply round_in_children_links options thr k cs.length cs 0 i c hc
  simp only [round_edges, Nat.zero_add, key k c.kernel_unit cs.length i hlen,
    List.mem_singleton]

/-- Witness of the amended C14: no option set, a parent that throttles. -/
theorem many_children_input_ports_witness :
    options_parse no_options = true ∧
    flow_control_thresholds no_options = .ok (UINT32_MAX, SIZE_MAX) ∧
    child_edges no_options (fun _ => true) union_kernel 2 1 (scan_kernel_of 2)
      = .ok [⟨scan_kernel_of 2, default_output_port, union_kernel, "input_b".toList,
          ⟨.SIMPLE, 1, UINT32_MAX, SIZE_MAX⟩⟩] :=
  ⟨by decide, by rfl,
    (many_children_input_ports no_options (fun _ => true) UINT32_MAX SIZE_MAX (by decide)
      (by rfl)).1 union_kernel (scan_kernel_of 2) 2 1 (by decide)⟩

/-- C15, as stated, fails: a distributed SortAndSample child below a
single-node Partition parent with one child is no pair of the second rule;
it gets one edge from `output` to `input`, not two.  The build of a plan
that pairs the two operators links that single edge. -/
theorem mixed_variants_counterexample :
    child_edges no_options (fun _ => true)
        ⟨0, .PartitionSingleNodeKernel, "LogicalSingleNodePartition(sort0=[$0])".toList⟩ 1 0
        ⟨1, .SortAndSampleKernel, "LogicalSortAndSample(sort0=[$0])".toList⟩
      = .ok [⟨⟨1, .SortAndSampleKernel, "LogicalSortAndSample(sort0=[$0])".toList⟩,
          default_output_port,
          ⟨0, .PartitionSingleNodeKernel, "LogicalSingleNodePartition(sort0=[$0])".toList⟩,
          default_input_port, ⟨.SIMPLE, 1, UINT32_MAX, SIZE_MAX⟩⟩] ∧
    (build_batch_graph 1 (fun _ => false) (fun _ => some 0) no_options (fun _ => true) 12
        (some mixed_sort_plan)).map (fun o => (o.raised, o.query_graph.edges.map
          (fun e => (e.source.type_id, e.source_port, e.target.type_id, e.target_port))))
      = some (none,
          [(.TableScanKernel, "output".toList, .SortAndSampleKernel, "input".toList),
           (.SortAndSampleKernel, "output".toList, .PartitionSingleNodeKernel,
            "input".toList)]) := by
  refine ⟨by rfl, by rfl⟩

/-- C15, amended: provided the two flow-control options, where set, are
read by `std::stoi` and `std::stoull` without raising (giving the thresholds
`b` and `y`): below a parent with exactly one child, when (child kind,
parent kind) is (JoinPartition, PartwiseJoin), (SortAndSample, Partition) or
(SortAndSampleSingleNode, PartitionSingleNode), the child gets exactly two
edges, `output_a` to `input_a` and `output_b` to `input_b`, each SIMPLE with
one partition, each carrying the default throttled thresholds when the
parent can throttle its input and the unlimited defaults otherwise; with both
thresholds at MAX the two edges carry no limit even if the parent
throttles.  A sort-and-sample child below a partition parent of the other
variant is no such pair: it gets the single edge of the fallback rule. -/
theorem parallel_pair_two_edges (options : config_options) (thr : kernel → Bool)
    (parent child : kernel) (index b y : Nat)
    (hth : flow_control_thresholds options = .ok (b, y))
    (hpair : (child.type_id = .JoinPartitionKernel ∧ parent.type_id = .PartwiseJoinKernel)
      ∨ (child.type_id = .SortAndSampleKernel ∧ parent.type_id = .PartitionKernel)
      ∨ (child.type_id = .SortAndSampleSingleNodeKernel
          ∧ parent.type_id = .PartitionSingleNodeKernel)) :
    child_edges options thr parent 1 index child
      = .ok [⟨child, "output_a".toList, parent, "input_a".toList,
              if thr parent then ⟨.SIMPLE, 1, b, y⟩ else ⟨.SIMPLE, 1, UINT32_MAX, SIZE_MAX⟩⟩,
             ⟨child, "output_b".toList, parent, "input_b".toList,
              if thr parent then ⟨.SIMPLE, 1, b, y⟩ else ⟨.SIMPLE, 1, UINT32_MAX, SIZE_MAX⟩⟩] ∧
    (b = UINT32_MAX → y = SIZE_MAX →
      child_edges options thr parent 1 index child
        = .ok [⟨child, "output_a".toList, parent, "input_a".toList,
                ⟨.SIMPLE, 1, UINT32_MAX, SIZE_MAX⟩⟩,
               ⟨child, "output_b".toList, parent, "input_b".toList,
                ⟨.SIMPLE, 1, UINT32_MAX, SIZE_MAX⟩⟩]) ∧
    (∀ (c : node) (g g1 : graph), c.kernel_unit = child →
      visit_node options thr c g = (g1, none) →
      visit options thr parent 1 0 [c] g
        = (⟨g1.nodes, g1.edges ++
            [⟨child, "output_a".toList, parent, "input_a".toList,
              if thr parent then ⟨.SIMPLE, 1, b, y⟩ else ⟨.SIMPLE, 1, UINT32_MAX, SIZE_MAX⟩⟩,
             ⟨child, "output_b".toList, parent, "input_b".toList,
              if thr parent then ⟨.SIMPLE, 1, b, y⟩
              else ⟨.SIMPLE, 1, UINT32_MAX, SIZE_MAX⟩⟩]⟩, none)) ∧
    ∀ (parent2 child2 : kernel) (index2 : Nat),
      ((child2.type_id = .SortAndSampleKernel
          ∧ parent2.type_id = .PartitionSingleNodeKernel)
        ∨ (child2.type_id = .SortAndSampleSingleNodeKernel
          ∧ parent2.type_id = .PartitionKernel)) →
      child_edges options thr parent2 1 index2 child2
        = .ok [⟨child2, default_output_port, parent2, default_input_port,
            if thr parent2 then ⟨.SIMPLE, 1, b, y⟩
            else ⟨.SIMPLE, 1, UINT32_MAX, SIZE_MAX⟩⟩] := by
  have key : ∀ index, child_edges options thr parent 1 index child
      = .ok [⟨child, "output_a".toList, parent, "input_a".toList,
              if thr parent then ⟨.SIMPLE, 1, b, y⟩ else ⟨.SIMPLE, 1, UINT32_MAX, SIZE_MAX⟩⟩,
             ⟨child, "output_b".toList, parent, "input_b".toList,
              if thr parent then ⟨.SIMPLE, 1, b, y⟩
              else ⟨.SIMPLE, 1, UINT32_MAX, SIZE_MAX⟩⟩] := by
    intro index
    rw [child_edges_parallel options thr parent child 1 index b y hth (by decide) hpair]
    rfl
  refine ⟨key index, ?_, ?_, ?_⟩
  · intro hb hy
    rw [key index, hb, hy]
    simp
  · intro c g g1 hc hv
    subst hc
    exact visit_one options thr parent 1 0 c g g1 _ hv (key 0)
  · intro parent2 child2 index2 hmixed
    have h1 : ¬ parallel_pair child2 parent2 := by
      unfold parallel_pair
      rcases hmixed with ⟨hc, hp⟩ | ⟨hc, hp⟩ <;> simp [hc, hp]
    have h2 : ¬ partition_to_merge child2 parent2 := by
      unfold partition_to_merge
      rcases hmixed with ⟨hc, hp⟩ | ⟨hc, hp⟩ <;> simp [hc, hp]
    have h3 : ¬ scan_kernel child2 := by
      unfold scan_kernel
      rcases hmixed with ⟨hc, hp⟩ | ⟨hc, hp⟩ <;> simp [hc]
    rw [child_edges_fallback options thr parent2 child2 1 index2 b y hth (by decide) h1 h2 h3]
    rfl

/-- Witness of the amended C15: JoinPartition below PartwiseJoin, no option
set. -/
theorem parallel_pair_two_edges_witness :
    flow_control_thresholds no_options = .ok (UINT32_MAX, SIZE_MAX) ∧
    child_edges no_options (fun _ => true)
        ⟨0, .PartwiseJoinKernel, "LogicalPartwiseJoin(c)".toList⟩ 1 0
        ⟨1, .JoinPartitionKernel, "LogicalJoinPartition(c)".toList⟩
      = .ok [⟨⟨1, .JoinPartitionKernel, "LogicalJoinPartition(c)".toList⟩, "output_a".toList,
              ⟨0, .PartwiseJoinKernel, "LogicalPartwiseJoin(c)".toList⟩, "input_a".toList,
              ⟨.SIMPLE, 1, UINT32_MAX, SIZE_MAX⟩⟩,
             ⟨⟨1, .JoinPartitionKernel, "LogicalJoinPartition(c)".toList⟩, "output_b".toList,
              ⟨0, .PartwiseJoinKernel, "LogicalPartwiseJoin(c)".toList⟩, "input_b".toList,
              ⟨.SIMPLE, 1, UINT32_MAX, SIZE_MAX⟩⟩] :=
  ⟨by rfl,
    (parallel_pair_two_edges no_options (fun _ => true)
      ⟨0, .PartwiseJoinKernel, "LogicalPartwiseJoin(c)".toList⟩
      ⟨1, .JoinPartitionKernel, "LogicalJoinPartition(c)".toList⟩ 0 UINT32_MAX SIZE_MAX
      (by rfl) (Or.inl ⟨rfl, rfl⟩)).1⟩

/-- C18, as stated, fails: with the batches threshold set to 5 and the bytes
threshold set to MAX (18446744073709551615) both are set, but the bytes
threshold does not keep its value, it becomes 0; and with only the bytes
threshold set, to MAX, the batches threshold is not forced to 0, it stays
MAX. -/
theorem thresholds_set_to_MAX_counterexample :
    default_throttled_cache_machine_config
        (flow_control_options (some "5") (some "18446744073709551615"))
      = .ok ⟨.SIMPLE, 1, 5, 0⟩ ∧
    default_throttled_cache_machine_config
        (flow_control_options none (some "18446744073709551615"))
      = .ok ⟨.SIMPLE, 1, UINT32_MAX, SIZE_MAX⟩ ∧
    SIZE_MAX = 18446744073709551615 := by
  refine ⟨by rfl, by rfl, by rfl⟩

/-- C18, amended: the default throttled configuration `visit` computes is
always SIMPLE with one partition.  With each threshold read from its option
and taken as MAX when the option is not set: if both are MAX (in particular
if neither option is set) both thresholds are MAX, no limits; if exactly one
differs from MAX, that threshold keeps its value and the other is forced to
0; if both differ from MAX, both keep their values.  A threshold set to MAX
counts as not set.  It is the configuration of the edge of a child of a
parent with several children that can throttle its input. -/
theorem default_throttled_thresholds (options : config_options) (batches : Option Int)
    (bytes : Option Nat)
    (hB : option_value stoi (options "FLOW_CONTROL_BATCHES_THRESHOLD".toList) = .ok batches)
    (hY : option_value stoull (options "FLOW_CONTROL_BYTES_THRESHOLD".toList) = .ok bytes) :
    ∃ b y, default_throttled_cache_machine_config options = .ok ⟨.SIMPLE, 1, b, y⟩ ∧
      (batches = none → bytes = none → b = UINT32_MAX ∧ y = SIZE_MAX) ∧
      ((batches.map to_uint32).getD UINT32_MAX = UINT32_MAX → bytes.getD SIZE_MAX = SIZE_MAX →
        b = UINT32_MAX ∧ y = SIZE_MAX) ∧
      ((batches.map to_uint32).getD UINT32_MAX ≠ UINT32_MAX → bytes.getD SIZE_MAX = SIZE_MAX →
        b = (batches.map to_uint32).getD UINT32_MAX ∧ y = 0) ∧
      ((batches.map to_uint32).getD UINT32_MAX = UINT32_MAX → bytes.getD SIZE_MAX ≠ SIZE_MAX →
        b = 0 ∧ y = bytes.getD SIZE_MAX) ∧
      ((batches.map to_uint32).getD UINT32_MAX ≠ UINT32_MAX → bytes.getD SIZE_MAX ≠ SIZE_MAX →
        b = (batches.map to_uint32).getD UINT32_MAX ∧ y = bytes.getD SIZE_MAX) ∧
      (∀ (thr : kernel → Bool) (parent child : kernel) (size index : Nat),
        1 < size → thr parent = true →
        child_edges options thr parent size index child
          = .ok [⟨child, default_output_port, parent, input_port_name index,
              ⟨.SIMPLE, 1, b, y⟩⟩]) := by
  have hth := flow_control_thresholds_of_values options batches bytes hB hY
  obtain ⟨p, hp⟩ : ∃ p, adjusted ((batches.map to_uint32).getD UINT32_MAX)
      (bytes.getD SIZE_MAX) = p := ⟨_, rfl⟩
  rw [hp] at hth
  obtain ⟨b, y⟩ := p
  have hb : b = (adjusted ((batches.map to_uint32).getD UINT32_MAX) (bytes.getD SIZE_MAX)).1 := by
    rw [hp]
  have hy : y = (adjusted ((batches.map to_uint32).getD UINT32_MAX) (bytes.getD SIZE_MAX)).2 := by
    rw [hp]
  refine ⟨b, y, ?_, ?_, ?_, ?_, ?_, ?_, ?_⟩
  · simp only [default_throttled_cache_machine_config, hth]
  · intro h1 h2
    subst h1; subst h2
    rw [hb, hy]
    simp [adjusted]
  · intro h1 h2
    rw [hb, hy]
    simp [adjusted, h1, h2]
  · intro h1 h2
    rw [hb, hy]
    simp [adjusted, h1, h2]
  · intro h1 h2
    rw [hb, hy]
    simp [adjusted, h1, h2]
  · intro h1 h2
    rw [hb, hy]
    simp [adjusted, h1, h2]
  · intro thr parent child size index hsize hthr
    rw [child_edges_many options thr parent child size index b y hth hsize]
    simp [throttled_or_default, hthr]

/-- Witness of the amended C18: only the batches threshold set, to 5. -/
theorem default_throttled_thresholds_witness :
    option_value stoi
        (flow_control_options (some "5") none "FLOW_CONTROL_BATCHES_THRESHOLD".toList)
      = .ok (some 5) ∧
    ∃ b y, default_throttled_cache_machine_config (flow_control_options (some "5") none)
        = .ok ⟨.SIMPLE, 1, b, y⟩ ∧ b = 5 ∧ y = 0 :=
  ⟨by rfl,
    (default_throttled_thresholds (flow_control_options (some "5") none) (some 5) none
      (by rfl) (by rfl)).elim fun b h => h.elim fun y h2 =>
        ⟨b, y, h2.1, h2.2.2.2.1 (by decide) rfl⟩⟩

/-! ## The batches threshold over the range of a `std::uint32_t` -/

theorem digitChar_digit : ∀ k, k < 10 →
    (Nat.digitChar k).isDigit = true ∧ (Nat.digitChar k).toNat - '0'.toNat = k := by
  decide

theorem toDigitsCore_append : ∀ (fuel n : Nat) (ds : List Char),
    Nat.toDigitsCore 10 fuel n ds = Nat.toDigitsCore 10 fuel n [] ++ ds := by
  intro fuel
  induction fuel with
  | zero => intro n ds; rfl
  | succ fuel ih =>
    intro n ds
    simp only [Nat.toDigitsCore]
    by_cases h : n / 10 = 0
    · simp only [h, if_true, List.singleton_append]
    · simp only [h, if_false]
      rw [ih (n / 10) (Nat.digitChar (n % 10) :: ds), ih (n / 10) [Nat.digitChar (n % 10)]]
      simp

theorem digits_value_append (xs : Str) (d : Char) :
    digits_value (xs ++ [d]) = 10 * digits_value xs + (d.toNat - '0'.toNat) := by
  simp [digits_value, List.foldl_append]

theorem toDigitsCore_value : ∀ (fuel n : Nat), n < fuel →
    Nat.toDigitsCore 10 fuel n [] ≠ [] ∧
    (∀ c ∈ Nat.toDigitsCore 10 fuel n [], c.isDigit = true) ∧
    digits_value (Nat.toDigitsCore 10 fuel n []) = n := by
  intro fuel
  induction fuel with
  | zero => intro n h; omega
  | succ fuel ih =>
    intro n hn
    have hd := digitChar_digit (n % 10) (Nat.mod_lt _ (by decide))
    simp only [Nat.toDigitsCore]
    by_cases h : n / 10 = 0
    · simp only [h, if_true]
      refine ⟨by simp, ?_, ?_⟩
      · intro c hc
        simp only [List.mem_singleton] at hc
        rw [hc]; exact hd.1
      · have := digits_value_append [] (Nat.digitChar (n % 10))
        simp only [List.nil_append] at this
        rw [this, hd.2]
        simp only [digits_value, List.foldl_nil]
        omega
    · simp only [h, if_false]
      rw [toDigitsCore_append fuel (n / 10) [Nat.digitChar (n % 10)]]
      obtain ⟨_, h2, h3⟩ := ih (n / 10) (by omega)
      refine ⟨by simp, ?_, ?_⟩
      · intro c hc
        simp only [List.mem_append, List.mem_singleton] at hc
        rcases hc with hc | hc
        · exact h2 c hc
        · rw [hc]; exact hd.1
      · rw [digits_value_append, h3, hd.2]
        omega

theorem digit_not_space (c : Char) (h : c.isDigit = true) :
    isspace c = false ∧ c ≠ '-' ∧ c ≠ '+' := by
  refine ⟨?_, ?_, ?_⟩
  · rw [Bool.eq_false_iff]
    intro hs
    simp only [isspace, Bool.or_eq_true, beq_iff_eq] at hs
    rcases hs with ((((hs | hs) | hs) | hs) | hs) | hs <;> rw [hs] at h <;>
      exact absurd h (by decide)
  · intro hc; rw [hc] at h; exact absurd h (by decide)
  · intro hc; rw [hc] at h; exact absurd h (by decide)

theorem scan_number_digits (ds : Str) (hne : ds ≠ [])
    (hd : ∀ c ∈ ds, c.isDigit = true) : scan_number ds = (false, ds) := by
  cases ds with
  | nil => exact absurd rfl hne
  | cons c rest =>
    obtain ⟨h1, h2, h3⟩ := digit_not_space c (hd c (by simp))
    have htake : (c :: rest).takeWhile Char.isDigit = c :: rest :=
      List.takeWhile_eq_self_iff.mpr hd
    unfold scan_number
    have hdrop : (c :: rest).dropWhile isspace = c :: rest := by
      simp [List.dropWhile_cons, h1]
    rw [hdrop]
    split
    · rename_i r heq
      simp only [List.cons.injEq] at heq
      exact absurd heq.1 h2
    · rename_i r heq
      simp only [List.cons.injEq] at heq
      exact absurd heq.1 h3
    · rw [htake]

theorem stoi_decimal (v : Nat) :
    stoi (decimal v)
      = if 2 ^ 31 - 1 < v then .error .out_of_range else .ok (v : Int) := by
  obtain ⟨h1, h2, h3⟩ := toDigitsCore_value (v + 1) v (by omega)
  have hs : scan_number (decimal v) = (false, decimal v) := scan_number_digits _ h1 h2
  have hv : digits_value (decimal v) = v := h3
  unfold stoi
  rw [hs]
  cases hdv : decimal v with
  | nil => exact absurd hdv h1
  | cons c rest =>
    simp only
    rw [← hdv, hv]
    simp only [Bool.false_eq_true, if_false]
    by_cases hc : 2 ^ 31 - 1 < v
    · have : (v : Int) < -(2 ^ 31) ∨ 2 ^ 31 - 1 < (v : Int) := Or.inr (by omega)
      simp only [this, hc, if_true]
    · have : ¬ ((v : Int) < -(2 ^ 31) ∨ 2 ^ 31 - 1 < (v : Int)) := by omega
      simp only [this, hc, if_false]

theorem flow_control_thresholds_raises (options : config_options) (e : error)
    (h : flow_control_batches_threshold options = .error e) :
    flow_control_thresholds options = .error e := by
  unfold flow_control_batches_threshold at h
  unfold flow_control_thresholds
  cases hv : options "FLOW_CONTROL_BATCHES_THRESHOLD".toList with
  | none => rw [hv] at h; cases h
  | some v =>
    rw [hv] at h
    simp only at h ⊢
    cases hs : stoi v with
    | error w => rw [hs] at h; simp only at h ⊢; cases h; rfl
    | ok i => rw [hs] at h; cases h

theorem child_edges_raises (options : config_options) (thr : kernel → Bool) (e : error)
    (h : flow_control_thresholds options = .error e) (parent : kernel) (size index : Nat)
    (child : kernel) : child_edges options thr parent size index child = .error e := by
  unfold child_edges
  rw [h]

/-- C22, what the code does: with FLOW_CONTROL_BATCHES_THRESHOLD set to the
decimal text of v, `visit` reads the batches threshold v for every v up to
2^31 - 1, and for every larger v, so for every v from 2^31 to 2^32 - 1, MAX
included, `std::stoi` raises `out_of_range`: no threshold is read and every
round of the loop of `visit` raises instead of linking an edge. -/
theorem batches_threshold_of_decimal (v : Nat) :
    (v ≤ 2 ^ 31 - 1 →
      flow_control_batches_threshold (batches_threshold_set (decimal v)) = .ok v) ∧
    (2 ^ 31 - 1 < v →
      flow_control_batches_threshold (batches_threshold_set (decimal v))
        = .error .out_of_range ∧
      flow_control_thresholds (batches_threshold_set (decimal v)) = .error .out_of_range ∧
      ∀ (thr : kernel → Bool) (parent : kernel) (size index : Nat) (child : kernel),
        child_edges (batches_threshold_set (decimal v)) thr parent size index child
          = .error .out_of_range) := by
  have hkey : batches_threshold_set (decimal v) "FLOW_CONTROL_BATCHES_THRESHOLD".toList
      = some (decimal v) := by
    simp [batches_threshold_set]
  constructor
  · intro hv
    have hnot : ¬ 2 ^ 31 - 1 < v := by omega
    unfold flow_control_batches_threshold
    rw [hkey]
    simp only [stoi_decimal, hnot, if_false]
    have h32 : ((v : Int) % 2 ^ 32) = (v : Int) :=
      Int.emod_eq_of_lt (by omega) (by omega)
    simp only [to_uint32, h32, Int.toNat_ofNat]
  · intro hv
    have hb : flow_control_batches_threshold (batches_threshold_set (decimal v))
        = .error .out_of_range := by
      unfold flow_control_batches_threshold
      rw [hkey]
      simp only [stoi_decimal, hv, if_true]
    have ht := flow_control_thresholds_raises _ _ hb
    exact ⟨hb, ht, fun thr parent size index child =>
      child_edges_raises _ thr _ ht parent size index child⟩

/-- The code at the failing input of C22: the batches threshold set to MAX,
4294967295.  The threshold is not read, and the build of a filter over a
scan raises `out_of_range` in `visit` with no edge linked. -/
theorem batches_threshold_of_decimal_witness :
    decimal 4294967295 = "4294967295".toList ∧
    4294967295 = UINT32_MAX ∧
    flow_control_batches_threshold (batches_threshold_set (decimal 4294967295))
      = .error .out_of_range ∧
    build_batch_graph 1 (fun _ => false) (fun _ => some 0)
        (batches_threshold_set "4294967295".toList)
        (fun _ => true) (fuel_for filter_over_scan) (some filter_over_scan)
      = some ⟨⟨[⟨0, .FilterKernel, "LogicalFilter(condition=[>($0, 5)])".toList⟩], []⟩,
          some .out_of_range⟩ :=
  ⟨by decide, by decide, ((batches_threshold_of_decimal 4294967295).2 (by decide)).1, by rfl⟩

/-! ## Termination of `transform_json_tree` and the number of rewrites -/

theorem allSome_map_fst {α β γ : Type} (f : α → Option (β × γ)) (l : List α) :
    (allSome f l).map (List.map Prod.fst) = allSome (fun a => (f a).map Prod.fst) l := by
  induction l with
  | nil => rfl
  | cons a as ih =>
    simp only [allSome]
    cases hf : f a with
    | none => rfl
    | some b =>
      simp only [Option.map_some']
      rw [← ih]
      cases allSome f as <;> rfl

theorem counting_tree (N : Int) (hlo : Str → Bool) :
    ∀ (fuel : Nat) (t : ptree),
      (transform_json_tree_counting N hlo fuel t).map Prod.fst
        = transform_json_tree N hlo fuel t := by
  intro fuel
  induction fuel with
  | zero => intro t; rfl
  | succ fuel ih =>
    intro t
    cases t with
    | mk e cs =>
      simp only [transform_json_tree_counting, transform_json_tree]
      cases transform_node N hlo e cs with
      | mk e1 c1 =>
        simp only
        have h := allSome_map_fst (transform_json_tree_counting N hlo fuel) c1
        have hf : (fun a => (transform_json_tree_counting N hlo fuel a).map Prod.fst)
            = transform_json_tree N hlo fuel := funext ih
        rw [hf] at h
        rw [← h]
        cases allSome (transform_json_tree_counting N hlo fuel) c1 <;> rfl

theorem counting_step (N : Int) (hlo : Str → Bool) (g : Nat) (e : Str) (cs : List ptree) :
    transform_json_tree_counting N hlo (g + 1) (.mk e cs)
      = (allSome (transform_json_tree_counting N hlo g) (transform_node N hlo e cs).children).map
          (fun rs => (ptree.mk (transform_node N hlo e cs).expr (rs.map Prod.fst),
            rewrites_at e + (rs.map Prod.snd).sum)) := by
  simp only [transform_json_tree_counting]
  cases transform_node N hlo e cs with
  | mk e1 c1 =>
    simp only [ptree.children, ptree.expr]
    cases allSome (transform_json_tree_counting N hlo g) c1 <;> rfl

theorem rewrites_at_plain (e : Str) (h : plain e) : rewrites_at e = 0 := by
  obtain ⟨h1, h2, h3⟩ := h
  simp [rewrites_at, h1, h2, h3]

theorem counting_chain (N : Int) (hlo : Str → Bool) :
    ∀ es : List Str, es ≠ [] → (∀ x ∈ es, plain x) → ∀ (f : Nat) (cs : List ptree),
      transform_json_tree_counting N hlo (f + es.length) (chain_of es cs)
        = (allSome (transform_json_tree_counting N hlo f) cs).map
            (fun rs => (chain_of es (rs.map Prod.fst), (rs.map Prod.snd).sum)) := by
  intro es
  induction es with
  | nil => intro h; exact absurd rfl h
  | cons e es ih =>
    intro _ hp f cs
    have he : plain e := hp e (by simp)
    cases es with
    | nil =>
      simp only [chain_of, List.length_singleton]
      rw [counting_step, transform_node_plain N hlo e cs he, rewrites_at_plain e he]
      simp only [ptree.children, ptree.expr, Nat.zero_add]
    | cons e2 es =>
      have ih2 := ih (by simp) (fun x hx => hp x (by simp [hx])) f cs
      simp only [chain_of, List.length_cons] at ih2 ⊢
      rw [← Nat.add_assoc, counting_step, transform_node_plain N hlo e _ he,
        rewrites_at_plain e he]
      simp only [ptree.children, ptree.expr, Nat.zero_add]
      rw [allSome_single, ih2]
      cases allSome (transform_json_tree_counting N hlo f) cs <;> simp

theorem counting_top (N : Int) (hlo : Str → Bool) (e : Str) (f : Nat) (cs : List ptree) :
    transform_json_tree_counting N hlo (f + (produced N hlo e).length) (.mk e cs)
      = (allSome (transform_json_tree_counting N hlo f) cs).map
          (fun rs => (chain_of (produced N hlo e) (rs.map Prod.fst),
            rewrites_at e + (rs.map Prod.snd).sum)) := by
  have hne := produced_ne_nil N hlo e
  have hpl := produced_all_plain N hlo e
  have hT := transform_node_eq_chain N hlo e cs
  cases hp : produced N hlo e with
  | nil => exact absurd hp hne
  | cons p ps =>
    rw [hp] at hT hpl
    cases ps with
    | nil =>
      simp only [chain_of] at hT
      simp only [List.length_singleton, chain_of]
      rw [counting_step, hT]
      simp only [ptree.children, ptree.expr]
    | cons q qs =>
      simp only [chain_of] at hT
      have hc := counting_chain N hlo (q :: qs) (by simp)
        (fun x hx => hpl x (by simp [hx])) f cs
      simp only [List.length_cons, chain_of] at hc ⊢
      rw [← Nat.add_assoc, counting_step, hT]
      simp only [ptree.children, ptree.expr]
      rw [allSome_single, hc]
      cases allSome (transform_json_tree_counting N hlo f) cs <;> simp

theorem logical_nodes_mk (e : Str) (cs : List ptree) :
    (ptree.mk e cs).logical_nodes = rewrites_at e + (cs.map ptree.logical_nodes).sum := by
  have hl : ∀ l : List ptree,
      ((ptree.exprs_list l).filter (fun e => is_sort e || is_aggregate e || is_join e)).length
        = (l.map ptree.logical_nodes).sum := by
    intro l
    induction l with
    | nil => rfl
    | cons c l ih =>
      simp only [ptree.exprs_list, List.filter_append, List.length_append, ih, List.map_cons,
        List.sum_cons, ptree.logical_nodes]
  unfold ptree.logical_nodes rewrites_at
  simp only [ptree.exprs, List.filter_cons]
  split_ifs
  · simp only [List.length_cons, hl]
    unfold ptree.logical_nodes
    omega
  · simp only [hl]
    unfold ptree.logical_nodes
    omega

theorem counting_eq_aux (N : Int) (hlo : Str → Bool) :
    ∀ (n : Nat) (t : ptree), t.height ≤ n → ∀ fuel, 4 * n ≤ fuel →
      transform_json_tree_counting N hlo fuel t
        = some (rewritten N hlo t, t.logical_nodes) := by
  intro n
  induction n with
  | zero =>
    intro t ht
    cases t with
    | mk e cs => simp [ptree.height] at ht
  | succ n ih =>
    intro t ht fuel hfuel
    cases t with
    | mk e cs =>
      simp only [ptree.height] at ht
      have hlen := produced_length_le N hlo e
      obtain ⟨f, hf⟩ : ∃ f, fuel = f + (produced N hlo e).length :=
        ⟨fuel - (produced N hlo e).length, by omega⟩
      have hf4 : 4 * n ≤ f := by omega
      have hcs : allSome (transform_json_tree_counting N hlo f) cs
          = some (cs.map (fun c => (rewritten N hlo c, c.logical_nodes))) := by
        apply allSome_eq_map
        intro c hc
        exact ih c (by have := height_le_of_mem c cs hc; omega) f hf4
      rw [hf, counting_top, hcs, rewritten_mk, logical_nodes_mk]
      simp only [Option.map_some', List.map_map]
      rfl

/-- C23: `transform_json_tree` terminates on every plan tree for every
cluster size: with fuel for four levels per level of the input, the
recursion returns the rewritten tree.  A node the rewrite writes or inserts
passes none of the tests `is_sort`, `is_aggregate`, `is_join`, so the
recursion into the children of a rewritten node rewrites no inserted node:
the rewrites counted along the recursion are exactly the sort, aggregate and
join nodes of the input, one each, and so bounded by their number.  The
counting recursion returns the tree of `transform_json_tree`, whatever the
fuel. -/
theorem transform_json_tree_terminates (N : Int) (hlo : Str → Bool) (t : ptree) :
    (∀ fuel, fuel_for t ≤ fuel →
      transform_json_tree N hlo fuel t = some (rewritten N hlo t) ∧
      transform_json_tree_counting N hlo fuel t
        = some (rewritten N hlo t, t.logical_nodes)) ∧
    (∀ fuel, (transform_json_tree_counting N hlo fuel t).map Prod.fst
      = transform_json_tree N hlo fuel t) ∧
    (∀ (e : Str) (x : Str), x ∈ (transform_node N hlo e []).exprs →
      is_sort x = false ∧ is_aggregate x = false ∧ is_join x = false) := by
  refine ⟨?_, fun fuel => counting_tree N hlo fuel t, ?_⟩
  · intro fuel hfuel
    exact ⟨transform_json_tree_eq N hlo t fuel hfuel,
      counting_eq_aux N hlo t.height t (le_refl _) fuel hfuel⟩
  · intro e x hx
    exact produced_all_plain N hlo e x hx

/-- Witness of C23: a sort over a join of two scans, on two nodes.  Two of
the four nodes are logical operators; the run rewrites twice and returns a
tree of eight nodes. -/
theorem transform_json_tree_terminates_witness :
    fuel_for (.mk sort_by_first [.mk inner_join [table_scan, table_scan]]) = 12 ∧
    transform_json_tree_counting 2 (fun _ => false) 12
        (.mk sort_by_first [.mk inner_join [table_scan, table_scan]])
      = some (.mk "LogicalLimit(sort0=[$0], dir0=[ASC])".toList
          [.mk "LogicalMerge(sort0=[$0], dir0=[ASC])".toList
            [.mk "LogicalPartition(sort0=[$0], dir0=[ASC])".toList
              [.mk "LogicalSortAndSample(sort0=[$0], dir0=[ASC])".toList
                [.mk "LogicalPartwiseJoin(condition=[=($0, $1)], joinType=[inner])".toList
                  [.mk "LogicalJoinPartition(condition=[=($0, $1)], joinType=[inner])".toList
                    [table_scan, table_scan]]]]]], 2) :=
  ⟨by decide,
    ((transform_json_tree_terminates 2 (fun _ => false)
      (.mk sort_by_first [.mk inner_join [table_scan, table_scan]])).1 12 (by decide)).2⟩

end ral.batch

namespace blazingdb.transport

/-! ## The message queue: first match and order by token -/

theorem find_if_split (pred : ReceivedMessage → Bool) :
    ∀ l : List ReceivedMessage, l.any pred = true →
      ∃ before message after, l = before ++ message :: after ∧
        (∀ e ∈ before, pred e = false) ∧ pred message = true ∧
        find_if pred l = before.length := by
  intro l
  induction l with
  | nil => intro h; simp at h
  | cons e es ih =>
    intro h
    by_cases he : pred e = true
    · exact ⟨[], e, es, rfl, by simp, he, by simp [find_if, he]⟩
    · have hes : es.any pred = true := by
        simp only [List.any_cons, Bool.or_eq_true] at h
        rcases h with h | h
        · exact absurd h he
        · exact h
      obtain ⟨before, message, after, h1, h2, h3, h4⟩ := ih hes
      refine ⟨e :: before, message, after, by rw [h1]; rfl, ?_, h3, ?_⟩
      · intro x hx
        rcases List.mem_cons.mp hx with hx | hx
        · rw [hx]; simpa using he
        · exact h2 x hx
      · simp [find_if, he, h4]

theorem getMessage_split (q : MessageQueue) (t : List Char)
    (h : ∃ e ∈ q.message_queue_, e.messageToken = t) :
    ∃ before message after, q.message_queue_ = before ++ message :: after ∧
      (∀ e ∈ before, e.messageToken ≠ t) ∧ message.messageToken = t ∧
      q.getMessage t = .returns (handle_of message) ⟨before ++ after⟩ := by
  have hany : q.message_queue_.any (fun e => e.messageToken == t) = true := by
    obtain ⟨e, he, het⟩ := h
    exact List.any_eq_true.mpr ⟨e, he, by simp [het]⟩
  obtain ⟨before, message, after, h1, h2, h3, h4⟩ := find_if_split _ _ hany
  refine ⟨before, message, after, h1, ?_, by simpa using h3, ?_⟩
  · intro e he
    simpa using h2 e he
  · have hlen : before.length ≠ q.message_queue_.length := by
      rw [h1]; simp
    have hget : q.message_queue_[before.length]? = some message := by
      rw [h1, List.getElem?_append_right (le_refl _)]
      simp
    have htake : q.message_queue_.take before.length = before := by
      rw [h1]; simp
    have hdrop : q.message_queue_.drop (before.length + 1) = after := by
      rw [h1]; simp
    simp only [MessageQueue.getMessage, hany, if_true, MessageQueue.getMessageQueue, h4, hlen,
      if_false, hget, htake, hdrop, handle_of]
    split_ifs <;> rfl

/-- C19, as stated, fails: the queue holds one entry with the token, a
sentinel; `getMessage` removes it but returns a null handle, not the
entry. -/
theorem sentinel_not_returned_counterexample :
    MessageQueue.getMessage ⟨[⟨"t".toList, true, 0⟩]⟩ "t".toList = .returns none ⟨[]⟩ ∧
    MessageQueue.getMessage ⟨[⟨"t".toList, true, 0⟩]⟩ "t".toList
      ≠ .returns (some ⟨"t".toList, true, 0⟩) ⟨[]⟩ := by
  refine ⟨by decide, by decide⟩

/-- C19, amended: for every queue state that contains at least one entry
with token t, `getMessage(t)` returns: it takes the earliest entry whose
token is t, removes exactly that entry (the queue gets one shorter) and
leaves every other entry, of any token and also the later ones with token
t, in the queue in the original order; it returns that entry, or a null
handle when that entry is a sentinel. -/
theorem getMessage_takes_first_match (q : MessageQueue) (t : List Char)
    (h : ∃ e ∈ q.message_queue_, e.messageToken = t) :
    ∃ before message after, q.message_queue_ = before ++ message :: after ∧
      (∀ e ∈ before, e.messageToken ≠ t) ∧ message.messageToken = t ∧
      q.getMessage t
        = .returns (if message.sentinel then none else some message) ⟨before ++ after⟩ ∧
      (before ++ after).length + 1 = q.message_queue_.length := by
  obtain ⟨before, message, after, h1, h2, h3, h4⟩ := getMessage_split q t h
  refine ⟨before, message, after, h1, h2, h3, h4, ?_⟩
  rw [h1]
  simp only [List.length_append, List.length_cons]
  omega

/-- Witness of the amended C19: the second of three entries is the first
with the token. -/
theorem getMessage_takes_first_match_witness :
    (∃ e ∈ (⟨[⟨"u".toList, false, 1⟩, ⟨"t".toList, false, 2⟩, ⟨"t".toList, false, 3⟩]⟩ :
        MessageQueue).message_queue_, e.messageToken = "t".toList) ∧
    ∃ before message after,
      [(⟨"u".toList, false, 1⟩ : ReceivedMessage), ⟨"t".toList, false, 2⟩,
        ⟨"t".toList, false, 3⟩] = before ++ message :: after ∧
      MessageQueue.getMessage
          ⟨[⟨"u".toList, false, 1⟩, ⟨"t".toList, false, 2⟩, ⟨"t".toList, false, 3⟩]⟩
          "t".toList
        = .returns (if message.sentinel then none else some message) ⟨before ++ after⟩ :=
  ⟨⟨⟨"t".toList, false, 2⟩, by decide, rfl⟩,
    (getMessage_takes_first_match
      ⟨[⟨"u".toList, false, 1⟩, ⟨"t".toList, false, 2⟩, ⟨"t".toList, false, 3⟩]⟩ "t".toList
      ⟨⟨"t".toList, false, 2⟩, by decide, rfl⟩).elim
      fun before h => h.elim fun message h2 => h2.elim fun after h3 =>
        ⟨before, message, after, h3.1, h3.2.2.2.1⟩⟩

theorem getMessage_returns_split (q q1 : MessageQueue) (t : List Char)
    (handle : Option ReceivedMessage) (h : q.getMessage t = .returns handle q1) :
    ∃ before message after, q.message_queue_ = before ++ message :: after ∧
      (∀ e ∈ before, e.messageToken ≠ t) ∧ message.messageToken = t ∧
      handle = handle_of message ∧ q1 = ⟨before ++ after⟩ := by
  have hany : q.message_queue_.any (fun e => e.messageToken == t) = true := by
    by_contra hc
    simp only [MessageQueue.getMessage, hc] at h
    cases h
  obtain ⟨e, he, het⟩ := List.any_eq_true.mp hany
  obtain ⟨before, message, after, h1, h2, h3, h4⟩ :=
    getMessage_split q t ⟨e, he, by simpa using het⟩
  rw [h4] at h
  cases h
  exact ⟨before, message, after, h1, h2, h3, rfl, rfl⟩

theorem with_token_none (t : List Char) (l : List ReceivedMessage)
    (h : ∀ e ∈ l, e.messageToken ≠ t) : with_token t l = [] := by
  unfold with_token
  exact List.filter_eq_nil_iff.mpr (fun e he => by simpa using h e he)

theorem with_token_after_get (q q1 : MessageQueue) (t : List Char)
    (handle : Option ReceivedMessage) (h : q.getMessage t = .returns handle q1) :
    (with_token t q.message_queue_).map handle_of
        = handle :: (with_token t q1.message_queue_).map handle_of ∧
    ∀ u, u ≠ t → with_token u q1.message_queue_ = with_token u q.message_queue_ := by
  obtain ⟨before, message, after, h1, h2, h3, h4, h5⟩ := getMessage_returns_split q q1 t handle h
  subst h5
  rw [h1]
  constructor
  · have hb := with_token_none t before h2
    unfold with_token at hb ⊢
    simp only [List.filter_append, hb, List.nil_append, List.filter_cons, h3, beq_self_eq_true,
      if_true, List.map_cons, h4]
  · intro u hu
    have hm : (message.messageToken == u) = false := by
      rw [h3]; simpa using fun hc => hu hc.symm
    unfold with_token
    simp only [List.filter_append, List.filter_cons, hm, Bool.false_eq_true, if_false]

theorem run_order (t : List Char) :
    ∀ (ops : List operation) (q q2 : MessageQueue)
      (handles : List (List Char × Option ReceivedMessage)),
      run q ops = some (q2, handles) →
        handles_for t handles ++ (with_token t q2.message_queue_).map handle_of
          = (with_token t (q.message_queue_ ++ puts ops)).map handle_of := by
  intro ops
  induction ops with
  | nil =>
    intro q q2 handles h
    simp only [run, Option.some.injEq, Prod.mk.injEq] at h
    obtain ⟨h1, h2⟩ := h
    subst h1; subst h2
    simp [handles_for, puts]
  | cons op ops ih =>
    intro q q2 handles h
    cases op with
    | put message =>
      simp only [run] at h
      have := ih _ q2 handles h
      rw [this]
      simp [MessageQueue.putMessage, MessageQueue.putMessageQueue, puts]
    | get u =>
      simp only [run] at h
      cases hg : q.getMessage u with
      | waits => rw [hg] at h; cases h
      | assertion_fails => rw [hg] at h; cases h
      | returns handle q1 =>
        rw [hg] at h
        simp only at h
        cases hr : run q1 ops with
        | none => rw [hr] at h; cases h
        | some p =>
          obtain ⟨q3, hs⟩ := p
          rw [hr] at h
          simp only [Option.some.injEq, Prod.mk.injEq] at h
          obtain ⟨h1, h2⟩ := h
          subst h1; subst h2
          have ih2 := ih q1 q3 hs hr
          obtain ⟨k1, k2⟩ := with_token_after_get q q1 u handle hg
          have hsplit : ∀ l : List ReceivedMessage, ∀ l2,
              with_token t (l ++ l2) = with_token t l ++ with_token t l2 := by
            intro l l2; simp [with_token]
          simp only [puts]
          rw [hsplit] at ih2 ⊢
          by_cases htu : u = t
          · subst htu
            simp only [handles_for, List.filter_cons, beq_self_eq_true, if_true, List.map_cons,
              List.cons_append, List.map_append] at ih2 ⊢
            rw [ih2, k1]
            simp
          · have hut : (u == t) = false := by simpa using htu
            simp only [handles_for, List.filter_cons, hut, Bool.false_eq_true, if_false,
              List.map_append] at ih2 ⊢
            rw [ih2, k2 t (fun hc => htu hc.symm)]

theorem getMessage_by_head (q : MessageQueue) (u : List Char) :
    (with_token u q.message_queue_ = [] → q.getMessage u = .waits) ∧
    (∀ m rest, with_token u q.message_queue_ = m :: rest →
      ∃ q1, q.getMessage u = .returns (handle_of m) q1) := by
  constructor
  · intro h
    have hany : q.message_queue_.any (fun e => e.messageToken == u) = false := by
      unfold with_token at h
      rw [List.filter_eq_nil_iff] at h
      rw [Bool.eq_false_iff]
      intro hc
      obtain ⟨e, he, het⟩ := List.any_eq_true.mp hc
      exact h e he het
    simp only [MessageQueue.getMessage, hany, Bool.false_eq_true, if_false]
  · intro m rest h
    have hm : m ∈ with_token u q.message_queue_ := by rw [h]; simp
    unfold with_token at hm
    obtain ⟨hm1, hm2⟩ := List.mem_filter.mp hm
    obtain ⟨before, message, after, h1, h2, h3, h4⟩ :=
      getMessage_split q u ⟨m, hm1, by simpa using hm2⟩
    have hb := with_token_none u before h2
    rw [h1] at h
    unfold with_token at hb h
    simp only [List.filter_append, hb, List.nil_append, List.filter_cons, h3, beq_self_eq_true,
      if_true, List.cons.injEq] at h
    rw [← h.1]
    exact ⟨_, h4⟩

/-- C20, as stated, fails: the one entry put with the token is a sentinel,
and the `getMessage` that takes it returns a null handle, not the entry. -/
theorem sentinel_in_order_counterexample :
    run ⟨[]⟩ [.put ⟨"t".toList, true, 0⟩, .get "t".toList]
      = some (⟨[]⟩, [("t".toList, none)]) ∧
    run ⟨[]⟩ [.put ⟨"t".toList, true, 0⟩, .get "t".toList]
      ≠ some (⟨[]⟩, [("t".toList, some ⟨"t".toList, true, 0⟩)]) := by
  refine ⟨by decide, by decide⟩

/-- C20, amended: the queue is FIFO per token.  `putMessage` always returns
and appends its entry at the end.  For every sequence of `putMessage` and
`getMessage` calls that have returned, run from the empty queue, and every
token t, the handles returned by the successive `getMessage(t)` calls,
followed by those of the entries with token t still in the queue, are the
handles of the entries put with token t, in the order they were put, where
the handle of a sentinel is null and the handle of another entry is the
entry; calls for other tokens may be interleaved at will.  A `getMessage`
on t changes neither what a later `getMessage` on another token u returns
nor whether it has to wait. -/
theorem fifo_per_token :
    (∀ (q : MessageQueue) (message : ReceivedMessage),
      (q.putMessage message).message_queue_ = q.message_queue_ ++ [message]) ∧
    (∀ (ops : List operation) (q2 : MessageQueue)
      (handles : List (List Char × Option ReceivedMessage)) (t : List Char),
      run ⟨[]⟩ ops = some (q2, handles) →
        handles_for t handles ++ (with_token t q2.message_queue_).map handle_of
          = (with_token t (puts ops)).map handle_of ∧
        handles_for t handles <+: (with_token t (puts ops)).map handle_of) ∧
    (∀ (q q1 : MessageQueue) (t u : List Char) (handle : Option ReceivedMessage),
      u ≠ t → q.getMessage t = .returns handle q1 →
        (∀ handle2 q2, q.getMessage u = .returns handle2 q2 →
          ∃ q3, q1.getMessage u = .returns handle2 q3) ∧
        (q.getMessage u = .waits → q1.getMessage u = .waits)) := by
  refine ⟨fun q message => rfl, ?_, ?_⟩
  · intro ops q2 handles t h
    have := run_order t ops ⟨[]⟩ q2 handles h
    simp only [List.nil_append] at this
    exact ⟨this, ⟨_, this⟩⟩
  · intro q q1 t u handle hut h
    have hsame := (with_token_after_get q q1 t handle h).2 u hut
    obtain ⟨a1, a2⟩ := getMessage_by_head q u
    obtain ⟨b1, b2⟩ := getMessage_by_head q1 u
    constructor
    · intro handle2 q2 hq
      cases hw : with_token u q.message_queue_ with
      | nil => rw [a1 hw] at hq; cases hq
      | cons m rest =>
        obtain ⟨q4, hq4⟩ := a2 m rest hw
        rw [hq4] at hq
        cases hq
        rw [← hsame] at hw
        exact b2 m rest hw
    · intro hq
      cases hw : with_token u q.message_queue_ with
      | nil => rw [← hsame] at hw; exact b1 hw
      | cons m rest =>
        obtain ⟨q4, hq4⟩ := a2 m rest hw
        rw [hq4] at hq
        cases hq

/-- Witness of the amended C20: two entries put with the token around one
with another token, then taken in the order they were put. -/
theorem fifo_per_token_witness :
    run ⟨[]⟩ [.put ⟨"t".toList, false, 1⟩, .put ⟨"u".toList, false, 2⟩,
        .put ⟨"t".toList, true, 3⟩, .get "t".toList, .get "u".toList, .get "t".toList]
      = some (⟨[]⟩, [("t".toList, some ⟨"t".toList, false, 1⟩),
          ("u".toList, some ⟨"u".toList, false, 2⟩), ("t".toList, none)]) ∧
    handles_for "t".toList [("t".toList, some ⟨"t".toList, false, 1⟩),
        ("u".toList, some ⟨"u".toList, false, 2⟩), ("t".toList, none)]
      <+: (with_token "t".toList (puts [.put ⟨"t".toList, false, 1⟩,
        .put ⟨"u".toList, false, 2⟩, .put ⟨"t".toList, true, 3⟩, .get "t".toList,
        .get "u".toList, .get "t".toList])).map handle_of :=
  ⟨by decide,
    (fifo_per_token.2.1 _ ⟨[]⟩ _ "t".toList (by decide)).2⟩

theorem first_match_unique (t : List Char) :
    ∀ (before b : List ReceivedMessage) (message m : ReceivedMessage)
      (after a : List ReceivedMessage),
      before ++ message :: after = b ++ m :: a →
      (∀ e ∈ before, e.messageToken ≠ t) → (∀ e ∈ b, e.messageToken ≠ t) →
      message.messageToken = t → m.messageToken = t →
      before = b ∧ message = m ∧ after = a := by
  intro before
  induction before with
  | nil =>
    intro b message m after a h _ hb hm _
    cases b with
    | nil =>
      simp only [List.nil_append, List.cons.injEq] at h
      exact ⟨rfl, h.1, h.2⟩
    | cons x xs =>
      simp only [List.nil_append, List.cons_append, List.cons.injEq] at h
      exact absurd (h.1 ▸ hm) (hb x (by simp))
  | cons y ys ih =>
    intro b message m after a h hbefore hb hm hm2
    cases b with
    | nil =>
      simp only [List.nil_append, List.cons_append, List.cons.injEq] at h
      exact absurd (h.1 ▸ hm2) (hbefore y (by simp))
    | cons x xs =>
      simp only [List.cons_append, List.cons.injEq] at h
      obtain ⟨r1, r2, r3⟩ := ih xs message m after a h.2
        (fun e he => hbefore e (by simp [he])) (fun e he => hb e (by simp [he])) hm hm2
      exact ⟨by rw [h.1, r1], r2, r3⟩

/-- C21: for every queue state and token t, `getMessage(t)` returns a null
handle if and only if the queue has an entry with token t and the first such
entry is a sentinel; in that case the sentinel is removed from the queue and
the other entries stay, and a first match that is no sentinel is returned as
the very entry that is in the queue, and is removed too. -/
theorem null_handle_iff_first_match_sentinel (q : MessageQueue) (t : List Char) :
    ((∃ q1, q.getMessage t = .returns none q1) ↔
      ∃ before message after, q.message_queue_ = before ++ message :: after ∧
        (∀ e ∈ before, e.messageToken ≠ t) ∧ message.messageToken = t ∧
        message.sentinel = true) ∧
    (∀ before message after, q.message_queue_ = before ++ message :: after →
      (∀ e ∈ before, e.messageToken ≠ t) → message.messageToken = t →
        (message.sentinel = true → q.getMessage t = .returns none ⟨before ++ after⟩) ∧
        (message.sentinel = false →
          q.getMessage t = .returns (some message) ⟨before ++ after⟩)) := by
  have first : ∀ before message after, q.message_queue_ = before ++ message :: after →
      (∀ e ∈ before, e.messageToken ≠ t) → message.messageToken = t →
        q.getMessage t = .returns (handle_of message) ⟨before ++ after⟩ := by
    intro before message after h1 h2 h3
    obtain ⟨b, m, a, g1, g2, g3, g4⟩ :=
      getMessage_split q t ⟨message, by rw [h1]; simp, h3⟩
    obtain ⟨hb, hm, ha⟩ := first_match_unique t before b message m after a
      (h1.symm.trans g1) h2 g2 h3 g3
    rw [g4, hb, hm, ha]
  constructor
  · constructor
    · rintro ⟨q1, h⟩
      obtain ⟨before, message, after, h1, h2, h3, h4, _⟩ :=
        getMessage_returns_split q q1 t none h
      refine ⟨before, message, after, h1, h2, h3, ?_⟩
      unfold handle_of at h4
      split_ifs at h4 with hs
      · exact hs
    · rintro ⟨before, message, after, h1, h2, h3, h4⟩
      refine ⟨⟨before ++ after⟩, ?_⟩
      rw [first before message after h1 h2 h3]
      simp [handle_of, h4]
  · intro before message after h1 h2 h3
    rw [first before message after h1 h2 h3]
    constructor
    · intro hs; simp [handle_of, hs]
    · intro hs; simp [handle_of, hs]

/-- Witness of C21: the first entry with the token is a sentinel behind an
entry with another token; the call returns a null handle and removes the
sentinel only. -/
theorem null_handle_iff_first_match_sentinel_witness :
    MessageQueue.getMessage
        ⟨[⟨"u".toList, false, 1⟩, ⟨"t".toList, true, 2⟩, ⟨"t".toList, false, 3⟩]⟩ "t".toList
      = .returns none ⟨[⟨"u".toList, false, 1⟩, ⟨"t".toList, false, 3⟩]⟩ :=
  ((null_handle_iff_first_match_sentinel
      ⟨[⟨"u".toList, false, 1⟩, ⟨"t".toList, true, 2⟩, ⟨"t".toList, false, 3⟩]⟩
      "t".toList).2 [⟨"u".toList, false, 1⟩] ⟨"t".toList, true, 2⟩ [⟨"t".toList, false, 3⟩]
    rfl (by decide) rfl).1 rfl

/-! ## The assertion of `getMessageQueue` -/

theorem any_iff_find_if (pred : ReceivedMessage → Bool) (l : List ReceivedMessage) :
    l.any pred = true ↔ find_if pred l ≠ l.length := by
  induction l with
  | nil => simp [find_if]
  | cons e es ih =>
    by_cases he : pred e = true
    · simp [find_if, he]
    · simp only [Bool.not_eq_true] at he
      simp only [List.any_cons, he, Bool.false_or, find_if, Bool.false_eq_true, if_false,
        List.length_cons, ne_eq, add_left_inj]
      exact ih

theorem getMessageQueue_of_any (q : MessageQueue) (t : List Char)
    (h : q.message_queue_.any (fun e => e.messageToken == t) = true) :
    ∃ handle q1, q.getMessageQueue t = .returns handle q1 := by
  obtain ⟨e, he, het⟩ := List.any_eq_true.mp h
  obtain ⟨before, message, after, _, _, _, h4⟩ :=
    getMessage_split q t ⟨e, he, by simpa using het⟩
  simp only [MessageQueue.getMessage, h, if_true] at h4
  exact ⟨_, _, h4⟩

theorem getMessage_never_fails (q : MessageQueue) (t : List Char) :
    q.getMessage t ≠ .assertion_fails := by
  by_cases h : q.message_queue_.any (fun e => e.messageToken == t) = true
  · obtain ⟨handle, q1, h1⟩ := getMessageQueue_of_any q t h
    simp [MessageQueue.getMessage, h, h1]
  · simp [MessageQueue.getMessage, h]

theorem move_threads (s : shared_queue) (i : Nat) (q : MessageQueue) (m : Option Nat)
    (p : program_point) (j : Nat) :
    (s.move i q m p).threads j = if j = i then ⟨(s.threads i).call, p⟩ else s.threads j := by
  unfold shared_queue.move
  simp only [Function.update_apply]

theorem move_safe (s : shared_queue) (i : Nat) (q : MessageQueue) (m : Option Nat)
    (p : program_point) (hs : s.safe)
    (hlock : p.holds_lock = true ↔ m = some i)
    (hm : m = s.mutex_ ∨ (m = none ∧ s.mutex_ = some i) ∨ (m = some i ∧ s.mutex_ = none))
    (hq : q = s.queue ∨ s.mutex_ = some i)
    (hp : p ≠ .assertion_failed)
    (hpred : p = .get_proceeds → ∀ t, (s.threads i).call = .get t →
      q.message_queue_.any (fun e => e.messageToken == t) = true) :
    (s.move i q m p).safe := by
  obtain ⟨h1, h2, h3⟩ := hs
  refine ⟨?_, ?_, ?_⟩
  · intro j
    rw [move_threads]
    by_cases hj : j = i
    · subst hj
      simpa [shared_queue.move] using hlock
    · simp only [hj, if_false]
      show _ ↔ m = some j
      rw [h1 j]
      rcases hm with hm | ⟨hm, hm2⟩ | ⟨hm, hm2⟩
      · rw [hm]
      · rw [hm, hm2]
        simp [Ne.symm hj]
      · rw [hm, hm2]
        simp [Ne.symm hj]
  · intro j t
    rw [move_threads]
    by_cases hj : j = i
    · subst hj
      simp only [if_true]
      intro hp1 hc
      exact hpred hp1 t hc
    · simp only [hj, if_false]
      intro hp1 hc
      show q.message_queue_.any _ = true
      rcases hq with hq | hq
      · rw [hq]
        exact h2 j t hp1 hc
      · have : s.mutex_ = some j := (h1 j).mp (by rw [hp1]; rfl)
        rw [hq] at this
        exact absurd (Option.some.inj this).symm hj
  · intro j
    rw [move_threads]
    by_cases hj : j = i
    · subst hj
      simpa using hp
    · simp only [hj, if_false]
      exact h3 j

theorem step_safe (s : shared_queue) (i : Nat) (hs : s.safe) : (s.step i).safe := by
  have hown : (s.threads i).point.holds_lock = true → s.mutex_ = some i := (hs.1 i).mp
  unfold shared_queue.step
  cases hp : (s.threads i).point with
  | entry =>
    simp only
    by_cases hm : s.mutex_ = none
    · simp only [hm, if_true]
      cases hc : (s.threads i).call with
      | put message =>
        exact move_safe s i _ _ _ hs (by simp [program_point.holds_lock])
          (Or.inr (Or.inr ⟨rfl, hm⟩)) (Or.inl rfl) (by simp) (by simp)
      | get t =>
        exact move_safe s i _ _ _ hs (by simp [program_point.holds_lock])
          (Or.inr (Or.inr ⟨rfl, hm⟩)) (Or.inl rfl) (by simp) (by simp)
    · simp only [hm, if_false]
      exact hs
  | put_locked =>
    have ho := hown (by rw [hp]; rfl)
    simp only
    cases hc : (s.threads i).call with
    | put message =>
      exact move_safe s i _ _ _ hs (by simp [program_point.holds_lock, ho])
        (Or.inl rfl) (Or.inr ho) (by simp) (by simp)
    | get t => exact hs
  | put_pushed =>
    have ho := hown (by rw [hp]; rfl)
    exact move_safe s i _ _ _ hs (by simp [program_point.holds_lock])
      (Or.inr (Or.inl ⟨rfl, ho⟩)) (Or.inl rfl) (by simp) (by simp)
  | put_unlocked =>
    have hno : s.mutex_ ≠ some i := by
      intro hc
      have := (hs.1 i).mpr hc
      rw [hp] at this
      simp [program_point.holds_lock] at this
    exact move_safe s i _ _ _ hs (by simp [program_point.holds_lock, hno])
      (Or.inl rfl) (Or.inl rfl) (by simp) (by simp)
  | put_returned => exact hs
  | get_locked =>
    have ho := hown (by rw [hp]; rfl)
    simp only
    cases hc : (s.threads i).call with
    | put message => exact hs
    | get t =>
      simp only
      by_cases hany : s.queue.message_queue_.any (fun e => e.messageToken == t) = true
      · simp only [hany, if_true]
        refine move_safe s i _ _ _ hs (by simp [program_point.holds_lock, ho])
          (Or.inl rfl) (Or.inl rfl) (by simp) ?_
        intro _ u hu
        rw [hc] at hu
        cases hu
        exact hany
      · simp only [hany, if_false]
        exact move_safe s i _ _ _ hs (by simp [program_point.holds_lock])
          (Or.inr (Or.inl ⟨rfl, ho⟩)) (Or.inl rfl) (by simp) (by simp)
  | get_waiting =>
    simp only
    by_cases hm : s.mutex_ = none
    · simp only [hm, if_true]
      exact move_safe s i _ _ _ hs (by simp [program_point.holds_lock])
        (Or.inr (Or.inr ⟨rfl, hm⟩)) (Or.inl rfl) (by simp) (by simp)
    · simp only [hm, if_false]
      exact hs
  | get_proceeds =>
    have ho := hown (by rw [hp]; rfl)
    simp only
    cases hc : (s.threads i).call with
    | put message => exact hs
    | get t =>
      obtain ⟨handle, q1, hq⟩ := getMessageQueue_of_any s.queue t (hs.2.1 i t hp hc)
      simp only [hq]
      exact move_safe s i _ _ _ hs (by simp [program_point.holds_lock, ho])
        (Or.inl rfl) (Or.inr ho) (by simp) (by simp)
  | get_taken handle =>
    have ho := hown (by rw [hp]; rfl)
    exact move_safe s i _ _ _ hs (by simp [program_point.holds_lock])
      (Or.inr (Or.inl ⟨rfl, ho⟩)) (Or.inl rfl) (by simp) (by simp)
  | get_returned handle => exact hs
  | assertion_failed => exact hs

theorem initial_safe (queue : MessageQueue) (calls : Nat → operation) :
    (shared_queue.initial queue calls).safe := by
  refine ⟨?_, ?_, ?_⟩
  · intro j
    simp [shared_queue.initial, program_point.holds_lock]
  · intro j t h
    simp [shared_queue.initial] at h
  · intro j
    simp [shared_queue.initial]

theorem interleave_safe (schedule : List Nat) :
    ∀ s : shared_queue, s.safe → (s.interleave schedule).safe := by
  induction schedule with
  | nil => intro s hs; exact hs
  | cons i rest ih =>
    intro s hs
    exact ih (s.step i) (step_safe s i hs)

theorem step_keeps_queue (s : shared_queue) (j : Nat)
    (h : s.mutex_ ≠ some j) (hs : s.safe) : (s.step j).queue = s.queue := by
  have hno : (s.threads j).point.holds_lock = false := by
    rw [Bool.eq_false_iff]
    exact fun hc => h ((hs.1 j).mp hc)
  unfold shared_queue.step
  cases hp : (s.threads j).point <;> rw [hp] at hno <;>
    first
    | (simp [program_point.holds_lock] at hno; done)
    | rfl
    | (simp only; split_ifs <;> first | rfl | (cases (s.threads j).call <;> rfl))

/-- C24: the assertion of `getMessageQueue` cannot fail when
`getMessageQueue` is reached through `getMessage`.  The wait predicate of
`getMessage` holds exactly when `find_if` locates an entry with the token,
so `getMessage` run on a queue never fails the assertion.  With any number
of threads calling `putMessage` and `getMessage` in any interleaving, no
thread ever fails the assertion, and while a thread stands between the
predicate and `getMessageQueue` no step of another thread changes the queue:
the thread owns the lock. -/
theorem assertion_of_getMessageQueue_never_fails :
    (∀ (q : MessageQueue) (t : List Char),
      (q.message_queue_.any (fun e => e.messageToken == t) = true ↔
        find_if (fun e => e.messageToken == t) q.message_queue_ ≠ q.message_queue_.length) ∧
      q.getMessage t ≠ .assertion_fails) ∧
    (∀ (queue : MessageQueue) (calls : Nat → operation) (schedule : List Nat) (i : Nat),
      (((shared_queue.initial queue calls).interleave schedule).threads i).point
        ≠ .assertion_failed ∧
      ((((shared_queue.initial queue calls).interleave schedule).threads i).point
          = .get_proceeds →
        ((shared_queue.initial queue calls).interleave schedule).mutex_ = some i ∧
        ∀ j, j ≠ i →
          (((shared_queue.initial queue calls).interleave schedule).step j).queue
            = ((shared_queue.initial queue calls).interleave schedule).queue)) := by
  refine ⟨fun q t => ⟨any_iff_find_if _ _, getMessage_never_fails q t⟩, ?_⟩
  intro queue calls schedule i
  have hs := interleave_safe schedule _ (initial_safe queue calls)
  refine ⟨hs.2.2 i, ?_⟩
  intro hp
  have ho : ((shared_queue.initial queue calls).interleave schedule).mutex_ = some i :=
    (hs.1 i).mp (by rw [hp]; rfl)
  refine ⟨ho, ?_⟩
  intro j hj
  apply step_keeps_queue _ j _ hs
  rw [ho]
  intro hc
  exact hj (Option.some.inj hc).symm

/-- Witness of C24: called on its own on a queue without the token,
`getMessageQueue` fails the assertion, `getMessage` waits instead; and a
thread that waits for a token gets the entry another thread puts. -/
theorem assertion_of_getMessageQueue_never_fails_witness :
    MessageQueue.getMessageQueue ⟨[]⟩ "t".toList = .assertion_fails ∧
    MessageQueue.getMessage ⟨[]⟩ "t".toList = .waits ∧
    MessageQueue.getMessage ⟨[]⟩ "t".toList ≠ .assertion_fails ∧
    (((shared_queue.initial ⟨[]⟩ two_calls).interleave
        [0, 0, 1, 1, 0, 1, 1, 1, 0, 0, 0, 0]).threads 0).point
      = .get_returned (some ⟨"t".toList, false, 7⟩) ∧
    (((shared_queue.initial ⟨[]⟩ two_calls).interleave
        [0, 0, 1, 1, 0, 1, 1, 1, 0, 0, 0, 0]).threads 0).point ≠ .assertion_failed :=
  ⟨by decide, by decide,
    (assertion_of_getMessageQueue_never_fails.1 ⟨[]⟩ "t".toList).2, by decide,
    (assertion_of_getMessageQueue_never_fails.2 ⟨[]⟩ two_calls
      [0, 0, 1, 1, 0, 1, 1, 1, 0, 0, 0, 0] 0).1⟩

end blazingdb.transport
